import Mathlib

/-!
# test-lang-llvm: lexer, parser and lowering

A shallow embedding of `lexer.go`, `ast.go`, `parser.go` and `codegen.go`.

* Go's `float64` values are only stored and copied by the front end, never
  computed with; their carrier is `Int` here.
* `scanner.Position` is only ever printed, so tokens carry no position.
* A Go function that can abort the process (slice index out of range, failed
  type assertion, call through a nil backend handle) returns `Result.panic`.
* Loops and mutually recursive functions take a `fuel` argument; running out
  of it is `Result.outOfFuel`, which is not an outcome of the Go program.
* A `nil` interface value / `nil` `llvm.Value` is `none` / `Value.nil`.
-/

namespace TestLang

/-! ## Outcomes -/

/-- Outcome of a call that threads the mutable state `σ`. -/
inductive Result (σ α : Type) where
  | ok (val : α) (st : σ)
  | panic
  | outOfFuel
  deriving DecidableEq

/-- Sequencing: run `k` on the value and state of a normal return. -/
def Result.bind {σ α β : Type} (r : Result σ α) (k : α → σ → Result σ β) : Result σ β :=
  match r with
  | .ok v s => k v s
  | .panic => .panic
  | .outOfFuel => .outOfFuel

/-- Lines written to standard output. -/
inductive Printed where
  /-- `Parser.error`: the message and the text of the offending token. -/
  | parseError (str : String) (got : String)
  /-- `fmt.Println` of one string. -/
  | line (s : String)
  deriving DecidableEq

/-! ## lexer.go -/

/-- Token kinds (`Type` in `lexer.go`). -/
inductive TokenType where
  | EOF
  | DEF
  | EXTERN
  | IF
  | ELSE
  | IDENTIFIER
  | NUMBERLITERAL
  | SYMBOL
  deriving DecidableEq

/-- Token of `lexer.go`, without its position. -/
structure Token where
  name : String
  ty : TokenType
  value : Int
  deriving DecidableEq

/-- Lexer of `lexer.go`. The `reader` field is the input as `text/scanner`
splits it: the texts of the tokens that `Scan` still has to return before it
returns `scanner.EOF`. -/
structure Lexer where
  reader : List String
  tokens : List Token
  index : Nat
  current : Token
  deriving DecidableEq

/-- `Lexer.next`: `l.index++; l.current = l.tokens[l.index]`; `none` when the
index is out of range. -/
def Lexer.next (l : Lexer) : Option (Token × Lexer) :=
  match l.tokens[l.index + 1]? with
  | some t => some (t, { l with index := l.index + 1, current := t })
  | none => none

/-- `whatType`, over the result of `strconv.ParseFloat` given as `parseFloat`. -/
def whatType (parseFloat : String → Option Int) (s : String) : TokenType :=
  if s = "def" then .DEF
  else if s = "import" then .EXTERN
  else if s = "if" then .IF
  else if s = "else" then .ELSE
  else if s = "(" ∨ s = ")" ∨ s = "," ∨ s = "+" ∨ s = "-" ∨ s = "/" ∨ s = "*" ∨ s = ":"
      ∨ s = ";" ∨ s = "=" then .SYMBOL
  else match parseFloat s with
    | some _ => .NUMBERLITERAL
    | none => .IDENTIFIER

/-- Token appended by one iteration of the loop of `tokenise` for the token
text `s`. -/
def scannedToken (parseFloat : String → Option Int) (s : String) : Token :=
  let ty := whatType parseFloat s
  { name := s, ty := ty,
    value := if ty = .NUMBERLITERAL then (parseFloat s).getD 0 else 0 }

/-- The loop of `tokenise`: one token per `Scan`, the scan that returns
`scanner.EOF` (token text `""`) included. -/
def tokeniseLoop (parseFloat : String → Option Int) : List String → List Token → List Token
  | [], acc => acc ++ [scannedToken parseFloat ""]
  | s :: rest, acc => tokeniseLoop parseFloat rest (acc ++ [scannedToken parseFloat s])

/-- `Lexer.tokenise`. -/
def Lexer.tokenise (parseFloat : String → Option Int) (l : Lexer) : Lexer :=
  let tokens := tokeniseLoop parseFloat l.reader [] ++ [{ name := "EOF", ty := .EOF, value := 0 }]
  { reader := [], tokens := tokens, index := 0,
    current := tokens.headD { name := "", ty := .EOF, value := 0 } }

/-! ## ast.go -/

/-- `PrototypeAST` of `ast.go`. -/
structure PrototypeAST where
  Name : String
  Args : List String
  deriving DecidableEq

/-- The values of the interface `ExprAST`: one constructor per implementing
struct of `ast.go`. -/
inductive ExprAST where
  | NumberExprAST (Value : Int)
  | VariableExprAST (Name : String)
  | BinaryExprAST (Operator : String) (LHS RHS : ExprAST)
  | CallExprAST (Callee : String) (Args : List ExprAST)
  | PrototypeAST (Proto : TestLang.PrototypeAST)
  | FunctionAST (Proto : TestLang.PrototypeAST) (Body : ExprAST)
  | IfExprAST (cond then_ el : ExprAST)

/-! ## parser.go -/

/-- `BinopPrecedence`: the map as a lookup function. -/
def BinopPrecedence (s : String) : Option Int :=
  if s = "=" then some 9
  else if s = "<" then some 10
  else if s = "+" then some 20
  else if s = "-" then some 20
  else if s = "*" then some 40
  else none

/-- `tokenPrecedence`. -/
def tokenPrecedence (tok : Token) : Int :=
  if tok.ty = .NUMBERLITERAL then -1
  else match BinopPrecedence tok.name with
    | some prec => prec
    | none => -1

/-- Parser of `parser.go`, with the lines it has printed. -/
structure Parser where
  lexer : Lexer
  anonCount : Int
  printed : List Printed
  deriving DecidableEq

/-- `Parser.next`. -/
def Parser.next (p : Parser) : Result Parser Token :=
  match p.lexer.next with
  | some (t, l) => .ok t { p with lexer := l }
  | none => .panic

/-- `Parser.have`. -/
def Parser.have (p : Parser) (expected : String) : Bool :=
  expected = p.lexer.current.name

/-- `Parser.error`: prints the diagnostic; the caller returns `nil`. -/
def Parser.error (p : Parser) (str : String) : Parser :=
  { p with printed := p.printed ++ [.parseError str p.lexer.current.name] }

/-- `Parser.expect`. -/
def Parser.expect (p : Parser) (expected : String) : Result Parser Bool :=
  if expected = p.lexer.current.name then
    (p.next).bind fun _ p1 => .ok true p1
  else
    .ok false (p.error ("Expected " ++ expected))

/-- `ParseNumberExpr`. -/
def ParseNumberExpr (p : Parser) : Result Parser (Option ExprAST) :=
  let result := ExprAST.NumberExprAST p.lexer.current.value
  (p.next).bind fun _ p1 => .ok (some result) p1

mutual

/-- `ParseParenExpr`. -/
def ParseParenExpr : Nat → Parser → Result Parser (Option ExprAST)
  | 0, _ => .outOfFuel
  | fuel + 1, p =>
    (p.next).bind fun _ p1 =>
    (ParseExpr fuel p1).bind fun v p2 =>
    match v with
    | none => .ok none p2
    | some v =>
      if !p2.have ")" then .ok none (p2.error "expected \x27)\x27")
      else (p2.next).bind fun _ p3 => .ok (some v) p3

/-- The argument loop of `ParseIdentifierExpr`; returns the arguments when the
loop is left through `break`, `none` when it returns `nil`. -/
def ParseIdentifierExprLoop : Nat → List ExprAST → Parser → Result Parser (Option (List ExprAST))
  | 0, _, _ => .outOfFuel
  | fuel + 1, args, p =>
    (ParseExpr fuel p).bind fun arg p1 =>
    match arg with
    | none => .ok none p1
    | some arg =>
      let args := args ++ [arg]
      if p1.have ")" then .ok (some args) p1
      else if !p1.have "," then
        .ok none (p1.error "Expected \x27)\x27 or \x27,\x27 in argument list")
      else (p1.next).bind fun _ p2 => ParseIdentifierExprLoop fuel args p2

/-- `ParseIdentifierExpr`. -/
def ParseIdentifierExpr : Nat → Parser → Result Parser (Option ExprAST)
  | 0, _ => .outOfFuel
  | fuel + 1, p =>
    let name := p.lexer.current.name
    (p.next).bind fun _ p1 =>
    if !p1.have "(" then .ok (some (.VariableExprAST name)) p1
    else
      (p1.next).bind fun _ p2 =>
      if !p2.have ")" then
        (ParseIdentifierExprLoop fuel [] p2).bind fun args p3 =>
        match args with
        | none => .ok none p3
        | some args => (p3.next).bind fun _ p4 => .ok (some (.CallExprAST name args)) p4
      else (p2.next).bind fun _ p3 => .ok (some (.CallExprAST name [])) p3

/-- `ParsePrimaryExpr`. -/
def ParsePrimaryExpr : Nat → Parser → Result Parser (Option ExprAST)
  | 0, _ => .outOfFuel
  | fuel + 1, p =>
    if p.lexer.current.ty = .IDENTIFIER then ParseIdentifierExpr fuel p
    else if p.lexer.current.ty = .NUMBERLITERAL then ParseNumberExpr p
    else if p.lexer.current.ty = .IF then ParseIfExpr fuel p
    else if p.have "(" then ParseParenExpr fuel p
    else .ok none (p.error "Unknown token when expecting an expression")

/-- `ParseBinOpRHS`; one unfolding per iteration of its loop. -/
def ParseBinOpRHS : Nat → Int → ExprAST → Parser → Result Parser (Option ExprAST)
  | 0, _, _, _ => .outOfFuel
  | fuel + 1, exprPrec, LHS, p =>
    let tokPrec := tokenPrecedence p.lexer.current
    if tokPrec < exprPrec then .ok (some LHS) p
    else
      let binOp := p.lexer.current
      (p.next).bind fun _ p1 =>
      (ParsePrimaryExpr fuel p1).bind fun RHS p2 =>
      match RHS with
      | none => .ok none p2
      | some RHS =>
        let nextPrec := tokenPrecedence p2.lexer.current
        if tokPrec < nextPrec then
          (ParseBinOpRHS fuel (tokPrec + 1) RHS p2).bind fun RHS p3 =>
          match RHS with
          | none => .ok none p3
          | some RHS => ParseBinOpRHS fuel exprPrec (.BinaryExprAST binOp.name LHS RHS) p3
        else ParseBinOpRHS fuel exprPrec (.BinaryExprAST binOp.name LHS RHS) p2

/-- `ParseExpr`. -/
def ParseExpr : Nat → Parser → Result Parser (Option ExprAST)
  | 0, _ => .outOfFuel
  | fuel + 1, p =>
    (ParsePrimaryExpr fuel p).bind fun LHS p1 =>
    match LHS with
    | none => .ok none p1
    | some LHS => ParseBinOpRHS fuel 0 LHS p1

/-- `ParseIfExpr`. -/
def ParseIfExpr : Nat → Parser → Result Parser (Option ExprAST)
  | 0, _ => .outOfFuel
  | fuel + 1, p =>
    (p.expect "if").bind fun _ p1 =>
    (ParseExpr fuel p1).bind fun cond p2 =>
    match cond with
    | none => .ok none p2
    | some cond =>
      (p2.expect ",").bind fun _ p3 =>
      (ParseExpr fuel p3).bind fun then_ p4 =>
      match then_ with
      | none => .ok none p4
      | some then_ =>
        (p4.expect "else").bind fun _ p5 =>
        (ParseExpr fuel p5).bind fun el p6 =>
        match el with
        | none => .ok none p6
        | some el => .ok (some (.IfExprAST cond then_ el)) p6

end

/-- The `for !p.have("{")` loop of `ParsePrototype`; returns the names
collected when the loop ends. -/
def ParsePrototypeLoop : Nat → List String → Parser → Result Parser (List String)
  | 0, _, _ => .outOfFuel
  | fuel + 1, args, p =>
    if !p.have "\x7b" then
      (p.expect ",").bind fun _ p1 =>
      let args := args ++ [p1.lexer.current.name]
      (p1.next).bind fun _ p2 => ParsePrototypeLoop fuel args p2
    else .ok args p

/-- `ParsePrototype`. -/
def ParsePrototype (fuel : Nat) (p : Parser) : Result Parser (Option ExprAST) :=
  if p.lexer.current.ty ≠ .IDENTIFIER then
    .ok none (p.error "Expected function name in prototype")
  else
    let fname := p.lexer.current.name
    (p.next).bind fun _ p1 =>
    (p1.expect ":").bind fun b p2 =>
    if !b then .ok none (p2.error "Expected \x27:\x27 in prototype")
    else
      (if !p2.have "\x7b" then
          let args := [p2.lexer.current.name]
          (p2.next).bind fun _ p3 => ParsePrototypeLoop fuel args p3
        else .ok [] p2).bind fun args p4 =>
      (p4.expect "\x7b").bind fun b p5 =>
      if !b then .ok none (p5.error "Expected \x27\x7b\x27 in prototype")
      else .ok (some (.PrototypeAST { Name := fname, Args := args })) p5

/-- `ParseDefinition`; `proto.(PrototypeAST)` panics on any other node. -/
def ParseDefinition (fuel : Nat) (p : Parser) : Result Parser (Option ExprAST) :=
  (p.expect "def").bind fun _ p1 =>
  (ParsePrototype fuel p1).bind fun proto p2 =>
  match proto with
  | none => .ok none p2
  | some proto =>
    (ParseExpr fuel p2).bind fun e p3 =>
    match e with
    | some e =>
      (p3.expect "\x7d").bind fun _ p4 =>
      match proto with
      | .PrototypeAST proto => .ok (some (.FunctionAST proto e)) p4
      | _ => .panic
    | none => .ok none p3

/-- `ParseExtern`. -/
def ParseExtern (fuel : Nat) (p : Parser) : Result Parser (Option ExprAST) :=
  (p.expect "import").bind fun _ p1 =>
  (ParsePrototype fuel p1).bind fun ast p2 =>
  match ast with
  | some ast => (p2.expect "\x7d").bind fun _ p3 => .ok (some ast) p3
  | none => .ok none p2

/-- `ParseTopLevelExpr`. -/
def ParseTopLevelExpr (fuel : Nat) (p : Parser) : Result Parser (Option ExprAST) :=
  (ParseExpr fuel p).bind fun e p1 =>
  match e with
  | some e =>
    let p2 := { p1 with anonCount := p1.anonCount + 1 }
    .ok (some (.FunctionAST { Name := "__jit__" ++ toString p2.anonCount, Args := [] } e)) p2
  | none => .ok none p1

/-! ## The LLVM bindings, as far as `codegen.go` uses them

The backend is a recorder. The handle of a function is its position in the
module's list of functions (an erased function leaves `none` behind, so a
position is never reused); the handle of a block or an instruction is a number
drawn from the counter `fresh`. Every instruction created through the builder
is logged in `emitted` in creation order. LLVM's constant folding, the names
of instructions and blocks, the verifier and the optimisation passes are left
out: none of them changes whether a handle is nil, a parameter count, a
parameter name, or whether a function has a body. The optimiser may delete a
block that cannot be reached, so `blocks` lists the blocks that were added to
a function, not the blocks it has after `RunFunc`. -/

/-- Go maps with string keys: an association list without repeated keys. -/
abbrev GoMap (α : Type) := List (String × α)

/-- Lookup `m[k]` with its `ok` flag. -/
def GoMap.get {α : Type} : GoMap α → String → Option α
  | [], _ => none
  | (k1, v) :: m, k => if k1 = k then some v else GoMap.get m k

/-- Assignment `m[k] = v`. -/
def GoMap.set {α : Type} (m : GoMap α) (k : String) (v : α) : GoMap α :=
  (k, v) :: m.filter fun e => e.1 ≠ k

/-- Handles of type `llvm.Value`. -/
inductive Value where
  | nil
  | ConstFloat (v : Int)
  | function (id : Nat)
  | param (fn : Nat) (i : Nat)
  | instr (id : Nat)
  deriving DecidableEq

/-- `Value.IsNil`. -/
def Value.IsNil : Value → Bool
  | .nil => true
  | _ => false

/-- The float predicates `codegen.go` passes to `CreateFCmp`. -/
inductive FloatPredicate where
  | FloatONE
  | FloatUEQ
  | FloatULT
  deriving DecidableEq

/-- The builder calls of `codegen.go`. -/
inductive Opcode where
  | FAdd
  | FSub
  | FMul
  | FDiv
  | FCmp (pred : FloatPredicate)
  | UIToFP
  | Call
  | Ret
  | CondBr
  | Br
  | PHI
  deriving DecidableEq

/-- One instruction created through the builder: its handle, the value
operands and block operands it was given, and the block the builder was
positioned at. -/
structure Instruction where
  id : Nat
  opcode : Opcode
  operands : List Value
  blocks : List Nat
  parent : Option Nat
  deriving DecidableEq

/-- A function of the module: parameter names (`""` for an unnamed
parameter), the counter its symbol table uses to rename a clashing name, and
the handles of its basic blocks. -/
structure LLVMFunction where
  name : String
  params : List String
  lastUnique : Nat
  blocks : List Nat
  deriving DecidableEq

/-- `llvm.Module`: its functions and the counter of its symbol table. -/
structure Module where
  functions : List (Option LLVMFunction)
  lastUnique : Nat
  deriving DecidableEq

/-- `CodeGenerator` of `codegen.go`. `Builder` is the block the builder is
positioned at (`none` before the first positioning); `Context`, `Optimizer`
and `JIT` are not modelled. Three fields belong to the recorder: `emitted`,
the instructions created through the builder; `fresh`, the next unused handle
of a block or instruction; `printed`, the lines `codegen.go` has printed. -/
structure CodeGenerator where
  Module : TestLang.Module
  Builder : Option Nat
  NamedValues : GoMap Value
  Protos : GoMap PrototypeAST
  emitted : List Instruction
  fresh : Nat
  printed : List Printed
  deriving DecidableEq

/-- `NewCodeGen`: an empty module. -/
def NewCodeGen : CodeGenerator :=
  { Module := { functions := [], lastUnique := 0 }, Builder := none, NamedValues := [],
    Protos := [], emitted := [], fresh := 0, printed := [] }

/-- LLVM's renaming of a clashing name: append the next value of the symbol
table's counter (after `sep`) until the name is free; `tries` bounds the
search. Returns the name and the counter. -/
def makeUniqueName (taken : List String) (base sep : String) : Nat → Nat → String × Nat
  | 0, u => (base ++ sep ++ toString (u + 1), u + 1)
  | tries + 1, u =>
    if base ++ sep ++ toString (u + 1) ∈ taken then makeUniqueName taken base sep tries (u + 1)
    else (base ++ sep ++ toString (u + 1), u + 1)

/-- Whether the slot holds a function called `name`. -/
def isNamed (name : String) : Option LLVMFunction → Bool
  | some f => f.name = name
  | none => false

/-- `Module.NamedFunction`: the function of that name, or nil. An unnamed
function is never found. -/
def Module.NamedFunction (m : Module) (name : String) : Value :=
  if name = "" then .nil
  else match m.functions.findIdx? (isNamed name) with
    | some i => .function i
    | none => .nil

/-- The function a handle stands for, with its position, if it is a function
of the module. -/
def CodeGenerator.func? (cg : CodeGenerator) : Value → Option (Nat × LLVMFunction)
  | .function i =>
    match cg.Module.functions[i]? with
    | some (some f) => some (i, f)
    | _ => none
  | _ => none

/-- Store `f` as the function at position `i`. -/
def CodeGenerator.setFunc (cg : CodeGenerator) (i : Nat) (f : LLVMFunction) : CodeGenerator :=
  { cg with Module := { cg.Module with functions := cg.Module.functions.set i (some f) } }

/-- The names in the module's symbol table. -/
def Module.names (m : Module) : List String :=
  (m.functions.filterMap fun o => o.map fun f => f.name).filter fun n => n ≠ ""

/-- `llvm.AddFunction(cg.Module, name, ft)` for a function type of
`paramCount` doubles: a new function without blocks and with unnamed
parameters; when the name is taken LLVM renames the new function. -/
def AddFunction (cg : CodeGenerator) (name : String) (paramCount : Nat) : CodeGenerator :=
  let taken := cg.Module.names
  let named := if name ∈ taken then makeUniqueName taken name "." taken.length cg.Module.lastUnique
    else (name, cg.Module.lastUnique)
  let f : LLVMFunction :=
    { name := named.1, params := List.replicate paramCount "", lastUnique := 0, blocks := [] }
  { cg with Module := { functions := cg.Module.functions ++ [some f], lastUnique := named.2 } }

/-- `EraseFromParentAsFunction`: removes the function from the module; a
call on nil or on a handle that is no function of the module aborts. -/
def EraseFromParentAsFunction (function : Value) (cg : CodeGenerator) :
    Result CodeGenerator Unit :=
  match cg.func? function with
  | none => .panic
  | some (i, _) =>
    .ok () { cg with Module := { cg.Module with functions := cg.Module.functions.set i none } }

/-- `arg.SetName(name)` for parameter `i` of a function without blocks (its
symbol table then holds parameter names only). -/
def SetName (f : LLVMFunction) (i : Nat) (name : String) : LLVMFunction :=
  if f.params.getD i "" = name then f
  else
    let others := (f.params.set i "").filter fun n => n ≠ ""
    if name = "" then { f with params := f.params.set i "" }
    else if name ∈ others then
      let named := makeUniqueName others name "" others.length f.lastUnique
      { f with params := f.params.set i named.1, lastUnique := named.2 }
    else { f with params := f.params.set i name }

/-- `llvm.AddBasicBlock(function, name)`: appends a new block to the function
and returns its handle. -/
def AddBasicBlock (function : Value) (cg : CodeGenerator) : Result CodeGenerator Nat :=
  match cg.func? function with
  | none => .panic
  | some (i, f) =>
    .ok cg.fresh
      { (cg.setFunc i { f with blocks := f.blocks ++ [cg.fresh] }) with fresh := cg.fresh + 1 }

/-- A `Builder.Create...` call: the instruction is logged with the block the
builder is positioned at and its handle returned. -/
def CodeGenerator.create (cg : CodeGenerator) (opcode : Opcode) (operands : List Value)
    (blocks : List Nat) : Value × CodeGenerator :=
  let i : Instruction :=
    { id := cg.fresh, opcode := opcode, operands := operands, blocks := blocks,
      parent := cg.Builder }
  (.instr cg.fresh, { cg with emitted := cg.emitted ++ [i], fresh := cg.fresh + 1 })

/-- `phi.AddIncoming(vals, blocks)`. -/
def AddIncoming (phi : Value) (vals : List Value) (blocks : List Nat) (cg : CodeGenerator) :
    CodeGenerator :=
  { cg with emitted := cg.emitted.map fun i =>
      if Value.instr i.id = phi then
        { i with operands := i.operands ++ vals, blocks := i.blocks ++ blocks }
      else i }

/-- `cg.Builder.GetInsertBlock().Parent()`: aborts when the builder is not
positioned at a block of a function of the module. -/
def CodeGenerator.insertBlockParent (cg : CodeGenerator) : Result CodeGenerator Value :=
  match cg.Builder with
  | none => .panic
  | some b =>
    match cg.Module.functions.findIdx? fun o => o.any fun f => b ∈ f.blocks with
    | some i => .ok (.function i) cg
    | none => .panic

/-! ## codegen.go -/

/-- `CodeGenerator.error`: prints `str`; the caller returns nil. -/
def CodeGenerator.error (cg : CodeGenerator) (str : String) : CodeGenerator :=
  { cg with printed := cg.printed ++ [.line str] }

mutual

/-- `CodeGenerator.getFunction`. -/
def CodeGenerator.getFunction : Nat → String → CodeGenerator → Result CodeGenerator Value
  | 0, _, _ => .outOfFuel
  | fuel + 1, name, cg =>
    if !(cg.Module.NamedFunction name).IsNil then .ok (cg.Module.NamedFunction name) cg
    else match cg.Protos.get name with
      | some ast => PrototypeAST.CodeGen fuel ast cg
      | none => .ok .nil cg

/-- `PrototypeAST.CodeGen`. -/
def PrototypeAST.CodeGen : Nat → PrototypeAST → CodeGenerator → Result CodeGenerator Value
  | 0, _, _ => .outOfFuel
  | fuel + 1, ast, cg =>
    let cg1 := AddFunction cg ast.Name ast.Args.length
    let function := cg1.Module.NamedFunction ast.Name
    match cg1.func? function with
    | none => .panic
    | some (_, f) =>
      (if f.name ≠ ast.Name then
          (EraseFromParentAsFunction function cg1).bind fun _ cg2 =>
          CodeGenerator.getFunction fuel ast.Name cg2
        else .ok function cg1).bind fun function cg3 =>
      match cg3.func? function with
      | none => .panic
      | some (i, f) =>
        if f.blocks.length ≠ 0 then .ok .nil (cg3.error "Redefinition of function")
        else if f.params.length ≠ ast.Args.length then
          .ok .nil (cg3.error "Redefinition of function with different number of args")
        else
          .ok function (cg3.setFunc i ((List.range f.params.length).foldl
            (fun f k => SetName f k (ast.Args.getD k "")) f))

end

/-- The start of `FunctionAST.CodeGen`, up to and including the binding of the
parameters in `NamedValues`: returns the function whose body is lowered
next. -/
def FunctionAST.enter (fuel : Nat) (proto : PrototypeAST) (cg : CodeGenerator) :
    Result CodeGenerator Value :=
  let cg0 := { cg with Protos := cg.Protos.set proto.Name proto }
  (cg0.getFunction fuel proto.Name).bind fun function cg1 =>
  if function.IsNil then
    (EraseFromParentAsFunction function cg1).bind fun _ cg2 => .ok .nil cg2
  else
    (AddBasicBlock function cg1).bind fun bb cg2 =>
    let cg3 := { cg2 with Builder := some bb, NamedValues := [] }
    match cg3.func? function with
    | some (i, f) =>
      .ok function { cg3 with
        NamedValues := (List.range f.params.length).foldl
          (fun m k => GoMap.set m (f.params.getD k "") (.param i k)) cg3.NamedValues }
    | none => .panic

/-- The text `fmt.Sprintln` builds for the arity error of `CallExprAST.CodeGen`. -/
def arityMessage (expected got : Nat) : String :=
  "Incorrect number arguments passed. Expected " ++ toString expected ++ "  got " ++
    toString got ++ "\n"

mutual

/-- `CodeGen` of the expression nodes, dispatched on the node's type as the
interface call does. -/
def ExprAST.CodeGen (fuel : Nat) : ExprAST → CodeGenerator → Result CodeGenerator Value
  | .NumberExprAST v, cg => .ok (.ConstFloat v) cg
  | .VariableExprAST name, cg =>
    match cg.NamedValues.get name with
    | some val => .ok val cg
    | none => .ok .nil (cg.error ("Unknown variable name " ++ name))
  | .BinaryExprAST op lhs rhs, cg =>
    (lhs.CodeGen fuel cg).bind fun l cg1 =>
    (rhs.CodeGen fuel cg1).bind fun r cg2 =>
    if l.IsNil || r.IsNil then .ok .nil cg2
    else if op = "+" then .ok (cg2.create .FAdd [l, r] []).1 (cg2.create .FAdd [l, r] []).2
    else if op = "-" then .ok (cg2.create .FSub [l, r] []).1 (cg2.create .FSub [l, r] []).2
    else if op = "*" then .ok (cg2.create .FMul [l, r] []).1 (cg2.create .FMul [l, r] []).2
    else if op = "/" then .ok (cg2.create .FDiv [l, r] []).1 (cg2.create .FDiv [l, r] []).2
    else if op = "<" then
      let c := cg2.create (.FCmp .FloatULT) [l, r] []
      .ok (c.2.create .UIToFP [c.1] []).1 (c.2.create .UIToFP [c.1] []).2
    else if op = "=" then
      let c := cg2.create (.FCmp .FloatUEQ) [l, r] []
      .ok (c.2.create .UIToFP [c.1] []).1 (c.2.create .UIToFP [c.1] []).2
    else .ok .nil (cg2.error "invalid binary operator")
  | .CallExprAST callee args, cg =>
    (cg.getFunction fuel callee).bind fun function cg1 =>
    if function.IsNil then .ok .nil (cg1.error ("Unknown function referenced: " ++ callee))
    else
      match cg1.func? function with
      | none => .panic
      | some (_, f) =>
        if f.params.length ≠ args.length then
          .ok .nil (cg1.error (arityMessage f.params.length args.length))
        else
          (CallExprAST.loop fuel args [] cg1).bind fun vals cg2 =>
          match vals with
          | none => .ok .nil cg2
          | some vals =>
            .ok (cg2.create .Call (function :: vals) []).1 (cg2.create .Call (function :: vals) []).2
  | .PrototypeAST proto, cg => PrototypeAST.CodeGen fuel proto cg
  | .FunctionAST proto body, cg =>
    (FunctionAST.enter fuel proto cg).bind fun function cg1 =>
    if function.IsNil then .ok .nil cg1
    else
      (body.CodeGen fuel cg1).bind fun retVal cg2 =>
      if !retVal.IsNil then .ok function (cg2.create .Ret [retVal] []).2
      else (EraseFromParentAsFunction function cg2).bind fun _ cg3 => .ok .nil cg3
  | .IfExprAST c t e, cg =>
    (c.CodeGen fuel cg).bind fun cond cg1 =>
    if cond.IsNil then .ok .nil cg1
    else
      let cmp := cg1.create (.FCmp .FloatONE) [cond, .ConstFloat 0] []
      (cmp.2.insertBlockParent).bind fun function cg2 =>
      (AddBasicBlock function cg2).bind fun thenBlock cg3 =>
      (AddBasicBlock function cg3).bind fun elseBlock cg4 =>
      (AddBasicBlock function cg4).bind fun mergeBlock cg5 =>
      let cg6 := (cg5.create .CondBr [cmp.1] [thenBlock, elseBlock]).2
      (t.CodeGen fuel { cg6 with Builder := some thenBlock }).bind fun then_ cg7 =>
      if then_.IsNil then .ok .nil cg7
      else
        let cg8 := (cg7.create .Br [] [mergeBlock]).2
        let thenEnd := cg8.Builder
        (e.CodeGen fuel { cg8 with Builder := some elseBlock }).bind fun el cg9 =>
        if el.IsNil then .ok .nil cg9
        else
          let cg10 := (cg9.create .Br [] [mergeBlock]).2
          let elseEnd := cg10.Builder
          let phi := { cg10 with Builder := some mergeBlock }.create .PHI [] []
          match thenEnd, elseEnd with
          | some tb, some eb =>
            .ok phi.1 (AddIncoming phi.1 [el] [eb] (AddIncoming phi.1 [then_] [tb] phi.2))
          | _, _ => .panic

/-- The loop of `CallExprAST.CodeGen` over the arguments; `none` when it
returns nil. -/
def CallExprAST.loop (fuel : Nat) : List ExprAST → List Value → CodeGenerator →
    Result CodeGenerator (Option (List Value))
  | [], vals, cg => .ok (some vals) cg
  | arg :: rest, vals, cg =>
    (arg.CodeGen fuel cg).bind fun argV cg1 =>
    if argV.IsNil then .ok none cg1
    else
      (arg.CodeGen fuel cg1).bind fun v cg2 =>
      CallExprAST.loop fuel rest (vals ++ [v]) cg2

end

/-! ## The whole-source driver of parser.go -/

/-- `HandleTopLevel`. -/
def HandleTopLevel (fuel : Nat) (result : Option ExprAST) (p : Parser) (cg : CodeGenerator) :
    Result (Parser × CodeGenerator) Unit :=
  match result with
  | none => .ok () ({ p with printed := p.printed ++ [.line "Parse failed!"] }, cg)
  | some result =>
    match result.CodeGen fuel cg with
    | .ok _ cg1 => .ok () (p, cg1)
    | .panic => .panic
    | .outOfFuel => .outOfFuel

/-- The `for` loop of `File`: one unfolding per iteration. -/
def FileLoop : Nat → Parser → CodeGenerator → Result (Parser × CodeGenerator) Unit
  | 0, _, _ => .outOfFuel
  | fuel + 1, p, cg =>
    match p.lexer.current.ty with
    | .DEF =>
      match ParseDefinition fuel p with
      | .ok result p1 =>
        (HandleTopLevel fuel result p1 cg).bind fun _ s => FileLoop fuel s.1 s.2
      | .panic => .panic
      | .outOfFuel => .outOfFuel
    | .EXTERN =>
      match ParseExtern fuel p with
      | .ok none p1 => FileLoop fuel p1 cg
      | .ok (some expr) p1 =>
        match expr.CodeGen fuel cg with
        | .ok ir cg1 =>
          if !ir.IsNil then
            match expr with
            | .PrototypeAST proto =>
              FileLoop fuel p1 { cg1 with Protos := cg1.Protos.set proto.Name proto }
            | _ => .panic
          else
            FileLoop fuel { p1 with printed := p1.printed ++
              [.line "error compiling external function definition"] } cg1
        | .panic => .panic
        | .outOfFuel => .outOfFuel
      | .panic => .panic
      | .outOfFuel => .outOfFuel
    | .EOF => .ok () (p, cg)
    | _ =>
      match ParseTopLevelExpr fuel p with
      | .ok result p1 =>
        (HandleTopLevel fuel result p1 cg).bind fun _ s => FileLoop fuel s.1 s.2
      | .panic => .panic
      | .outOfFuel => .outOfFuel

/-- `File`: tokenise, then the loop. -/
def File (parseFloat : String → Option Int) (fuel : Nat) (p : Parser) (cg : CodeGenerator) :
    Result (Parser × CodeGenerator) Unit :=
  FileLoop fuel { p with lexer := p.lexer.tokenise parseFloat } cg

/-! ## Vocabulary of the statements -/

/-- The value and the state of a normal return. -/
def Result.value? {σ α : Type} : Result σ α → Option α
  | .ok v _ => some v
  | _ => none

/-- The state after a normal return. -/
def Result.state? {σ α : Type} : Result σ α → Option σ
  | .ok _ s => some s
  | _ => none

/-- An atomic primary starts with a number token or an identifier token. -/
def Token.atomic (t : Token) : Prop :=
  t.ty = .IDENTIFIER ∨ t.ty = .NUMBERLITERAL

instance (t : Token) : Decidable t.atomic :=
  inferInstanceAs (Decidable (_ ∨ _))

/-- The node of an atomic primary: `Number` of the token's value, or
`Variable` of its text. -/
def Token.atom (t : Token) : ExprAST :=
  if t.ty = .NUMBERLITERAL then .NumberExprAST t.value else .VariableExprAST t.name

/-- An operator of the precedence table: a token the lexer did not classify
as a number and whose text is a key of `BinopPrecedence`. -/
def Token.isOperator (t : Token) : Prop :=
  t.ty ≠ .NUMBERLITERAL ∧ (BinopPrecedence t.name).isSome = true

instance (t : Token) : Decidable t.isOperator :=
  inferInstanceAs (Decidable (_ ∧ _))

/-- The parser with its cursor `k` tokens further, on token `t`. -/
def Parser.moved (p : Parser) (k : Nat) (t : Token) : Parser :=
  { p with lexer := { p.lexer with index := p.lexer.index + k, current := t } }

/-- A reading of `strconv.ParseFloat` on the texts used in the examples: an
unsigned decimal integer has its value, any other text is rejected. -/
def decimalLiteral (s : String) : Option Int :=
  if s.data ≠ [] ∧ s.data.all Char.isDigit = true then
    some (s.data.foldl (fun n c => 10 * n + ((c.toNat : Int) - 48)) 0)
  else none

/-- The parser of `main.go`, `Parser{NewLexer(reader), -1}`. The kind of the
zero `Token` that `NewLexer` stores is none of the declared kinds; it is never
read, `tokenise` overwrites it, and `IDENTIFIER` stands in for it. -/
def Parser.new (reader : List String) : Parser :=
  { lexer := { reader := reader, tokens := [], index := 0, current := ⟨"", .IDENTIFIER, 0⟩ },
    anonCount := -1, printed := [] }

/-- The parser of `main.go` after `tokenise`. -/
def Parser.ofSource (parseFloat : String → Option Int) (reader : List String) : Parser :=
  { Parser.new reader with lexer := (Parser.new reader).lexer.tokenise parseFloat }

mutual

/-- Expression nodes: built from Number, Variable, Binary, Call and If only,
as `ParseExpr` builds them. -/
def ExprAST.isExpr : ExprAST → Bool
  | .NumberExprAST _ => true
  | .VariableExprAST _ => true
  | .BinaryExprAST _ l r => l.isExpr && r.isExpr
  | .CallExprAST _ args => ExprAST.allExpr args
  | .PrototypeAST _ => false
  | .FunctionAST _ _ => false
  | .IfExprAST c t e => c.isExpr && t.isExpr && e.isExpr

/-- All nodes of the list are expression nodes. -/
def ExprAST.allExpr : List ExprAST → Bool
  | [] => true
  | a :: rest => a.isExpr && ExprAST.allExpr rest

end

/-- The session after lowering the units in order, as the drivers do (a unit
that fails is reported and the next one is lowered). -/
def lowerAll (fuel : Nat) : List ExprAST → CodeGenerator → CodeGenerator
  | [], cg => cg
  | e :: rest, cg =>
    match e.CodeGen fuel cg with
    | .ok _ cg1 => lowerAll fuel rest cg1
    | _ => cg

/-- Both slots hold a function and the two have the same name, which is not
empty. -/
def sameName : Option LLVMFunction → Option LLVMFunction → Bool
  | some f, some g => f.name ≠ "" && f.name = g.name
  | _, _ => false

/-- No two functions of the module have the same name (LLVM's symbol table
keeps it so), unnamed functions aside. -/
def Module.uniqueNames (m : Module) : Prop :=
  m.functions.Pairwise fun a b => sameName a b = false

instance (m : Module) : Decidable m.uniqueNames :=
  inferInstanceAs (Decidable (List.Pairwise _ _))

/-- Every prototype of the table is stored under its own name, as both
writers of `Protos` store it. -/
def CodeGenerator.protosKeyed (cg : CodeGenerator) : Prop :=
  ∀ e ∈ cg.Protos, e.2.Name = e.1

instance (cg : CodeGenerator) : Decidable cg.protosKeyed :=
  inferInstanceAs (Decidable (∀ e ∈ cg.Protos, e.2.Name = e.1))

/-- The line `CallExprAST.CodeGen` prints for an unresolved callee. -/
def unknownFunction (callee : String) : Printed :=
  .line ("Unknown function referenced: " ++ callee)

/-- The names of the module's functions, slot by slot. -/
def sig (cg : CodeGenerator) : List (Option String) :=
  cg.Module.functions.map (Option.map fun f => f.name)

/-- The part of the session the statements below observe: the names of the
module's functions, the prototype table and the lines printed. -/
def obs (cg : CodeGenerator) : List (Option String) × GoMap PrototypeAST × List Printed :=
  (sig cg, cg.Protos, cg.printed)

/-- How lowering an expression may change the session, as far as the
function name `n` is concerned: functions are only added (none renamed, none
erased), and in a session with a well-keyed prototype table that has a
function `n` none of the added ones is called `n`; the prototype table is
unchanged; lines are only added to the output, and in a session that has a
function `n` none of them is `Unknown function referenced: n`. -/
def Ext (n : String) (cg cg1 : CodeGenerator) : Prop :=
  (∃ extra, sig cg1 = sig cg ++ extra ∧
    (cg.protosKeyed → some n ∈ sig cg → some n ∉ extra)) ∧
  cg1.Protos = cg.Protos ∧
  ∃ out, cg1.printed = cg.printed ++ out ∧
    (n ≠ "" → some n ∈ sig cg → unknownFunction n ∉ out)

/-- Slot `i` holds the only function of the module called `n`. -/
def Owned (n : String) (i : Nat) (cg : CodeGenerator) : Prop :=
  (sig cg)[i]? = some (some n) ∧ ∀ j, (sig cg)[j]? = some (some n) → j = i

/-- The keys of `BinopPrecedence`. -/
def tableOperators : List String := ["=", "<", "+", "-", "*"]

mutual

/-- Every Binary node of the tree has an operator of the precedence table. -/
def ExprAST.opsOk : ExprAST → Bool
  | .NumberExprAST _ => true
  | .VariableExprAST _ => true
  | .BinaryExprAST op l r => decide (op ∈ tableOperators) && l.opsOk && r.opsOk
  | .CallExprAST _ args => ExprAST.allOpsOk args
  | .PrototypeAST _ => true
  | .FunctionAST _ body => body.opsOk
  | .IfExprAST c t e => c.opsOk && t.opsOk && e.opsOk

/-- The same for every tree of a list. -/
def ExprAST.allOpsOk : List ExprAST → Bool
  | [] => true
  | a :: rest => a.opsOk && ExprAST.allOpsOk rest

end

/-- The line `BinaryExprAST.CodeGen` prints in its `default` branch. -/
def invalidOperator : Printed :=
  .line "invalid binary operator"

/-- From `cg` to `cg1` lines were only added to the output, and `m` is none
of them. -/
def Quiet (m : Printed) (cg cg1 : CodeGenerator) : Prop :=
  ∃ out, cg1.printed = cg.printed ++ out ∧ m ∉ out

/-- What an in-order traversal lists: operands (the nodes that are not Binary)
and operator texts. -/
inductive Item where
  | operand (e : ExprAST)
  | operator (s : String)

/-- In-order traversal of the Binary nodes of a tree. -/
def ExprAST.inorder : ExprAST → List Item
  | .BinaryExprAST op l r => l.inorder ++ .operator op :: r.inorder
  | e => [.operand e]

/-- The tokens of a sequence of (operator, primary) pairs, in source order. -/
def flat : List (Token × Token) → List Token
  | [] => []
  | oa :: rest => oa.1 :: oa.2 :: flat rest

/-- The operators and operands of a sequence of (operator, primary) pairs, in
source order. -/
def items : List (Token × Token) → List Item
  | [] => []
  | oa :: rest => .operator oa.1.name :: .operand oa.2.atom :: items rest

/-- The first token of the pairs `rest` followed by the token `e`. -/
def headTok (rest : List (Token × Token)) (e : Token) : Token :=
  match rest with
  | [] => e
  | oa :: _ => oa.1

/-- The last primary of `p0` followed by the pairs `rest`. -/
def lastAtom (p0 : Token) (rest : List (Token × Token)) : Token :=
  match rest.getLast? with
  | some oa => oa.2
  | none => p0

/-- The pairs one call of `ParseBinOpRHS` with minimum precedence `exprPrec`
consumes: the longest run of pairs whose operator has at least that precedence. -/
def climbed (exprPrec : Int) (rest : List (Token × Token)) : List (Token × Token) :=
  rest.takeWhile fun oa => decide (exprPrec ≤ tokenPrecedence oa.1)

mutual
/-- The names of the Variable nodes of a tree. -/
def ExprAST.vars : ExprAST → List String
  | .NumberExprAST _ => []
  | .VariableExprAST name => [name]
  | .BinaryExprAST _ l r => l.vars ++ r.vars
  | .CallExprAST _ args => ExprAST.allVars args
  | .PrototypeAST _ => []
  | .FunctionAST _ body => body.vars
  | .IfExprAST c t e => c.vars ++ t.vars ++ e.vars
/-- The names of the Variable nodes of the trees of a list. -/
def ExprAST.allVars : List ExprAST → List String
  | [] => []
  | a :: rest => a.vars ++ ExprAST.allVars rest
end

/-- Whether `b` is a block of a function of the module. -/
def CodeGenerator.hasBlock (cg : CodeGenerator) (b : Nat) : Bool :=
  cg.Module.functions.any fun o => o.any fun f => decide (b ∈ f.blocks)

/-- A session in which the body of a function is being lowered: the builder
is positioned at a block of a function of the module (`FunctionAST.CodeGen`
positions it at the entry block before it lowers the body), and every stored
prototype has a name. Without the first `IfExprAST.CodeGen` asks a nil block
for its parent; without the second `PrototypeAST.CodeGen` asks a nil function
for its name. -/
def CodeGenerator.ready (cg : CodeGenerator) : Prop :=
  cg.Builder.any cg.hasBlock = true ∧ ∀ e ∈ cg.Protos, e.2.Name ≠ ""

instance (cg : CodeGenerator) : Decidable cg.ready :=
  inferInstanceAs (Decidable (_ ∧ _))

/-- From `cg` to `cg1` no block left the module, and the prototype table and
the scope `NamedValues` are the same. -/
def Kept (cg cg1 : CodeGenerator) : Prop :=
  (∀ b, cg.hasBlock b = true → cg1.hasBlock b = true) ∧ cg1.Protos = cg.Protos ∧
    cg1.NamedValues = cg.NamedValues

/-! ## Parser: stepping lemmas -/

@[simp] theorem Result.bind_ok {σ α β : Type} (v : α) (s : σ) (k : α → σ → Result σ β) :
    (Result.ok v s).bind k = k v s := rfl

@[simp] theorem Result.bind_panic {σ α β : Type} (k : α → σ → Result σ β) :
    (Result.panic : Result σ α).bind k = .panic := rfl

@[simp] theorem Result.bind_outOfFuel {σ α β : Type} (k : α → σ → Result σ β) :
    (Result.outOfFuel : Result σ α).bind k = .outOfFuel := rfl

/-- A normal return of a sequence splits into normal returns of its parts. -/
theorem Result.bind_eq_ok {σ α β : Type} {r : Result σ α} {k : α → σ → Result σ β} {v : β}
    {s : σ} (h : r.bind k = .ok v s) : ∃ a s1, r = .ok a s1 ∧ k a s1 = .ok v s := by
  cases r with
  | ok a s1 => exact ⟨a, s1, rfl, h⟩
  | panic => cases h
  | outOfFuel => cases h

@[simp] theorem moved_current (p : Parser) (k : Nat) (t : Token) :
    (p.moved k t).lexer.current = t := rfl

theorem next_moved {p : Parser} {k : Nat} {t u : Token}
    (h : p.lexer.tokens[p.lexer.index + (k + 1)]? = some u) :
    (p.moved k t).next = .ok u (p.moved (k + 1) u) := by
  simp [Parser.next, Lexer.next, Parser.moved, Nat.add_assoc, h]

theorem operator_name_ne_paren {o : Token} (h : o.isOperator) : o.name ≠ "(" := by
  intro hn
  have h2 := h.2
  rw [hn] at h2
  revert h2
  decide

theorem operator_prec_nonneg {o : Token} (h : o.isOperator) : 0 ≤ tokenPrecedence o := by
  obtain ⟨h1, h2⟩ := h
  unfold tokenPrecedence
  rw [if_neg h1]
  unfold BinopPrecedence at *
  split_ifs at * <;> simp_all

/-- An atomic primary is parsed to its node and the cursor moves one token. -/
theorem primary_atomic (fuel : Nat) (p : Parser) (k : Nat) (t u : Token)
    (hu : p.lexer.tokens[p.lexer.index + (k + 1)]? = some u)
    (ht : t.atomic) (hcall : t.ty = .IDENTIFIER → u.name ≠ "(") :
    ParsePrimaryExpr (fuel + 2) (p.moved k t) = .ok (some t.atom) (p.moved (k + 1) u) := by
  rcases ht with ht | ht
  · have hne : ¬ ("(" = u.name) := fun h => hcall ht h.symm
    simp [ParsePrimaryExpr, ParseIdentifierExpr, ht, next_moved hu, Parser.have, Token.atom, hne]
  · simp [ParsePrimaryExpr, ParseNumberExpr, ht, next_moved hu, Token.atom]

/-- The exit of the loop of `ParseBinOpRHS`. -/
theorem binop_stop (fuel : Nat) (exprPrec : Int) (LHS : ExprAST) (p : Parser)
    (h : tokenPrecedence p.lexer.current < exprPrec) :
    ParseBinOpRHS (fuel + 1) exprPrec LHS p = .ok (some LHS) p := by
  simp only [ParseBinOpRHS, h, if_true]

/-- One iteration of the loop of `ParseBinOpRHS` whose right-hand side is the
primary alone. -/
theorem binop_flat (fuel : Nat) (exprPrec : Int) (LHS RHS : ExprAST) (p p1 p2 : Parser)
    (t : Token)
    (h : ¬ tokenPrecedence p.lexer.current < exprPrec)
    (hn : p.next = .ok t p1)
    (hr : ParsePrimaryExpr fuel p1 = .ok (some RHS) p2)
    (hp : ¬ tokenPrecedence p.lexer.current < tokenPrecedence p2.lexer.current) :
    ParseBinOpRHS (fuel + 1) exprPrec LHS p =
      ParseBinOpRHS fuel exprPrec (.BinaryExprAST p.lexer.current.name LHS RHS) p2 := by
  simp only [ParseBinOpRHS, h, if_false, hn, Result.bind_ok, hr, hp]

/-- One iteration of the loop of `ParseBinOpRHS` whose right-hand side is
extended by the recursive call. -/
theorem binop_nest (fuel : Nat) (exprPrec : Int) (LHS RHS RHS2 : ExprAST)
    (p p1 p2 p3 : Parser) (t : Token)
    (h : ¬ tokenPrecedence p.lexer.current < exprPrec)
    (hn : p.next = .ok t p1)
    (hr : ParsePrimaryExpr fuel p1 = .ok (some RHS) p2)
    (hp : tokenPrecedence p.lexer.current < tokenPrecedence p2.lexer.current)
    (hi : ParseBinOpRHS fuel (tokenPrecedence p.lexer.current + 1) RHS p2 = .ok (some RHS2) p3) :
    ParseBinOpRHS (fuel + 1) exprPrec LHS p =
      ParseBinOpRHS fuel exprPrec (.BinaryExprAST p.lexer.current.name LHS RHS2) p3 := by
  simp only [ParseBinOpRHS, h, if_false, hn, Result.bind_ok, hr, hp, if_true, hi]

theorem expr_of_primary (fuel : Nat) (LHS : ExprAST) (p p1 : Parser)
    (h : ParsePrimaryExpr fuel p = .ok (some LHS) p1) :
    ParseExpr (fuel + 1) p = ParseBinOpRHS fuel 0 LHS p1 := by
  simp only [ParseExpr, h, Result.bind_ok]

/-! ## Parser: precedence and associativity (C1, C2, C3) -/

/-- C1. On the tokens `a o1 b o2 c` followed by a token without precedence,
where `a`, `b`, `c` are atomic primaries and `o1`, `o2` operators of the
table with `prec o1 < prec o2`, `ParseExpr` returns
`Binary{o1, a, Binary{o2, b, c}}` and stops on the token after `c`. -/
theorem parse_higher_precedence_binds_tighter (fuel : Nat) (p : Parser)
    (a o1 b o2 c e : Token)
    (hcur : p.lexer.current = a)
    (h1 : p.lexer.tokens[p.lexer.index + 1]? = some o1)
    (h2 : p.lexer.tokens[p.lexer.index + 2]? = some b)
    (h3 : p.lexer.tokens[p.lexer.index + 3]? = some o2)
    (h4 : p.lexer.tokens[p.lexer.index + 4]? = some c)
    (h5 : p.lexer.tokens[p.lexer.index + 5]? = some e)
    (ha : a.atomic) (hb : b.atomic) (hc : c.atomic)
    (hcall : c.ty = .IDENTIFIER → e.name ≠ "(")
    (ho1 : o1.isOperator) (ho2 : o2.isOperator)
    (hlt : tokenPrecedence o1 < tokenPrecedence o2)
    (he : tokenPrecedence e = -1) :
    ParseExpr (fuel + 5) p =
      .ok (some (.BinaryExprAST o1.name a.atom (.BinaryExprAST o2.name b.atom c.atom)))
        { p with lexer := { p.lexer with index := p.lexer.index + 5, current := e } } := by
  have hp : p = p.moved 0 a := by rw [← hcur]; rfl
  have n1 := operator_prec_nonneg ho1
  have pa := primary_atomic (fuel + 2) p 0 a o1 h1 ha (fun _ => operator_name_ne_paren ho1)
  have pb := primary_atomic (fuel + 1) p 2 b o2 h3 hb (fun _ => operator_name_ne_paren ho2)
  have pc := primary_atomic fuel p 4 c e h5 hc hcall
  have inner : ParseBinOpRHS (fuel + 3) (tokenPrecedence o1 + 1) b.atom (p.moved 3 o2) =
      .ok (some (.BinaryExprAST o2.name b.atom c.atom)) (p.moved 5 e) := by
    rw [binop_flat (fuel + 2) _ _ c.atom (p.moved 3 o2) (p.moved 4 c) (p.moved 5 e) c
      (by simp only [moved_current]; omega) (next_moved h4) pc
      (by simp only [moved_current]; omega)]
    exact binop_stop _ _ _ _ (by simp only [moved_current]; omega)
  rw [hp, expr_of_primary _ _ _ _ pa,
    binop_nest (fuel + 3) 0 _ b.atom _ (p.moved 1 o1) (p.moved 2 b) (p.moved 3 o2) (p.moved 5 e) b
      (by simp only [moved_current]; omega) (next_moved h2) pb
      (by simp only [moved_current]; omega) inner]
  exact binop_stop _ _ _ _ (by simp only [moved_current]; omega)

/-- C1 at `3 + 4 * 2`: the parse is `Binary{+, 3, Binary{*, 4, 2}}`. -/
theorem parse_higher_precedence_binds_tighter_witness :
    ParseExpr 5 (Parser.ofSource decimalLiteral ["3", "+", "4", "*", "2"]) =
      .ok (some (.BinaryExprAST "+" (.NumberExprAST 3)
          (.BinaryExprAST "*" (.NumberExprAST 4) (.NumberExprAST 2))))
        ((Parser.ofSource decimalLiteral ["3", "+", "4", "*", "2"]).moved 5
          ⟨"", .IDENTIFIER, 0⟩) :=
  parse_higher_precedence_binds_tighter 0
    (Parser.ofSource decimalLiteral ["3", "+", "4", "*", "2"])
    ⟨"3", .NUMBERLITERAL, 3⟩ ⟨"+", .SYMBOL, 0⟩ ⟨"4", .NUMBERLITERAL, 4⟩ ⟨"*", .SYMBOL, 0⟩
    ⟨"2", .NUMBERLITERAL, 2⟩ ⟨"", .IDENTIFIER, 0⟩
    (by decide) (by decide) (by decide) (by decide) (by decide) (by decide)
    (by decide) (by decide) (by decide) (by decide) (by decide) (by decide)
    (by decide) (by decide)

/-- C2. On the tokens `a o1 b o2 c` followed by a token without precedence,
where `prec o1 ≥ prec o2`, `ParseExpr` returns `Binary{o2, Binary{o1, a, b}, c}`:
operators of equal precedence associate to the left. -/
theorem parse_equal_or_lower_precedence_left_assoc (fuel : Nat) (p : Parser)
    (a o1 b o2 c e : Token)
    (hcur : p.lexer.current = a)
    (h1 : p.lexer.tokens[p.lexer.index + 1]? = some o1)
    (h2 : p.lexer.tokens[p.lexer.index + 2]? = some b)
    (h3 : p.lexer.tokens[p.lexer.index + 3]? = some o2)
    (h4 : p.lexer.tokens[p.lexer.index + 4]? = some c)
    (h5 : p.lexer.tokens[p.lexer.index + 5]? = some e)
    (ha : a.atomic) (hb : b.atomic) (hc : c.atomic)
    (hcall : c.ty = .IDENTIFIER → e.name ≠ "(")
    (ho1 : o1.isOperator) (ho2 : o2.isOperator)
    (hge : tokenPrecedence o1 ≥ tokenPrecedence o2)
    (he : tokenPrecedence e = -1) :
    ParseExpr (fuel + 5) p =
      .ok (some (.BinaryExprAST o2.name (.BinaryExprAST o1.name a.atom b.atom) c.atom))
        { p with lexer := { p.lexer with index := p.lexer.index + 5, current := e } } := by
  have hp : p = p.moved 0 a := by rw [← hcur]; rfl
  have n1 := operator_prec_nonneg ho1
  have n2 := operator_prec_nonneg ho2
  have pa := primary_atomic (fuel + 2) p 0 a o1 h1 ha (fun _ => operator_name_ne_paren ho1)
  have pb := primary_atomic (fuel + 1) p 2 b o2 h3 hb (fun _ => operator_name_ne_paren ho2)
  have pc := primary_atomic fuel p 4 c e h5 hc hcall
  rw [hp, expr_of_primary _ _ _ _ pa,
    binop_flat (fuel + 3) 0 _ b.atom (p.moved 1 o1) (p.moved 2 b) (p.moved 3 o2) b
      (by simp only [moved_current]; omega) (next_moved h2) pb
      (by simp only [moved_current]; omega),
    binop_flat (fuel + 2) 0 _ c.atom (p.moved 3 o2) (p.moved 4 c) (p.moved 5 e) c
      (by simp only [moved_current]; omega) (next_moved h4) pc
      (by simp only [moved_current]; omega)]
  exact binop_stop _ _ _ _ (by simp only [moved_current]; omega)

/-- C2 at `3 * 4 + 2`: the parse is `Binary{+, Binary{*, 3, 4}, 2}`. -/
theorem parse_equal_or_lower_precedence_left_assoc_witness :
    ParseExpr 5 (Parser.ofSource decimalLiteral ["3", "*", "4", "+", "2"]) =
      .ok (some (.BinaryExprAST "+"
          (.BinaryExprAST "*" (.NumberExprAST 3) (.NumberExprAST 4)) (.NumberExprAST 2)))
        ((Parser.ofSource decimalLiteral ["3", "*", "4", "+", "2"]).moved 5
          ⟨"", .IDENTIFIER, 0⟩) :=
  parse_equal_or_lower_precedence_left_assoc 0
    (Parser.ofSource decimalLiteral ["3", "*", "4", "+", "2"])
    ⟨"3", .NUMBERLITERAL, 3⟩ ⟨"*", .SYMBOL, 0⟩ ⟨"4", .NUMBERLITERAL, 4⟩ ⟨"+", .SYMBOL, 0⟩
    ⟨"2", .NUMBERLITERAL, 2⟩ ⟨"", .IDENTIFIER, 0⟩
    (by decide) (by decide) (by decide) (by decide) (by decide) (by decide)
    (by decide) (by decide) (by decide) (by decide) (by decide) (by decide)
    (by decide) (by decide)

/-- C3. With the cursor on a token whose text is `/`, `ParseBinOpRHS` with any
minimum precedence `≥ 0` returns its left-hand side and leaves the parser
unchanged; and on the tokens of `a / b + c` `ParseExpr` returns `Variable{a}`
with the cursor on `/` (index 1). -/
theorem division_is_never_infix (fuel : Nat) (exprPrec : Int) (LHS : ExprAST) (p : Parser)
    (parseFloat : String → Option Int)
    (hmin : 0 ≤ exprPrec) (hdiv : p.lexer.current.name = "/")
    (hident : parseFloat "a" = none) :
    ParseBinOpRHS (fuel + 1) exprPrec LHS p = .ok (some LHS) p ∧
    ParseExpr (fuel + 3) (Parser.ofSource parseFloat ["a", "/", "b", "+", "c"]) =
      .ok (some (.VariableExprAST "a"))
        ((Parser.ofSource parseFloat ["a", "/", "b", "+", "c"]).moved 1 ⟨"/", .SYMBOL, 0⟩) := by
  have hprec : ∀ t : Token, t.name = "/" → tokenPrecedence t = -1 := by
    intro t ht
    unfold tokenPrecedence BinopPrecedence
    rw [ht]
    split_ifs <;> first | rfl | contradiction
  constructor
  · exact binop_stop _ _ _ _ (by rw [hprec _ hdiv]; omega)
  · have hcur : (Parser.ofSource parseFloat ["a", "/", "b", "+", "c"]).lexer.current =
        ⟨"a", .IDENTIFIER, 0⟩ := by
      simp [Parser.ofSource, Lexer.tokenise, tokeniseLoop, scannedToken, whatType, hident]
    have h1 : (Parser.ofSource parseFloat ["a", "/", "b", "+", "c"]).lexer.tokens[
        (Parser.ofSource parseFloat ["a", "/", "b", "+", "c"]).lexer.index + (0 + 1)]? =
        some ⟨"/", .SYMBOL, 0⟩ := by
      simp [Parser.ofSource, Lexer.tokenise, tokeniseLoop, scannedToken, whatType]
    have hp : Parser.ofSource parseFloat ["a", "/", "b", "+", "c"] =
        (Parser.ofSource parseFloat ["a", "/", "b", "+", "c"]).moved 0 ⟨"a", .IDENTIFIER, 0⟩ := by
      rw [← hcur]; rfl
    have pa := primary_atomic fuel _ 0 ⟨"a", .IDENTIFIER, 0⟩ ⟨"/", .SYMBOL, 0⟩ h1
      (Or.inl rfl) (fun _ => by decide)
    rw [hp, expr_of_primary _ _ _ _ pa]
    exact binop_stop _ _ _ _ (by rw [hprec _ rfl]; omega)

/-- C3 at the parser stopped on `/` in `a / b + c`, with minimum precedence 0
and left-hand side `Variable{a}`. -/
theorem division_is_never_infix_witness :
    ParseBinOpRHS 1 0 (.VariableExprAST "a")
        ((Parser.ofSource decimalLiteral ["a", "/", "b", "+", "c"]).moved 1 ⟨"/", .SYMBOL, 0⟩) =
      .ok (some (.VariableExprAST "a"))
        ((Parser.ofSource decimalLiteral ["a", "/", "b", "+", "c"]).moved 1 ⟨"/", .SYMBOL, 0⟩) ∧
    ParseExpr 3 (Parser.ofSource decimalLiteral ["a", "/", "b", "+", "c"]) =
      .ok (some (.VariableExprAST "a"))
        ((Parser.ofSource decimalLiteral ["a", "/", "b", "+", "c"]).moved 1 ⟨"/", .SYMBOL, 0⟩) :=
  division_is_never_infix 0 0 (.VariableExprAST "a")
    ((Parser.ofSource decimalLiteral ["a", "/", "b", "+", "c"]).moved 1 ⟨"/", .SYMBOL, 0⟩)
    decimalLiteral (by decide) (by decide) (by decide)

/-! ## Lowering: what a step may change -/

theorem sig_getElem? (cg : CodeGenerator) (i : Nat) :
    (sig cg)[i]? = (cg.Module.functions[i]?).map (Option.map fun f => f.name) := by
  simp [sig]

theorem sig_eq_some {cg : CodeGenerator} {i : Nat} {n : String}
    (h : (sig cg)[i]? = some (some n)) :
    ∃ f, cg.Module.functions[i]? = some (some f) ∧ f.name = n := by
  rw [sig_getElem?] at h
  cases hf : cg.Module.functions[i]? with
  | none => rw [hf] at h; cases h
  | some o =>
    rw [hf] at h
    cases o with
    | none => cases h
    | some f => exact ⟨f, rfl, by simpa using h⟩

theorem sig_of_func {cg : CodeGenerator} {i : Nat} {f : LLVMFunction}
    (h : cg.Module.functions[i]? = some (some f)) : (sig cg)[i]? = some (some f.name) := by
  rw [sig_getElem?, h]; rfl

theorem func?_eq_some {cg : CodeGenerator} {v : Value} {i : Nat} {f : LLVMFunction}
    (h : cg.func? v = some (i, f)) :
    v = .function i ∧ cg.Module.functions[i]? = some (some f) := by
  cases v with
  | function j =>
    simp only [CodeGenerator.func?] at h
    split at h
    · rename_i g hg
      simp only [Option.some.injEq, Prod.mk.injEq] at h
      obtain ⟨rfl, rfl⟩ := h
      exact ⟨rfl, hg⟩
    · cases h
  | nil => cases h
  | ConstFloat _ => cases h
  | param _ _ => cases h
  | instr _ => cases h

theorem func?_of_getElem {cg : CodeGenerator} {i : Nat} {f : LLVMFunction}
    (h : cg.Module.functions[i]? = some (some f)) : cg.func? (.function i) = some (i, f) := by
  simp [CodeGenerator.func?, h]

/-- What `NamedFunction` finds is a function of that name. -/
theorem namedFunction_spec {m : Module} {name : String} {v : Value}
    (h : m.NamedFunction name = v) (hv : v.IsNil = false) :
    name ≠ "" ∧ ∃ i f, v = .function i ∧ m.functions[i]? = some (some f) ∧ f.name = name := by
  unfold Module.NamedFunction at h
  split at h
  · subst h; cases hv
  · rename_i hne
    refine ⟨hne, ?_⟩
    split at h
    · rename_i i hi
      have := List.findIdx?_of_eq_some hi
      cases hf : m.functions[i]? with
      | none => rw [hf] at this; cases this
      | some o =>
        rw [hf] at this
        cases o with
        | none => cases this
        | some f =>
          refine ⟨i, f, h.symm, hf, ?_⟩
          simpa [isNamed] using this
    · subst h; cases hv

/-- When no function has the name, `NamedFunction` is nil; and conversely. -/
theorem namedFunction_nil_iff {m : Module} {name : String} (hne : name ≠ "") :
    m.NamedFunction name = .nil ↔
      ∀ (i : Nat) (f : LLVMFunction), m.functions[i]? = some (some f) → f.name ≠ name := by
  unfold Module.NamedFunction
  rw [if_neg hne]
  constructor
  · intro h i f hf hname
    split at h
    · cases h
    · rename_i hnone
      rw [List.findIdx?_eq_none_iff] at hnone
      have := hnone (some f) (List.getElem?_mem hf)
      simp [isNamed, hname] at this
  · intro h
    split
    · rename_i i hi
      have := List.findIdx?_of_eq_some hi
      cases hf : m.functions[i]? with
      | none => rw [hf] at this; cases this
      | some o =>
        rw [hf] at this
        cases o with
        | none => cases this
        | some f => exact absurd (by simpa [isNamed] using this) (h i f hf)
    · rfl

/-! ## The lines lowering prints -/

theorem string_ne_of_get? {s t : String} (k : Nat) (h : s.data[k]? ≠ t.data[k]?) : s ≠ t :=
  fun e => h (by rw [e])

theorem unknownFunction_inj {c n : String} (h : unknownFunction c = unknownFunction n) :
    c = n := by
  simp only [unknownFunction, Printed.line.injEq] at h
  have hd := congrArg String.data h
  simp only [String.data_append] at hd
  exact String.ext (List.append_cancel_left hd)

theorem unknownVariable_ne (x n : String) :
    Printed.line ("Unknown variable name " ++ x) ≠ unknownFunction n := by
  intro h
  simp only [unknownFunction, Printed.line.injEq] at h
  exact string_ne_of_get? 8 (by simp [String.data_append]) h

theorem invalidOperator_ne (n : String) :
    Printed.line "invalid binary operator" ≠ unknownFunction n := by
  intro h
  simp only [unknownFunction, Printed.line.injEq] at h
  exact string_ne_of_get? 0 (by simp [String.data_append]) h

theorem arityMessage_ne (a b : Nat) (n : String) :
    Printed.line (arityMessage a b) ≠ unknownFunction n := by
  intro h
  simp only [unknownFunction, Printed.line.injEq, arityMessage] at h
  exact string_ne_of_get? 0 (by simp [String.data_append]) h

theorem redefinition_ne (n : String) :
    Printed.line "Redefinition of function" ≠ unknownFunction n := by
  intro h
  simp only [unknownFunction, Printed.line.injEq] at h
  exact string_ne_of_get? 0 (by simp [String.data_append]) h

theorem redefinitionArgs_ne (n : String) :
    Printed.line "Redefinition of function with different number of args" ≠
      unknownFunction n := by
  intro h
  simp only [unknownFunction, Printed.line.injEq] at h
  exact string_ne_of_get? 0 (by simp [String.data_append]) h

/-! ## Lowering: the relation `Ext` -/

theorem Ext.refl (n : String) (cg : CodeGenerator) : Ext n cg cg :=
  ⟨⟨[], by simp, fun _ _ h => by cases h⟩, rfl, [], by simp, fun _ _ h => by cases h⟩

theorem Ext.protosKeyed {n : String} {cg cg1 : CodeGenerator} (h : Ext n cg cg1)
    (hk : cg.protosKeyed) : cg1.protosKeyed := by
  unfold CodeGenerator.protosKeyed at *
  rw [h.2.1]
  exact hk

theorem Ext.present {n : String} {cg cg1 : CodeGenerator} (h : Ext n cg cg1) {m : String}
    (hm : some m ∈ sig cg) : some m ∈ sig cg1 := by
  obtain ⟨⟨extra, he, _⟩, _⟩ := h
  rw [he]
  exact List.mem_append_left _ hm

theorem Ext.trans {n : String} {cg cg1 cg2 : CodeGenerator} (h1 : Ext n cg cg1)
    (h2 : Ext n cg1 cg2) : Ext n cg cg2 := by
  have hk := fun hk => h1.protosKeyed hk
  have hp := fun hm => h1.present (m := n) hm
  obtain ⟨⟨e1, he1, hn1⟩, hp1, o1, ho1, hq1⟩ := h1
  obtain ⟨⟨e2, he2, hn2⟩, hp2, o2, ho2, hq2⟩ := h2
  refine ⟨⟨e1 ++ e2, by rw [he2, he1, List.append_assoc], ?_⟩, hp2.trans hp1, o1 ++ o2,
    by rw [ho2, ho1, List.append_assoc], ?_⟩
  · intro k m hmem
    rcases List.mem_append.mp hmem with hmem | hmem
    · exact hn1 k m hmem
    · exact hn2 (hk k) (hp m) hmem
  · intro hne m hmem
    rcases List.mem_append.mp hmem with hmem | hmem
    · exact hq1 hne m hmem
    · exact hq2 hne (hp m) hmem

/-- A step that changes nothing observed. -/
theorem Ext.of_obs {n : String} {cg cg1 cg2 : CodeGenerator} (h : Ext n cg cg1)
    (ho : obs cg2 = obs cg1) : Ext n cg cg2 := by
  simp only [obs, Prod.mk.injEq] at ho
  obtain ⟨hs, hp, hpr⟩ := ho
  unfold Ext
  rw [hs, hp, hpr]
  exact h

/-- The same, for the state a step starts from. -/
theorem Ext.from_obs {n : String} {cg cg0 cg1 : CodeGenerator} (h : Ext n cg0 cg1)
    (ho : obs cg0 = obs cg) : Ext n cg cg1 := by
  simp only [obs, Prod.mk.injEq] at ho
  obtain ⟨hs, hp, hpr⟩ := ho
  unfold Ext CodeGenerator.protosKeyed at *
  rw [← hs, ← hp, ← hpr]
  exact h

/-- A step that prints one line. -/
theorem Ext.error {n : String} {cg cg1 : CodeGenerator} (h : Ext n cg cg1) (s : String)
    (hs : n ≠ "" → some n ∈ sig cg → Printed.line s ≠ unknownFunction n) :
    Ext n cg (cg1.error s) := by
  obtain ⟨he, hp, out, ho, hq⟩ := h
  refine ⟨he, hp, out ++ [.line s], ?_, ?_⟩
  · simp [CodeGenerator.error, ho]
  · intro hne hm hmem
    rcases List.mem_append.mp hmem with hmem | hmem
    · exact hq hne hm hmem
    · simp only [List.mem_singleton] at hmem
      exact hs hne hm hmem.symm

@[simp] theorem obs_create (cg : CodeGenerator) (op : Opcode) (a : List Value) (b : List Nat) :
    obs (cg.create op a b).2 = obs cg := rfl

@[simp] theorem obs_addIncoming (phi : Value) (a : List Value) (b : List Nat)
    (cg : CodeGenerator) : obs (AddIncoming phi a b cg) = obs cg := rfl

@[simp] theorem obs_builder (cg : CodeGenerator) (b : Option Nat) :
    obs { cg with Builder := b } = obs cg := rfl

theorem set_same_name {l : List (Option LLVMFunction)} {i : Nat} {f g : LLVMFunction}
    (h : l[i]? = some (some f)) (hn : g.name = f.name) :
    (l.set i (some g)).map (Option.map fun f => f.name) =
      l.map (Option.map fun f => f.name) := by
  apply List.ext_getElem?
  intro k
  by_cases hk : i = k
  · subst hk
    obtain ⟨hlt, heq⟩ := List.getElem?_eq_some.mp h
    simp [List.getElem?_map, List.getElem?_set, hlt, heq, hn]
  · simp [List.getElem?_map, List.getElem?_set_ne hk]

theorem obs_setFunc {cg : CodeGenerator} {i : Nat} {f g : LLVMFunction}
    (h : cg.Module.functions[i]? = some (some f)) (hn : g.name = f.name) :
    obs (cg.setFunc i g) = obs cg := by
  simp only [obs, sig, CodeGenerator.setFunc, set_same_name h hn]

theorem obs_addBasicBlock {cg cg1 : CodeGenerator} {v : Value} {b : Nat}
    (h : AddBasicBlock v cg = .ok b cg1) : obs cg1 = obs cg := by
  unfold AddBasicBlock at h
  split at h
  · cases h
  · rename_i i f hf
    simp only [Result.ok.injEq] at h
    obtain ⟨_, rfl⟩ := h
    exact obs_setFunc (func?_eq_some hf).2 rfl

theorem insertBlockParent_state {cg cg1 : CodeGenerator} {v : Value}
    (h : cg.insertBlockParent = .ok v cg1) : cg1 = cg := by
  unfold CodeGenerator.insertBlockParent at h
  split at h
  · cases h
  · split at h
    · simp only [Result.ok.injEq] at h
      exact h.2.symm
    · cases h

/-! ## Lowering: declaring and resolving functions -/

theorem setName_name (f : LLVMFunction) (i : Nat) (name : String) :
    (SetName f i name).name = f.name := by
  unfold SetName
  dsimp only
  split_ifs <;> rfl

theorem setNames_name (args : List String) (l : List Nat) (f : LLVMFunction) :
    (l.foldl (fun f k => SetName f k (args.getD k "")) f).name = f.name := by
  induction l generalizing f with
  | nil => rfl
  | cons k l ih => rw [List.foldl_cons, ih, setName_name]

theorem mem_names {m : Module} {name : String} :
    name ∈ m.names ↔ name ≠ "" ∧
      ∃ (i : Nat) (f : LLVMFunction), m.functions[i]? = some (some f) ∧ f.name = name := by
  unfold Module.names
  simp only [List.mem_filter, List.mem_filterMap, decide_eq_true_eq]
  constructor
  · rintro ⟨⟨o, ho, hmap⟩, hne⟩
    cases o with
    | none => cases hmap
    | some f =>
      obtain ⟨i, hi⟩ := List.getElem?_of_mem ho
      exact ⟨hne, i, f, hi, by simpa using hmap⟩
  · rintro ⟨hne, i, f, hi, hf⟩
    exact ⟨⟨some f, List.getElem?_mem hi, by simp [hf]⟩, hne⟩

theorem sig_addFunction (cg : CodeGenerator) (name : String) (k : Nat) :
    ∃ named, sig (AddFunction cg name k) = sig cg ++ [some named] ∧
      (name ∉ cg.Module.names → named = name) ∧
      (∀ f, (AddFunction cg name k).Module.functions[cg.Module.functions.length]? =
        some (some f) → f.blocks = [] ∧ f.params.length = k) := by
  refine ⟨(if name ∈ cg.Module.names then
      makeUniqueName cg.Module.names name "." cg.Module.names.length cg.Module.lastUnique
    else (name, cg.Module.lastUnique)).1, ?_, ?_, ?_⟩
  · simp only [sig, AddFunction, List.map_append, List.map_cons, List.map_nil, Option.map_some']
  · intro h
    simp only [if_neg h]
  · intro f hf
    simp only [AddFunction, List.getElem?_concat_length, Option.some.injEq] at hf
    subst hf
    simp

theorem obs_addFunction_rest (cg : CodeGenerator) (name : String) (k : Nat) :
    (AddFunction cg name k).Protos = cg.Protos ∧
      (AddFunction cg name k).printed = cg.printed := ⟨rfl, rfl⟩

/-- What `PrototypeAST.CodeGen` does to the session when it returns. -/
theorem prototype_codegen_spec {fuel : Nat} {ast : PrototypeAST} {cg cg1 : CodeGenerator}
    {v : Value} (h : PrototypeAST.CodeGen fuel ast cg = .ok v cg1) :
    ast.Name ≠ "" ∧
    (∃ named, sig cg1 = sig cg ++ [some named] ∧ (ast.Name ∉ cg.Module.names → named = ast.Name)) ∧
    cg1.Protos = cg.Protos ∧
    (∃ out, cg1.printed = cg.printed ++ out ∧ ∀ m, unknownFunction m ∉ out) ∧
    (v.IsNil = false → ∃ i, v = .function i ∧ (sig cg1)[i]? = some (some ast.Name)) := by
  cases fuel with
  | zero => cases h
  | succ fuel =>
    simp only [PrototypeAST.CodeGen] at h
    obtain ⟨named, hsig, hnamed, _⟩ := sig_addFunction cg ast.Name ast.Args.length
    obtain ⟨hprotos, hprinted⟩ := obs_addFunction_rest cg ast.Name ast.Args.length
    generalize AddFunction cg ast.Name ast.Args.length = cgA at h hsig hprotos hprinted
    split at h
    · cases h
    · rename_i j f hf
      obtain ⟨hv, hfj⟩ := func?_eq_some hf
      obtain ⟨hne, i, f2, hv2, hf2, hname⟩ := namedFunction_spec (m := cgA.Module) rfl
        (by rw [hv]; rfl)
      rw [hv] at hv2
      cases hv2
      rw [hfj] at hf2
      cases hf2
      rw [if_neg (by simp [hname]), Result.bind_ok, hf] at h
      simp only at h
      refine ⟨hne, ⟨named, ?_, hnamed⟩, ?_, ?_, ?_⟩ <;> split_ifs at h <;>
        simp only [Result.ok.injEq] at h <;> obtain ⟨rfl, rfl⟩ := h
      · exact hsig
      · exact hsig
      · have := obs_setFunc (g := (List.range f.params.length).foldl
          (fun f k => SetName f k (ast.Args.getD k "")) f) hfj (setNames_name _ _ _)
        simp only [obs, Prod.mk.injEq] at this
        rw [this.1, hsig]
      · exact hprotos
      · exact hprotos
      · exact hprotos
      · exact ⟨[.line "Redefinition of function"], by simp [CodeGenerator.error, hprinted],
          fun m hm => redefinition_ne m (List.mem_singleton.mp hm).symm⟩
      · exact ⟨[.line "Redefinition of function with different number of args"],
          by simp [CodeGenerator.error, hprinted],
          fun m hm => redefinitionArgs_ne m (List.mem_singleton.mp hm).symm⟩
      · exact ⟨[], by simp [CodeGenerator.setFunc, hprinted], fun m hm => by cases hm⟩
      · intro hnil; cases hnil
      · intro hnil; cases hnil
      · intro _
        refine ⟨j, hv, ?_⟩
        have := obs_setFunc (g := (List.range f.params.length).foldl
          (fun f k => SetName f k (ast.Args.getD k "")) f) hfj (setNames_name _ _ _)
        simp only [obs, Prod.mk.injEq] at this
        rw [this.1, sig_of_func hfj, hname]


/-- In a module with unique names a name sits in one slot only. -/
theorem uniqueNames_slot {m : Module} (hu : m.uniqueNames) {i j : Nat} {f g : LLVMFunction}
    (hi : m.functions[i]? = some (some f)) (hj : m.functions[j]? = some (some g))
    (hne : f.name ≠ "") (hfg : f.name = g.name) : i = j := by
  obtain ⟨hil, hie⟩ := List.getElem?_eq_some.mp hi
  obtain ⟨hjl, hje⟩ := List.getElem?_eq_some.mp hj
  have hp := List.pairwise_iff_getElem.mp hu
  rcases Nat.lt_trichotomy i j with hlt | heq | hgt
  · have := hp i j hil hjl hlt
    rw [hie, hje] at this
    simp [sameName, hfg] at this
    exact absurd (hfg.trans this) hne
  · exact heq
  · have := hp j i hjl hil hgt
    rw [hie, hje] at this
    simp [sameName, hfg] at this
    exact absurd (hfg.trans this) hne

theorem sig_absent_of_nil {cg : CodeGenerator} {name : String} (hne : name ≠ "")
    (h : cg.Module.NamedFunction name = .nil) : some name ∉ sig cg := by
  intro hmem
  obtain ⟨i, hi⟩ := List.getElem?_of_mem hmem
  obtain ⟨f, hf, hname⟩ := sig_eq_some hi
  exact (namedFunction_nil_iff hne).mp h i f hf hname

theorem isNil_eq_true {v : Value} (h : v.IsNil = true) : v = .nil := by
  cases v <;> first | rfl | cases h

theorem protosKeyed_get {cg : CodeGenerator} (hk : cg.protosKeyed) {k : String}
    {ast : PrototypeAST} (h : cg.Protos.get k = some ast) : ast.Name = k := by
  unfold CodeGenerator.protosKeyed at hk
  generalize cg.Protos = m at hk h
  induction m with
  | nil => cases h
  | cons e m ih =>
    obtain ⟨k1, a⟩ := e
    simp only [GoMap.get] at h
    split_ifs at h with hk1
    · simp only [Option.some.injEq] at h
      subst h
      rw [← hk1]
      exact hk (k1, a) (List.mem_cons_self _ _)
    · exact ih (fun e he => hk e (List.mem_cons_of_mem _ he)) h

/-- What `getFunction` does to the session when it returns. -/
theorem getFunction_ext (n : String) {fuel : Nat} {name : String} {cg cg1 : CodeGenerator}
    {v : Value} (h : cg.getFunction fuel name = .ok v cg1) : Ext n cg cg1 := by
  cases fuel with
  | zero => cases h
  | succ fuel =>
    simp only [CodeGenerator.getFunction] at h
    split_ifs at h with hnil
    · simp only [Result.ok.injEq] at h
      rw [← h.2]
      exact Ext.refl n cg
    · split at h
      · rename_i ast hast
        obtain ⟨hne, ⟨named, hsig, hnamed⟩, hp, ⟨out, hout, hq⟩, _⟩ := prototype_codegen_spec h
        refine ⟨⟨[some named], hsig, ?_⟩, hp, out, hout, fun _ _ => hq n⟩
        intro hk hmem hmem2
        have hname := protosKeyed_get hk hast
        have hnil2 : cg.Module.NamedFunction name = .nil := isNil_eq_true (by simpa using hnil)
        rw [hname] at hne hnamed
        have habs := sig_absent_of_nil hne hnil2
        have : named = name := hnamed (fun hm => by
          obtain ⟨_, i, f, hf, hfn⟩ := mem_names.mp hm
          exact habs (hfn ▸ List.getElem?_mem (sig_of_func hf)))
        simp only [List.mem_singleton, Option.some.injEq] at hmem2
        rw [hmem2, this] at hmem
        exact habs hmem
      · simp only [Result.ok.injEq] at h
        rw [← h.2]
        exact Ext.refl n cg

/-- A callee that `getFunction` does not resolve is no function of the module. -/
theorem getFunction_nil_absent {fuel : Nat} {name : String} {cg cg1 : CodeGenerator}
    {v : Value} (h : cg.getFunction fuel name = .ok v cg1) (hv : v.IsNil = true)
    (hne : name ≠ "") : some name ∉ sig cg := by
  cases fuel with
  | zero => cases h
  | succ fuel =>
    simp only [CodeGenerator.getFunction] at h
    split_ifs at h with hnil
    · simp only [Result.ok.injEq] at h
      rw [h.1] at hnil
      simp [hv] at hnil
    · exact sig_absent_of_nil hne (isNil_eq_true (by simpa using hnil))

/-! ## Lowering an expression stays within `Ext` -/

mutual

/-- Lowering an expression node only adds functions, leaves the prototype
table alone and, when `n` is a function of the module, never prints
`Unknown function referenced: n`. -/
theorem expr_ext (n : String) (fuel : Nat) :
    ∀ (e : ExprAST) (cg cg1 : CodeGenerator) (v : Value),
      e.isExpr = true → e.CodeGen fuel cg = .ok v cg1 → Ext n cg cg1
  | .NumberExprAST _, cg, cg1, v, _, h => by
    simp only [ExprAST.CodeGen, Result.ok.injEq] at h
    rw [← h.2]
    exact Ext.refl n cg
  | .VariableExprAST name, cg, cg1, v, _, h => by
    simp only [ExprAST.CodeGen] at h
    split at h <;> simp only [Result.ok.injEq] at h <;> rw [← h.2]
    · exact Ext.refl n cg
    · exact (Ext.refl n cg).error _ (fun _ _ => unknownVariable_ne name n)
  | .BinaryExprAST op l r, cg, cg1, v, he, h => by
    simp only [ExprAST.isExpr, Bool.and_eq_true] at he
    simp only [ExprAST.CodeGen] at h
    obtain ⟨lv, cgl, hl, h⟩ := Result.bind_eq_ok h
    obtain ⟨rv, cgr, hr, h⟩ := Result.bind_eq_ok h
    have e12 := (expr_ext n fuel l cg cgl lv he.1 hl).trans
      (expr_ext n fuel r cgl cgr rv he.2 hr)
    split_ifs at h <;> simp only [Result.ok.injEq] at h <;> rw [← h.2]
    · exact e12
    · exact e12.of_obs (obs_create _ _ _ _)
    · exact e12.of_obs (obs_create _ _ _ _)
    · exact e12.of_obs (obs_create _ _ _ _)
    · exact e12.of_obs (obs_create _ _ _ _)
    · exact e12.of_obs (by simp only [obs_create])
    · exact e12.of_obs (by simp only [obs_create])
    · exact e12.error _ (fun _ _ => invalidOperator_ne n)
  | .CallExprAST callee args, cg, cg1, v, he, h => by
    simp only [ExprAST.isExpr] at he
    simp only [ExprAST.CodeGen] at h
    obtain ⟨fv, cgf, hgf, h⟩ := Result.bind_eq_ok h
    have eg := getFunction_ext n hgf
    split_ifs at h with hnil
    · simp only [Result.ok.injEq] at h
      rw [← h.2]
      refine eg.error _ (fun hne hmem heq => ?_)
      have hcn : callee = n := unknownFunction_inj heq
      exact getFunction_nil_absent hgf hnil (hcn ▸ hne) (hcn ▸ hmem)
    · split at h
      · cases h
      · split_ifs at h
        · simp only [Result.ok.injEq] at h
          rw [← h.2]
          exact eg.error _ (fun _ _ => arityMessage_ne _ _ n)
        · obtain ⟨vals, cgl, hloop, h⟩ := Result.bind_eq_ok h
          have el := eg.trans (loop_ext n fuel args [] cgf cgl vals he hloop)
          split at h <;> simp only [Result.ok.injEq] at h <;> rw [← h.2]
          · exact el
          · exact el.of_obs (obs_create _ _ _ _)
  | .PrototypeAST _, _, _, _, he, _ => by simp [ExprAST.isExpr] at he
  | .FunctionAST _ _, _, _, _, he, _ => by simp [ExprAST.isExpr] at he
  | .IfExprAST c t e, cg, cg1, v, he, h => by
    simp only [ExprAST.isExpr, Bool.and_eq_true] at he
    simp only [ExprAST.CodeGen] at h
    obtain ⟨cond, cgc, hc, h⟩ := Result.bind_eq_ok h
    have ec := expr_ext n fuel c cg cgc cond he.1.1 hc
    split_ifs at h
    · simp only [Result.ok.injEq] at h
      rw [← h.2]
      exact ec
    · obtain ⟨fv, cg2, hp, h⟩ := Result.bind_eq_ok h
      have h2 := insertBlockParent_state hp
      obtain ⟨tb, cg3, hb1, h⟩ := Result.bind_eq_ok h
      obtain ⟨eb, cg4, hb2, h⟩ := Result.bind_eq_ok h
      obtain ⟨mb, cg5, hb3, h⟩ := Result.bind_eq_ok h
      obtain ⟨tv, cg7, ht, h⟩ := Result.bind_eq_ok h
      have o5 : obs cg5 = obs cgc := by
        rw [obs_addBasicBlock hb3, obs_addBasicBlock hb2, obs_addBasicBlock hb1, h2, obs_create]
      have e7 : Ext n cg cg7 := ec.trans
        ((expr_ext n fuel t _ cg7 tv he.1.2 ht).from_obs
          (by rw [obs_builder, obs_create, o5]))
      split_ifs at h
      · simp only [Result.ok.injEq] at h
        rw [← h.2]
        exact e7
      · obtain ⟨ev, cg9, hev, h⟩ := Result.bind_eq_ok h
        have e9 : Ext n cg cg9 := e7.trans
          ((expr_ext n fuel e _ cg9 ev he.2 hev).from_obs
            (by rw [obs_builder, obs_create]))
        split_ifs at h
        · simp only [Result.ok.injEq] at h
          rw [← h.2]
          exact e9
        · split at h
          · simp only [Result.ok.injEq] at h
            rw [← h.2]
            exact e9.of_obs (by
              rw [obs_addIncoming, obs_addIncoming, obs_create, obs_builder, obs_create])
          · cases h

/-- The same for the loop over the arguments of a call. -/
theorem loop_ext (n : String) (fuel : Nat) :
    ∀ (args : List ExprAST) (vals : List Value) (cg cg1 : CodeGenerator)
      (r : Option (List Value)),
      ExprAST.allExpr args = true → CallExprAST.loop fuel args vals cg = .ok r cg1 →
        Ext n cg cg1
  | [], vals, cg, cg1, r, _, h => by
    simp only [CallExprAST.loop, Result.ok.injEq] at h
    rw [← h.2]
    exact Ext.refl n cg
  | arg :: rest, vals, cg, cg1, r, he, h => by
    simp only [ExprAST.allExpr, Bool.and_eq_true] at he
    simp only [CallExprAST.loop] at h
    obtain ⟨av, cga, ha, h⟩ := Result.bind_eq_ok h
    have e1 := expr_ext n fuel arg cg cga av he.1 ha
    split_ifs at h
    · simp only [Result.ok.injEq] at h
      rw [← h.2]
      exact e1
    · obtain ⟨av2, cgb, hb, h⟩ := Result.bind_eq_ok h
      exact (e1.trans (expr_ext n fuel arg cga cgb av2 he.1 hb)).trans
        (loop_ext n fuel rest (vals ++ [av2]) cgb cg1 r he.2 h)

end

/-! ## Lowering a function definition -/

theorem GoMap.get_set {α : Type} (m : GoMap α) (k : String) (v : α) :
    (m.set k v).get k = some v := by
  simp [GoMap.set, GoMap.get]

theorem protosKeyed_set {cg : CodeGenerator} (hk : cg.protosKeyed) (proto : PrototypeAST) :
    ({ cg with Protos := cg.Protos.set proto.Name proto } : CodeGenerator).protosKeyed := by
  intro e he
  simp only [GoMap.set, List.mem_cons, List.mem_filter] at he
  rcases he with rfl | ⟨he, _⟩
  · rfl
  · exact hk e he

/-- The function `getFunction` resolves a name to is called by that name, when
the prototype stored under the name (if any) has that name. -/
theorem getFunction_named {fuel : Nat} {name : String} {cg cg1 : CodeGenerator} {v : Value}
    (hkey : ∀ ast, cg.Protos.get name = some ast → ast.Name = name)
    (h : cg.getFunction fuel name = .ok v cg1) (hv : v.IsNil = false) :
    name ≠ "" ∧ ∃ i, v = .function i ∧ (sig cg1)[i]? = some (some name) := by
  cases fuel with
  | zero => cases h
  | succ fuel =>
    simp only [CodeGenerator.getFunction] at h
    split_ifs at h with hnil
    · simp only [Result.ok.injEq] at h
      obtain ⟨hne, i, f, hvi, hf, hname⟩ := namedFunction_spec (m := cg.Module) h.1 hv
      refine ⟨hne, i, hvi, ?_⟩
      rw [← h.2, sig_of_func hf, hname]
    · split at h
      · rename_i ast hast
        obtain ⟨hne, _, _, _, hres⟩ := prototype_codegen_spec h
        rw [hkey ast hast] at hne hres
        exact ⟨hne, hres hv⟩
      · simp only [Result.ok.injEq] at h
        rw [← h.1] at hv
        cases hv

/-- The lines `getFunction` prints are never about an unresolved callee. -/
theorem getFunction_printed {fuel : Nat} {name : String} {cg cg1 : CodeGenerator} {v : Value}
    (h : cg.getFunction fuel name = .ok v cg1) :
    ∃ out, cg1.printed = cg.printed ++ out ∧ ∀ m, unknownFunction m ∉ out := by
  cases fuel with
  | zero => cases h
  | succ fuel =>
    simp only [CodeGenerator.getFunction] at h
    split_ifs at h with hnil
    · simp only [Result.ok.injEq] at h
      exact ⟨[], by rw [← h.2]; simp, fun m hm => by cases hm⟩
    · split at h
      · exact (prototype_codegen_spec h).2.2.2.1
      · simp only [Result.ok.injEq] at h
        exact ⟨[], by rw [← h.2]; simp, fun m hm => by cases hm⟩

/-- In a session with unique names and a well-keyed prototype table, the slot
`getFunction` resolves a name to holds the only function of that name. -/
theorem getFunction_owned {fuel : Nat} {name : String} {cg cg1 : CodeGenerator} {v : Value}
    (hu : cg.Module.uniqueNames) (hk : cg.protosKeyed)
    (h : cg.getFunction fuel name = .ok v cg1) (hv : v.IsNil = false) :
    name ≠ "" ∧ ∃ i, v = .function i ∧ Owned name i cg1 := by
  obtain ⟨hne, i, hvi, hsig⟩ := getFunction_named (fun ast ha => protosKeyed_get hk ha) h hv
  refine ⟨hne, i, hvi, hsig, ?_⟩
  cases fuel with
  | zero => cases h
  | succ fuel =>
    simp only [CodeGenerator.getFunction] at h
    split_ifs at h with hnil
    · simp only [Result.ok.injEq] at h
      rw [← h.2] at hsig ⊢
      intro j hj
      obtain ⟨f, hf, hfn⟩ := sig_eq_some hsig
      obtain ⟨g, hg, hgn⟩ := sig_eq_some hj
      exact uniqueNames_slot hu hg hf (hgn ▸ hne) (hgn.trans hfn.symm)
    · have habs := sig_absent_of_nil hne (isNil_eq_true (by simpa using hnil))
      split at h
      · rename_i ast hast
        obtain ⟨_, ⟨named, hs, _⟩, _⟩ := prototype_codegen_spec h
        have hone : ∀ j, (sig cg1)[j]? = some (some name) → j = (sig cg).length := by
          intro j hj
          rw [hs] at hj
          rcases Nat.lt_trichotomy j (sig cg).length with hlt | heq | hgt
          · rw [List.getElem?_append_left hlt] at hj
            exact absurd (List.getElem?_mem hj) habs
          · exact heq
          · rw [List.getElem?_eq_none (by simp; omega)] at hj
            cases hj
        intro j hj
        rw [hone j hj, hone i hsig]
      · simp only [Result.ok.injEq] at h
        rw [← h.1] at hv
        cases hv

theorem Owned.congr_obs {n : String} {i : Nat} {cg cg1 : CodeGenerator} (h : Owned n i cg)
    (ho : obs cg1 = obs cg) : Owned n i cg1 := by
  simp only [obs, Prod.mk.injEq] at ho
  unfold Owned
  rw [ho.1]
  exact h

theorem protosKeyed_of_obs {cg cg1 : CodeGenerator} (h : cg.protosKeyed)
    (ho : obs cg1 = obs cg) : cg1.protosKeyed := by
  simp only [obs, Prod.mk.injEq] at ho
  unfold CodeGenerator.protosKeyed
  rw [ho.2.1]
  exact h

/-- Lowering keeps the only function called `n` where it is. -/
theorem Owned.ext {n : String} {i : Nat} {cg cg1 : CodeGenerator} (h : Owned n i cg)
    (hk : cg.protosKeyed) (he : Ext n cg cg1) : Owned n i cg1 := by
  obtain ⟨⟨extra, hs, hnew⟩, _⟩ := he
  obtain ⟨hi, hone⟩ := h
  have hmem : some n ∈ sig cg := List.getElem?_mem hi
  have hlt : i < (sig cg).length := (List.getElem?_eq_some.mp hi).1
  refine ⟨by rw [hs, List.getElem?_append_left hlt]; exact hi, ?_⟩
  intro j hj
  rw [hs] at hj
  by_cases hjl : j < (sig cg).length
  · rw [List.getElem?_append_left hjl] at hj
    exact hone j hj
  · rw [List.getElem?_append_right (by omega)] at hj
    exact absurd (List.getElem?_mem hj) (hnew hk hmem)

theorem erase_nil_panics (cg : CodeGenerator) {v : Value} (hv : v.IsNil = true) :
    EraseFromParentAsFunction v cg = .panic := by
  rw [isNil_eq_true hv]
  rfl

/-- What the start of `FunctionAST.CodeGen` leaves behind: a function called
by the prototype's name, and no line about an unresolved callee. -/
theorem enter_spec {fuel : Nat} {proto : PrototypeAST} {cg cg1 : CodeGenerator} {v : Value}
    (h : FunctionAST.enter fuel proto cg = .ok v cg1) :
    proto.Name ≠ "" ∧ v.IsNil = false ∧ (∃ i, v = .function i ∧
      (sig cg1)[i]? = some (some proto.Name) ∧
      (cg.Module.uniqueNames → cg.protosKeyed → Owned proto.Name i cg1 ∧ cg1.protosKeyed)) ∧
    ∃ out, cg1.printed = cg.printed ++ out ∧ ∀ m, unknownFunction m ∉ out := by
  simp only [FunctionAST.enter] at h
  obtain ⟨fv, cgA, hg, h⟩ := Result.bind_eq_ok h
  split_ifs at h with hnil
  · rw [erase_nil_panics cgA hnil] at h
    cases h
  · obtain ⟨bb, cg2, hb, h⟩ := Result.bind_eq_ok h
    have hv : fv.IsNil = false := by simpa using hnil
    have hkey : ∀ ast, ({ cg with Protos := cg.Protos.set proto.Name proto } :
        CodeGenerator).Protos.get proto.Name = some ast → ast.Name = proto.Name := by
      intro ast ha
      simp only [GoMap.get_set, Option.some.injEq] at ha
      rw [← ha]
    obtain ⟨hne, i, hvi, hsig⟩ := getFunction_named hkey hg hv
    obtain ⟨out, hout, hq⟩ := getFunction_printed hg
    have ob := obs_addBasicBlock hb
    split at h
    · rename_i j f hf
      simp only [Result.ok.injEq] at h
      obtain ⟨rfl, rfl⟩ := h
      have o1 : ∀ nv, obs ({ cg2 with Builder := some bb, NamedValues := nv } : CodeGenerator) =
          obs cgA := fun nv => ob
      refine ⟨hne, hv, ⟨i, hvi, ?_, ?_⟩, out, ?_, hq⟩
      · have := o1 []
        simp only [obs, Prod.mk.injEq] at this ob
        show (sig cg2)[i]? = _
        rw [ob.1]
        exact hsig
      · intro hu hk
        have hk0 := protosKeyed_set hk proto
        have hu0 : ({ cg with Protos := cg.Protos.set proto.Name proto } :
            CodeGenerator).Module.uniqueNames := hu
        obtain ⟨_, i2, hvi2, hown⟩ := getFunction_owned hu0 hk0 hg hv
        rw [hvi] at hvi2
        cases hvi2
        exact ⟨hown.congr_obs (o1 _), protosKeyed_of_obs
          ((getFunction_ext proto.Name hg).protosKeyed hk0) (o1 _)⟩
      · simp only [obs, Prod.mk.injEq] at ob
        show cg2.printed = _
        rw [ob.2.2]
        exact hout
    · cases h

/-! ## Lowering: two units of fuel are enough -/

theorem bind_fueled {σ α β : Type} {r : Result σ α} {k : α → σ → Result σ β}
    (hr : r ≠ .outOfFuel) (hk : ∀ a s, k a s ≠ .outOfFuel) : r.bind k ≠ .outOfFuel := by
  cases r with
  | ok a s => exact hk a s
  | panic => exact fun h => by cases h
  | outOfFuel => exact absurd rfl hr

theorem erase_fueled (v : Value) (cg : CodeGenerator) :
    EraseFromParentAsFunction v cg ≠ .outOfFuel := by
  unfold EraseFromParentAsFunction
  split <;> exact fun h => by cases h

theorem addBasicBlock_fueled (v : Value) (cg : CodeGenerator) :
    AddBasicBlock v cg ≠ .outOfFuel := by
  unfold AddBasicBlock
  split <;> exact fun h => by cases h

theorem insertBlockParent_fueled (cg : CodeGenerator) :
    cg.insertBlockParent ≠ .outOfFuel := by
  unfold CodeGenerator.insertBlockParent
  split
  · exact fun h => by cases h
  · split <;> exact fun h => by cases h

/-- With one unit of fuel `PrototypeAST.CodeGen` does not run out of it: the
branch that calls `getFunction` is never taken, since `NamedFunction` returns
a function of the name asked for. -/
theorem prototype_codegen_fueled (fuel : Nat) (ast : PrototypeAST) (cg : CodeGenerator) :
    PrototypeAST.CodeGen (fuel + 1) ast cg ≠ .outOfFuel := by
  simp only [PrototypeAST.CodeGen]
  generalize AddFunction cg ast.Name ast.Args.length = cgA
  split
  · exact fun h => by cases h
  · rename_i j f hf
    obtain ⟨hv, hfj⟩ := func?_eq_some hf
    obtain ⟨_, i, f2, hv2, hf2, hname⟩ := namedFunction_spec (m := cgA.Module) rfl
      (by rw [hv]; rfl)
    rw [hv] at hv2
    cases hv2
    rw [hfj] at hf2
    cases hf2
    rw [if_neg (by simp [hname]), Result.bind_ok, hf]
    simp only
    split_ifs <;> exact fun h => by cases h

theorem getFunction_fueled (fuel : Nat) (name : String) (cg : CodeGenerator) :
    cg.getFunction (fuel + 2) name ≠ .outOfFuel := by
  simp only [CodeGenerator.getFunction]
  split_ifs
  · exact fun h => by cases h
  · split
    · exact prototype_codegen_fueled fuel _ cg
    · exact fun h => by cases h

theorem enter_fueled (fuel : Nat) (proto : PrototypeAST) (cg : CodeGenerator) :
    FunctionAST.enter (fuel + 2) proto cg ≠ .outOfFuel := by
  unfold FunctionAST.enter
  refine bind_fueled (getFunction_fueled fuel _ _) (fun fv cgA => ?_)
  split_ifs
  · exact bind_fueled (erase_fueled _ _) (fun _ _ h => by cases h)
  · refine bind_fueled (addBasicBlock_fueled _ _) (fun bb cg2 => ?_)
    dsimp only
    split <;> exact fun h => by cases h

mutual

/-- Lowering any node with two units of fuel or more does not run out of
fuel: it returns or aborts, as the Go code does. -/
theorem codegen_fueled (fuel : Nat) :
    ∀ (e : ExprAST) (cg : CodeGenerator), e.CodeGen (fuel + 2) cg ≠ .outOfFuel
  | .NumberExprAST _, cg => by
    simp only [ExprAST.CodeGen]
    exact fun h => by cases h
  | .VariableExprAST name, cg => by
    simp only [ExprAST.CodeGen]
    split <;> exact fun h => by cases h
  | .BinaryExprAST op l r, cg => by
    simp only [ExprAST.CodeGen]
    refine bind_fueled (codegen_fueled fuel l cg) (fun lv cgl => ?_)
    refine bind_fueled (codegen_fueled fuel r cgl) (fun rv cgr => ?_)
    split_ifs <;> exact fun h => by cases h
  | .CallExprAST callee args, cg => by
    simp only [ExprAST.CodeGen]
    refine bind_fueled (getFunction_fueled fuel _ _) (fun fv cgf => ?_)
    split_ifs
    · exact fun h => by cases h
    · split
      · exact fun h => by cases h
      · split_ifs
        · exact fun h => by cases h
        · refine bind_fueled (loop_fueled fuel args [] cgf) (fun vals cgl => ?_)
          split <;> exact fun h => by cases h
  | .PrototypeAST proto, cg => by
    simp only [ExprAST.CodeGen]
    exact prototype_codegen_fueled (fuel + 1) proto cg
  | .FunctionAST proto body, cg => by
    simp only [ExprAST.CodeGen]
    refine bind_fueled (enter_fueled fuel proto cg) (fun fv cgE => ?_)
    split_ifs
    · exact fun h => by cases h
    · refine bind_fueled (codegen_fueled fuel body cgE) (fun rv cgB => ?_)
      split_ifs
      · exact fun h => by cases h
      · exact bind_fueled (erase_fueled _ _) (fun _ _ h => by cases h)
  | .IfExprAST c t e, cg => by
    simp only [ExprAST.CodeGen]
    refine bind_fueled (codegen_fueled fuel c cg) (fun cond cgc => ?_)
    split_ifs
    · exact fun h => by cases h
    · refine bind_fueled (insertBlockParent_fueled _) (fun fv cg2 => ?_)
      refine bind_fueled (addBasicBlock_fueled _ _) (fun tb cg3 => ?_)
      refine bind_fueled (addBasicBlock_fueled _ _) (fun eb cg4 => ?_)
      refine bind_fueled (addBasicBlock_fueled _ _) (fun mb cg5 => ?_)
      refine bind_fueled (codegen_fueled fuel t _) (fun tv cg7 => ?_)
      split_ifs
      · exact fun h => by cases h
      · refine bind_fueled (codegen_fueled fuel e _) (fun ev cg9 => ?_)
        split_ifs
        · exact fun h => by cases h
        · split <;> exact fun h => by cases h

/-- The same for the loop over the arguments of a call. -/
theorem loop_fueled (fuel : Nat) :
    ∀ (args : List ExprAST) (vals : List Value) (cg : CodeGenerator),
      CallExprAST.loop (fuel + 2) args vals cg ≠ .outOfFuel
  | [], vals, cg => by
    simp only [CallExprAST.loop]
    exact fun h => by cases h
  | arg :: rest, vals, cg => by
    simp only [CallExprAST.loop]
    refine bind_fueled (codegen_fueled fuel arg cg) (fun av cga => ?_)
    split_ifs
    · exact fun h => by cases h
    · refine bind_fueled (codegen_fueled fuel arg cga) (fun av2 cgb => ?_)
      exact loop_fueled fuel rest _ cgb

end

/-! ## Lowering: redefinition, arity, self-recursion, discarding (C4 to C7) -/

/-- C4, evaluated at its failing input: in the session where
`Function{Prototype{g,[x]}, Variable x}` has been lowered (function 0, with a
body), lowering `Function{Prototype{g,[x,y]}, Variable x}` does not fail: it
returns function 0, the prototype stored for `g` is the second one, with two
parameters, and the module still holds the one function `g` of the first
definition, with the one parameter `x`. -/
theorem redefinition_is_accepted :
    (ExprAST.CodeGen 2 (.FunctionAST ⟨"g", ["x"]⟩ (.VariableExprAST "x")) NewCodeGen).value? =
      some (.function 0) ∧
    (ExprAST.CodeGen 2 (.FunctionAST ⟨"g", ["x", "y"]⟩ (.VariableExprAST "x"))
      (lowerAll 2 [.FunctionAST ⟨"g", ["x"]⟩ (.VariableExprAST "x")] NewCodeGen)).value? =
      some (.function 0) ∧
    ((ExprAST.CodeGen 2 (.FunctionAST ⟨"g", ["x", "y"]⟩ (.VariableExprAST "x"))
      (lowerAll 2 [.FunctionAST ⟨"g", ["x"]⟩ (.VariableExprAST "x")] NewCodeGen)).state?.map
        fun cg => cg.Protos.get "g") = some (some ⟨"g", ["x", "y"]⟩) ∧
    ((ExprAST.CodeGen 2 (.FunctionAST ⟨"g", ["x", "y"]⟩ (.VariableExprAST "x"))
      (lowerAll 2 [.FunctionAST ⟨"g", ["x"]⟩ (.VariableExprAST "x")] NewCodeGen)).state?.map
        fun cg => cg.Module.functions.map (Option.map fun f => (f.name, f.params))) =
      some [some ("g", ["x"])] := by
  decide!

/-- C5. When the callee of `Call{callee, args}` resolves to a function whose
parameter count differs from `len(args)`, lowering the call returns nil in
the session as `getFunction` left it plus the one printed line: no argument
has been lowered and nothing has been emitted. -/
theorem call_arity_mismatch_fails_early (fuel : Nat) (callee : String) (args : List ExprAST)
    (cg cg1 : CodeGenerator) (function : Value) (i : Nat) (f : LLVMFunction)
    (hres : cg.getFunction fuel callee = .ok function cg1)
    (hfn : cg1.func? function = some (i, f))
    (hne : f.params.length ≠ args.length) :
    ExprAST.CodeGen fuel (.CallExprAST callee args) cg =
      .ok .nil (cg1.error (arityMessage f.params.length args.length)) := by
  have hv : function.IsNil = false := by rw [(func?_eq_some hfn).1]; rfl
  simp only [ExprAST.CodeGen, hres, Result.bind_ok, hv, hfn, Bool.false_eq_true, if_false]
  rw [if_pos hne]

/-- C5 at `add(1)` after `def add : x, y { x + y }`. -/
theorem call_arity_mismatch_fails_early_witness :
    ExprAST.CodeGen 2 (.CallExprAST "add" [.NumberExprAST 1])
        (lowerAll 2 [.FunctionAST ⟨"add", ["x", "y"]⟩
          (.BinaryExprAST "+" (.VariableExprAST "x") (.VariableExprAST "y"))] NewCodeGen) =
      .ok .nil ((lowerAll 2 [.FunctionAST ⟨"add", ["x", "y"]⟩
          (.BinaryExprAST "+" (.VariableExprAST "x") (.VariableExprAST "y"))] NewCodeGen).error
        (arityMessage 2 1)) :=
  call_arity_mismatch_fails_early 2 "add" [.NumberExprAST 1]
    (lowerAll 2 [.FunctionAST ⟨"add", ["x", "y"]⟩
      (.BinaryExprAST "+" (.VariableExprAST "x") (.VariableExprAST "y"))] NewCodeGen)
    (lowerAll 2 [.FunctionAST ⟨"add", ["x", "y"]⟩
      (.BinaryExprAST "+" (.VariableExprAST "x") (.VariableExprAST "y"))] NewCodeGen)
    (.function 0) 0 ⟨"add", ["x", "y"], 0, [0]⟩ (by decide!) (by decide!) (by decide)

/-- C6. While `Function{Prototype{f, params}, body}` is lowered, with `body`
an expression, no call fails to resolve the callee `f`: the line
`Unknown function referenced: f` is not among the lines the lowering prints. -/
theorem self_call_resolves (fuel : Nat) (proto : PrototypeAST) (body : ExprAST)
    (cg cg1 : CodeGenerator) (r : Value)
    (hbody : body.isExpr = true)
    (hrun : ExprAST.CodeGen fuel (.FunctionAST proto body) cg = .ok r cg1) :
    ∃ out, cg1.printed = cg.printed ++ out ∧ unknownFunction proto.Name ∉ out := by
  simp only [ExprAST.CodeGen] at hrun
  obtain ⟨fv, cgE, hent, h⟩ := Result.bind_eq_ok hrun
  obtain ⟨hne, hv, ⟨i, _, hsig, _⟩, out0, hout0, hq0⟩ := enter_spec hent
  rw [hv] at h
  simp only [Bool.false_eq_true, if_false] at h
  obtain ⟨rv, cgB, hb, h⟩ := Result.bind_eq_ok h
  obtain ⟨_, _, out1, hout1, hq1⟩ := expr_ext proto.Name fuel body cgE cgB rv hbody hb
  have hq1 := hq1 hne (List.getElem?_mem hsig)
  have hfin : cg1.printed = cgB.printed := by
    split_ifs at h
    · simp only [Result.ok.injEq] at h
      rw [← h.2]
      rfl
    · obtain ⟨_, cgX, he, h⟩ := Result.bind_eq_ok h
      simp only [Result.ok.injEq] at h
      rw [← h.2]
      unfold EraseFromParentAsFunction at he
      split at he
      · cases he
      · simp only [Result.ok.injEq] at he
        rw [← he.2]
  refine ⟨out0 ++ out1, by rw [hfin, hout1, hout0, List.append_assoc], ?_⟩
  intro hmem
  rcases List.mem_append.mp hmem with hm | hm
  · exact hq0 _ hm
  · exact hq1 hm

/-- C6 at `def f : x { if x < 1 , 1 else f(x - 1) }` in an empty session: the
lowering succeeds (it returns function 0) and prints nothing about `f`. -/
theorem self_call_resolves_witness :
    (ExprAST.CodeGen 2 (.FunctionAST ⟨"f", ["x"]⟩
        (.IfExprAST (.BinaryExprAST "<" (.VariableExprAST "x") (.NumberExprAST 1))
          (.NumberExprAST 1)
          (.CallExprAST "f" [.BinaryExprAST "-" (.VariableExprAST "x") (.NumberExprAST 1)])))
      NewCodeGen).value? = some (.function 0) ∧
    ∃ out, (lowerAll 2 [.FunctionAST ⟨"f", ["x"]⟩
        (.IfExprAST (.BinaryExprAST "<" (.VariableExprAST "x") (.NumberExprAST 1))
          (.NumberExprAST 1)
          (.CallExprAST "f" [.BinaryExprAST "-" (.VariableExprAST "x") (.NumberExprAST 1)]))]
        NewCodeGen).printed = NewCodeGen.printed ++ out ∧ unknownFunction "f" ∉ out :=
  ⟨by decide!,
    self_call_resolves 2 ⟨"f", ["x"]⟩
      (.IfExprAST (.BinaryExprAST "<" (.VariableExprAST "x") (.NumberExprAST 1))
        (.NumberExprAST 1)
        (.CallExprAST "f" [.BinaryExprAST "-" (.VariableExprAST "x") (.NumberExprAST 1)]))
      NewCodeGen _ (.function 0) (by decide) (by decide!)⟩

/-- C7. In a session with unique function names and a well-keyed prototype
table, when the body (an expression) of a Function fails to lower, the
Function lowering returns nil and the module then has no function under the
prototype's name. -/
theorem failed_function_is_discarded (fuel : Nat) (proto : PrototypeAST) (body : ExprAST)
    (cg cg1 cg2 : CodeGenerator) (function : Value)
    (hnames : cg.Module.uniqueNames) (hprotos : cg.protosKeyed)
    (hbody : body.isExpr = true)
    (henter : FunctionAST.enter fuel proto cg = .ok function cg1)
    (hfail : body.CodeGen fuel cg1 = .ok .nil cg2) :
    ∃ cg3, ExprAST.CodeGen fuel (.FunctionAST proto body) cg = .ok .nil cg3 ∧
      cg3.Module.NamedFunction proto.Name = .nil := by
  obtain ⟨hne, hv, ⟨i, hvi, _, hown⟩, _⟩ := enter_spec henter
  obtain ⟨hown, hk1⟩ := hown hnames hprotos
  obtain ⟨hi, hone⟩ := hown.ext hk1 (expr_ext proto.Name fuel body cg1 cg2 .nil hbody hfail)
  obtain ⟨g, hg, _⟩ := sig_eq_some hi
  have hlt : i < cg2.Module.functions.length := (List.getElem?_eq_some.mp hg).1
  refine ⟨{ cg2 with Module := { cg2.Module with functions := cg2.Module.functions.set i none } },
    ?_, ?_⟩
  · simp only [ExprAST.CodeGen, henter, Result.bind_ok, hv, hfail]
    simp [Value.IsNil, EraseFromParentAsFunction, hvi, func?_of_getElem hg]
  · rw [namedFunction_nil_iff hne]
    intro j f hf hname
    by_cases hji : i = j
    · subst hji
      simp [List.getElem?_set, hlt] at hf
    · simp only [List.getElem?_set_ne hji] at hf
      exact hji (hone j (hname ▸ sig_of_func hf)).symm

/-- C7 at `def h : x { y }` in an empty session. -/
theorem failed_function_is_discarded_witness :
    ∃ cg3, ExprAST.CodeGen 2 (.FunctionAST ⟨"h", ["x"]⟩ (.VariableExprAST "y")) NewCodeGen =
        .ok .nil cg3 ∧ cg3.Module.NamedFunction "h" = .nil :=
  failed_function_is_discarded 2 ⟨"h", ["x"]⟩ (.VariableExprAST "y") NewCodeGen
    ((FunctionAST.enter 2 ⟨"h", ["x"]⟩ NewCodeGen).state?.getD NewCodeGen)
    (((FunctionAST.enter 2 ⟨"h", ["x"]⟩ NewCodeGen).state?.getD NewCodeGen).error
      "Unknown variable name y")
    (.function 0) (by decide) (by decide) (by decide) (by decide!) (by decide!)

/-! ## Parser: running off the tokens, the stuck driver, lenient `if` (C8, C9, C10) -/

/-- C8, evaluated at its failing input: on the tokens of `def f : x` (no
opening brace) `ParseDefinition` does not report a parse failure but aborts,
`Lexer.next` indexing past the `EOF` token, whatever the fuel. -/
theorem parse_definition_runs_off_the_tokens (fuel : Nat) :
    ParseDefinition (fuel + 3) (Parser.ofSource decimalLiteral ["def", "f", ":", "x"]) =
      .panic := by
  rfl

/-- The driver loop on the tokens of `)` never returns: each iteration fails
to parse without consuming a token. -/
theorem file_loop_stuck (fuel : Nat) (printed : List Printed) (cg : CodeGenerator) :
    FileLoop fuel { Parser.ofSource decimalLiteral [")"] with printed := printed } cg =
      .outOfFuel := by
  induction fuel generalizing printed with
  | zero => rfl
  | succ n ih =>
    rcases n with _ | _ | n
    · rfl
    · rfl
    · exact ih _

/-- C9, evaluated at its failing input: on the source `)` the loop of `File`
never reaches the `EOF` token, whatever the fuel. -/
theorem file_never_returns_on_stray_paren (fuel : Nat) :
    File decimalLiteral fuel (Parser.new [")"]) NewCodeGen = .outOfFuel :=
  file_loop_stuck fuel [] NewCodeGen

/-- C10, evaluated at its failing input: on the tokens of `if 1 2 else 3`
(no `,` after the condition) the parser prints `Expected ,` and still returns
the If node. -/
theorem parse_if_without_comma_builds_if (fuel : Nat) :
    ParseExpr (fuel + 5) (Parser.ofSource decimalLiteral ["if", "1", "2", "else", "3"]) =
      .ok (some (.IfExprAST (.NumberExprAST 1) (.NumberExprAST 2) (.NumberExprAST 3)))
        { (Parser.ofSource decimalLiteral ["if", "1", "2", "else", "3"]).moved 5
            ⟨"", .IDENTIFIER, 0⟩ with
          printed := [.parseError "Expected ," "2"] } := by
  rfl

/-! ## Lexer: the token sequence of `tokenise` (C13, C20) -/

theorem tokeniseLoop_eq (parseFloat : String → Option Int) (reader : List String)
    (acc : List Token) :
    tokeniseLoop parseFloat reader acc =
      acc ++ reader.map (scannedToken parseFloat) ++ [scannedToken parseFloat ""] := by
  induction reader generalizing acc with
  | nil => simp [tokeniseLoop]
  | cons s rest ih => simp [tokeniseLoop, ih]

theorem tokenise_tokens (parseFloat : String → Option Int) (l : Lexer) :
    (l.tokenise parseFloat).tokens =
      l.reader.map (scannedToken parseFloat) ++
        [scannedToken parseFloat "", ⟨"EOF", .EOF, 0⟩] := by
  simp [Lexer.tokenise, tokeniseLoop_eq]

theorem whatType_ne_EOF (parseFloat : String → Option Int) (s : String) :
    whatType parseFloat s ≠ .EOF := by
  unfold whatType
  split_ifs
  · exact fun h => by cases h
  · exact fun h => by cases h
  · exact fun h => by cases h
  · exact fun h => by cases h
  · exact fun h => by cases h
  · split <;> exact fun h => by cases h

/-- C13. After `tokenise`, whatever the lexer held before: the token sequence
is not empty; its last token is the `EOF` token; a token of kind `EOF` is the
last one; the lexer is the one `tokenise` gives from the same reader and no
tokens at all, so nothing of the previous sequence remains; the cursor is 0
and the current token is the first token. -/
theorem tokenise_resets_the_stream (parseFloat : String → Option Int) (l : Lexer) :
    (l.tokenise parseFloat).tokens ≠ [] ∧
    (l.tokenise parseFloat).tokens.getLast? = some ⟨"EOF", .EOF, 0⟩ ∧
    (∀ (i : Nat) (t : Token), (l.tokenise parseFloat).tokens[i]? = some t → t.ty = .EOF →
      i + 1 = (l.tokenise parseFloat).tokens.length) ∧
    l.tokenise parseFloat = Lexer.tokenise parseFloat
      { reader := l.reader, tokens := [], index := 0, current := ⟨"", .IDENTIFIER, 0⟩ } ∧
    (l.tokenise parseFloat).index = 0 ∧
    (l.tokenise parseFloat).tokens[0]? = some (l.tokenise parseFloat).current := by
  refine ⟨?_, ?_, ?_, rfl, rfl, ?_⟩
  · simp [tokenise_tokens]
  · simp [tokenise_tokens]
  · intro i t hi ht
    rw [tokenise_tokens] at hi ⊢
    have hlen : (l.reader.map (scannedToken parseFloat) ++
        [scannedToken parseFloat "", (⟨"EOF", .EOF, 0⟩ : Token)]).length =
        l.reader.length + 2 := by simp
    rw [hlen]
    by_cases h1 : i < l.reader.length
    · rw [List.getElem?_append_left (by simpa using h1)] at hi
      simp only [List.getElem?_map, Option.map_eq_some'] at hi
      obtain ⟨s, _, rfl⟩ := hi
      exact absurd ht (whatType_ne_EOF parseFloat s)
    · rw [List.getElem?_append_right (by simpa using h1)] at hi
      simp only [List.length_map] at hi
      rcases Nat.lt_trichotomy (i - l.reader.length) 1 with h2 | h2 | h2
      · have h0 : i - l.reader.length = 0 := by omega
        rw [h0] at hi
        simp only [List.getElem?_cons_zero, Option.some.injEq] at hi
        subst hi
        exact absurd ht (whatType_ne_EOF parseFloat "")
      · omega
      · have : ∃ j, i - l.reader.length = j + 2 := ⟨i - l.reader.length - 2, by omega⟩
        obtain ⟨j, hj⟩ := this
        rw [hj] at hi
        simp at hi
  · cases hr : l.reader <;> simp [Lexer.tokenise, tokeniseLoop_eq, hr]

/-- C20. The token sequence of `tokenise` is the tokens of the scanned texts,
then a token with empty text of kind `IDENTIFIER` (the scan that returned
`scanner.EOF`), then the `EOF` token: `n` texts give `n + 2` tokens. Go's
`strconv.ParseFloat` rejects the empty text, which is the hypothesis. -/
theorem tokenise_appends_empty_identifier (parseFloat : String → Option Int) (l : Lexer)
    (hempty : parseFloat "" = none) :
    (l.tokenise parseFloat).tokens =
      l.reader.map (scannedToken parseFloat) ++
        [⟨"", .IDENTIFIER, 0⟩, ⟨"EOF", .EOF, 0⟩] ∧
    (l.tokenise parseFloat).tokens.length = l.reader.length + 2 := by
  have hs : scannedToken parseFloat "" = ⟨"", .IDENTIFIER, 0⟩ := by
    simp [scannedToken, whatType, hempty]
  rw [tokenise_tokens, hs]
  simp

/-- C20 at the empty source: the two tokens `[Identifier "", EOF]`. -/
theorem tokenise_appends_empty_identifier_witness :
    ((Parser.new []).lexer.tokenise decimalLiteral).tokens =
      [⟨"", .IDENTIFIER, 0⟩, ⟨"EOF", .EOF, 0⟩] ∧
    ((Parser.new []).lexer.tokenise decimalLiteral).tokens.length = 0 + 2 :=
  tokenise_appends_empty_identifier decimalLiteral (Parser.new []).lexer (by decide)

/-! ## Parser: separators that are reported but not required (C11, C12) -/

/-- C11, evaluated at its failing input: on the tokens of `def f : x { x`
(no closing brace) `ParseDefinition` prints `Expected }` and still returns the
Function node. -/
theorem parse_definition_without_closing_brace (fuel : Nat) :
    ParseDefinition (fuel + 3)
        (Parser.ofSource decimalLiteral ["def", "f", ":", "x", "\x7b", "x"]) =
      .ok (some (.FunctionAST ⟨"f", ["x"]⟩ (.VariableExprAST "x")))
        { (Parser.ofSource decimalLiteral ["def", "f", ":", "x", "\x7b", "x"]).moved 6
            ⟨"", .IDENTIFIER, 0⟩ with
          printed := [.parseError "Expected \x7d" ""] } := by
  rfl

/-- C12, evaluated at its failing inputs: on the tokens of `f : x y {` (no
comma) `ParsePrototype` prints `Expected ,` and returns `Prototype{f, [x, y]}`;
on the tokens of `f : 1 {` it returns `Prototype{f, [1]}`, the number token
taken as a parameter name. -/
theorem parse_prototype_accepts_malformed_parameters (fuel : Nat) :
    ParsePrototype (fuel + 2) (Parser.ofSource decimalLiteral ["f", ":", "x", "y", "\x7b"]) =
      .ok (some (.PrototypeAST ⟨"f", ["x", "y"]⟩))
        { (Parser.ofSource decimalLiteral ["f", ":", "x", "y", "\x7b"]).moved 5
            ⟨"", .IDENTIFIER, 0⟩ with
          printed := [.parseError "Expected ," "y"] } ∧
    ParsePrototype (fuel + 1) (Parser.ofSource decimalLiteral ["f", ":", "1", "\x7b"]) =
      .ok (some (.PrototypeAST ⟨"f", ["1"]⟩))
        ((Parser.ofSource decimalLiteral ["f", ":", "1", "\x7b"]).moved 4
          ⟨"", .IDENTIFIER, 0⟩) := by
  exact ⟨rfl, rfl⟩

/-! ## Lowering: what a failure leaves, arguments lowered twice, stale parameter names
(C14, C16, C17) -/

/-- C14, evaluated at its failing input: in the empty session `h` is neither
in the prototype table nor resolved by `getFunction`; lowering
`Function{Prototype{h,[x]}, Variable y}` fails; afterwards the prototype of
`h` is in the table and `getFunction` resolves `h` (declaring it anew). -/
theorem failed_function_stays_registered :
    NewCodeGen.Protos.get "h" = none ∧
    (NewCodeGen.getFunction 2 "h").value? = some .nil ∧
    (ExprAST.CodeGen 2 (.FunctionAST ⟨"h", ["x"]⟩ (.VariableExprAST "y")) NewCodeGen).value? =
      some .nil ∧
    (lowerAll 2 [.FunctionAST ⟨"h", ["x"]⟩ (.VariableExprAST "y")] NewCodeGen).Protos.get "h" =
      some ⟨"h", ["x"]⟩ ∧
    ((lowerAll 2 [.FunctionAST ⟨"h", ["x"]⟩ (.VariableExprAST "y")]
      NewCodeGen).getFunction 2 "h").value? = some (.function 1) := by
  decide!

/-- C16, evaluated at its failing input: after
`def add : x, y { x + y }`, lowering `def k : x { add(x + 1, x) }` emits the
addition of the first argument twice (instructions 4 and 5) and the call takes
the result of the second one. -/
theorem call_arguments_are_lowered_twice :
    (lowerAll 2
      [.FunctionAST ⟨"add", ["x", "y"]⟩
        (.BinaryExprAST "+" (.VariableExprAST "x") (.VariableExprAST "y")),
       .FunctionAST ⟨"k", ["x"]⟩
        (.CallExprAST "add"
          [.BinaryExprAST "+" (.VariableExprAST "x") (.NumberExprAST 1), .VariableExprAST "x"])]
      NewCodeGen).emitted =
      [Instruction.mk 1 .FAdd [.param 0 0, .param 0 1] [] (some 0),
       Instruction.mk 2 .Ret [.instr 1] [] (some 0),
       Instruction.mk 4 .FAdd [.param 1 0, .ConstFloat 1] [] (some 3),
       Instruction.mk 5 .FAdd [.param 1 0, .ConstFloat 1] [] (some 3),
       Instruction.mk 6 .Call [.function 0, .instr 5, .param 1 0] [] (some 3),
       Instruction.mk 7 .Ret [.instr 6] [] (some 3)] := by
  decide!

/-- C17, evaluated at its failing input: in the session where
`Prototype{f,[a]}` has been lowered (what `import f : a { }` does), when the
body of `Function{Prototype{f,[b]}, Variable b}` is about to be lowered the
scope binds `a`, not `b`; the definition then fails on its own parameter and
the function is erased. -/
theorem scope_keeps_declared_parameter_names :
    ((FunctionAST.enter 2 ⟨"f", ["b"]⟩
      (lowerAll 2 [.PrototypeAST ⟨"f", ["a"]⟩] NewCodeGen)).state?.map
        fun cg => cg.NamedValues) = some [("a", Value.param 0 0)] ∧
    (ExprAST.CodeGen 2 (.FunctionAST ⟨"f", ["b"]⟩ (.VariableExprAST "b"))
      (lowerAll 2 [.PrototypeAST ⟨"f", ["a"]⟩] NewCodeGen)).value? = some .nil ∧
    (lowerAll 2 [.PrototypeAST ⟨"f", ["a"]⟩, .FunctionAST ⟨"f", ["b"]⟩ (.VariableExprAST "b")]
      NewCodeGen).printed = [.line "Unknown variable name b"] ∧
    (lowerAll 2 [.PrototypeAST ⟨"f", ["a"]⟩, .FunctionAST ⟨"f", ["b"]⟩ (.VariableExprAST "b")]
      NewCodeGen).Module.functions = [none] := by
  decide!

/-! ## The operators the parser builds are those the lowering handles (C18) -/

theorem binop_isSome_iff (s : String) :
    (BinopPrecedence s).isSome = true ↔ s ∈ tableOperators := by
  unfold BinopPrecedence tableOperators
  split_ifs <;> simp_all

theorem prec_nonneg_table {t : Token} (h : 0 ≤ tokenPrecedence t) : t.name ∈ tableOperators := by
  rw [← binop_isSome_iff]
  unfold tokenPrecedence at h
  split_ifs at h
  · omega
  · split at h
    · rename_i q hq
      simp [hq]
    · omega

/-- Every node the expression parsers return, with any fuel, has table
operators only. -/
theorem parsers_opsOk (fuel : Nat) :
    (∀ p e p1, ParseParenExpr fuel p = .ok (some e) p1 → e.opsOk = true) ∧
    (∀ args p r p1, ParseIdentifierExprLoop fuel args p = .ok (some r) p1 →
      ExprAST.allOpsOk args = true → ExprAST.allOpsOk r = true) ∧
    (∀ p e p1, ParseIdentifierExpr fuel p = .ok (some e) p1 → e.opsOk = true) ∧
    (∀ p e p1, ParsePrimaryExpr fuel p = .ok (some e) p1 → e.opsOk = true) ∧
    (∀ exprPrec LHS p e p1, 0 ≤ exprPrec → LHS.opsOk = true →
      ParseBinOpRHS fuel exprPrec LHS p = .ok (some e) p1 → e.opsOk = true) ∧
    (∀ p e p1, ParseExpr fuel p = .ok (some e) p1 → e.opsOk = true) ∧
    (∀ p e p1, ParseIfExpr fuel p = .ok (some e) p1 → e.opsOk = true) := by
  induction fuel with
  | zero =>
    refine ⟨?_, ?_, ?_, ?_, ?_, ?_, ?_⟩
    · intro p e p1 h
      simp [ParseParenExpr] at h
    · intro args p r p1 h
      simp [ParseIdentifierExprLoop] at h
    · intro p e p1 h
      simp [ParseIdentifierExpr] at h
    · intro p e p1 h
      simp [ParsePrimaryExpr] at h
    · intro exprPrec LHS p e p1 _ _ h
      simp [ParseBinOpRHS] at h
    · intro p e p1 h
      simp [ParseExpr] at h
    · intro p e p1 h
      simp [ParseIfExpr] at h
  | succ fuel ih =>
    obtain ⟨iParen, iLoop, iIdent, iPrim, iBin, iExpr, iIf⟩ := ih
    refine ⟨?_, ?_, ?_, ?_, ?_, ?_, ?_⟩
    · intro p e p1 h
      simp only [ParseParenExpr] at h
      obtain ⟨_, pa, _, h⟩ := Result.bind_eq_ok h
      obtain ⟨v, pb, hv, h⟩ := Result.bind_eq_ok h
      cases v with
      | none => simp at h
      | some v =>
        simp only at h
        split_ifs at h
        · simp at h
        · obtain ⟨_, pc, _, h⟩ := Result.bind_eq_ok h
          simp only [Result.ok.injEq, Option.some.injEq] at h
          rw [← h.1]
          exact iExpr _ _ _ hv
    · intro args p r p1 h hargs
      simp only [ParseIdentifierExprLoop] at h
      obtain ⟨arg, pa, harg, h⟩ := Result.bind_eq_ok h
      cases arg with
      | none => simp at h
      | some arg =>
        have hnew : ExprAST.allOpsOk (args ++ [arg]) = true := by
          have : ∀ l : List ExprAST, ExprAST.allOpsOk l = true →
              ExprAST.allOpsOk (l ++ [arg]) = true := by
            intro l
            induction l with
            | nil => intro _; simp [ExprAST.allOpsOk, iExpr _ _ _ harg]
            | cons a l ih2 =>
              intro hl
              simp only [ExprAST.allOpsOk, Bool.and_eq_true, List.cons_append] at hl ⊢
              exact ⟨hl.1, ih2 hl.2⟩
          exact this args hargs
        simp only at h
        split_ifs at h
        · simp only [Result.ok.injEq, Option.some.injEq] at h
          rw [← h.1]
          exact hnew
        · simp at h
        · obtain ⟨_, pb, _, h⟩ := Result.bind_eq_ok h
          exact iLoop _ _ _ _ h hnew
    · intro p e p1 h
      simp only [ParseIdentifierExpr] at h
      obtain ⟨_, pa, _, h⟩ := Result.bind_eq_ok h
      split_ifs at h
      · simp only [Result.ok.injEq, Option.some.injEq] at h
        rw [← h.1]
        rfl
      · obtain ⟨_, pb, _, h⟩ := Result.bind_eq_ok h
        split_ifs at h
        · obtain ⟨args, pc, hargs, h⟩ := Result.bind_eq_ok h
          cases args with
          | none => simp at h
          | some args =>
            obtain ⟨_, pd, _, h⟩ := Result.bind_eq_ok h
            simp only [Result.ok.injEq, Option.some.injEq] at h
            rw [← h.1]
            simp only [ExprAST.opsOk]
            exact iLoop _ _ _ _ hargs rfl
        · obtain ⟨_, pc, _, h⟩ := Result.bind_eq_ok h
          simp only [Result.ok.injEq, Option.some.injEq] at h
          rw [← h.1]
          rfl
    · intro p e p1 h
      simp only [ParsePrimaryExpr] at h
      split_ifs at h
      · exact iIdent _ _ _ h
      · simp only [ParseNumberExpr] at h
        obtain ⟨_, pa, _, h⟩ := Result.bind_eq_ok h
        simp only [Result.ok.injEq, Option.some.injEq] at h
        rw [← h.1]
        rfl
      · exact iIf _ _ _ h
      · exact iParen _ _ _ h
      · simp at h
    · intro exprPrec LHS p e p1 hprec hL h
      simp only [ParseBinOpRHS] at h
      split_ifs at h with hlt
      · simp only [Result.ok.injEq, Option.some.injEq] at h
        rw [← h.1]
        exact hL
      · obtain ⟨_, pa, _, h⟩ := Result.bind_eq_ok h
        obtain ⟨RHS, pb, hR, h⟩ := Result.bind_eq_ok h
        have hop : p.lexer.current.name ∈ tableOperators := prec_nonneg_table (by omega)
        cases RHS with
        | none => simp at h
        | some RHS =>
          have hR1 := iPrim _ _ _ hR
          simp only at h
          split_ifs at h
          · obtain ⟨RHS2, pc, hR2, h⟩ := Result.bind_eq_ok h
            cases RHS2 with
            | none => simp at h
            | some RHS2 =>
              have hR3 := iBin _ _ _ _ _ (by omega) hR1 hR2
              exact iBin _ _ _ _ _ hprec (by simp [ExprAST.opsOk, hop, hL, hR3]) h
          · exact iBin _ _ _ _ _ hprec (by simp [ExprAST.opsOk, hop, hL, hR1]) h
    · intro p e p1 h
      simp only [ParseExpr] at h
      obtain ⟨LHS, pa, hL, h⟩ := Result.bind_eq_ok h
      cases LHS with
      | none => simp at h
      | some LHS => exact iBin _ _ _ _ _ (le_refl 0) (iPrim _ _ _ hL) h
    · intro p e p1 h
      simp only [ParseIfExpr] at h
      obtain ⟨_, pa, _, h⟩ := Result.bind_eq_ok h
      obtain ⟨c, pb, hc, h⟩ := Result.bind_eq_ok h
      cases c with
      | none => simp at h
      | some c =>
        obtain ⟨_, pc, _, h⟩ := Result.bind_eq_ok h
        obtain ⟨t, pd, ht, h⟩ := Result.bind_eq_ok h
        cases t with
        | none => simp at h
        | some t =>
          obtain ⟨_, pe, _, h⟩ := Result.bind_eq_ok h
          obtain ⟨el, pf, hel, h⟩ := Result.bind_eq_ok h
          cases el with
          | none => simp at h
          | some el =>
            simp only [Result.ok.injEq, Option.some.injEq] at h
            rw [← h.1]
            simp [ExprAST.opsOk, iExpr _ _ _ hc, iExpr _ _ _ ht, iExpr _ _ _ hel]

theorem Quiet.still (m : Printed) (cg : CodeGenerator) : Quiet m cg cg :=
  ⟨[], by simp, fun h => by cases h⟩

theorem Quiet.andThen {m : Printed} {cg cg1 cg2 : CodeGenerator} (h1 : Quiet m cg cg1)
    (h2 : Quiet m cg1 cg2) : Quiet m cg cg2 := by
  obtain ⟨o1, ho1, hq1⟩ := h1
  obtain ⟨o2, ho2, hq2⟩ := h2
  refine ⟨o1 ++ o2, by rw [ho2, ho1, List.append_assoc], fun hmem => ?_⟩
  rcases List.mem_append.mp hmem with hm | hm
  · exact hq1 hm
  · exact hq2 hm

theorem Quiet.of_printed {m : Printed} {cg cg1 cg2 : CodeGenerator} (h : Quiet m cg cg1)
    (hp : cg2.printed = cg1.printed) : Quiet m cg cg2 := by
  unfold Quiet
  rw [hp]
  exact h

theorem Quiet.from_printed {m : Printed} {cg cg0 cg1 : CodeGenerator} (h : Quiet m cg0 cg1)
    (hp : cg0.printed = cg.printed) : Quiet m cg cg1 := by
  unfold Quiet at *
  rw [← hp]
  exact h

theorem Quiet.line {m : Printed} {cg cg1 : CodeGenerator} (h : Quiet m cg cg1) (s : String)
    (hs : Printed.line s ≠ m) : Quiet m cg (cg1.error s) :=
  h.andThen ⟨[.line s], rfl, fun hmem => hs (List.mem_singleton.mp hmem).symm⟩

theorem printed_of_obs {cg cg1 : CodeGenerator} (h : obs cg1 = obs cg) :
    cg1.printed = cg.printed := by
  simp only [obs, Prod.mk.injEq] at h
  exact h.2.2

theorem invalidOperator_ne_redefinition :
    Printed.line "Redefinition of function" ≠ invalidOperator ∧
    Printed.line "Redefinition of function with different number of args" ≠ invalidOperator := by
  constructor <;> decide

theorem invalidOperator_ne_messages (s : String) (a b : Nat) :
    Printed.line ("Unknown variable name " ++ s) ≠ invalidOperator ∧
    Printed.line ("Unknown function referenced: " ++ s) ≠ invalidOperator ∧
    Printed.line (arityMessage a b) ≠ invalidOperator := by
  refine ⟨?_, ?_, ?_⟩ <;> intro h <;>
    simp only [invalidOperator, Printed.line.injEq, arityMessage] at h <;>
    exact string_ne_of_get? 0 (by simp [String.data_append]) h

/-- `PrototypeAST.CodeGen` prints nothing but its two redefinition lines. -/
theorem prototype_codegen_quiet {m : Printed} {fuel : Nat} {ast : PrototypeAST}
    {cg cg1 : CodeGenerator} {v : Value}
    (h1 : Printed.line "Redefinition of function" ≠ m)
    (h2 : Printed.line "Redefinition of function with different number of args" ≠ m)
    (h : PrototypeAST.CodeGen fuel ast cg = .ok v cg1) : Quiet m cg cg1 := by
  cases fuel with
  | zero => cases h
  | succ fuel =>
    simp only [PrototypeAST.CodeGen] at h
    have hprinted : (AddFunction cg ast.Name ast.Args.length).printed = cg.printed := rfl
    generalize AddFunction cg ast.Name ast.Args.length = cgA at h hprinted
    split at h
    · cases h
    · rename_i j f hf
      obtain ⟨hv, hfj⟩ := func?_eq_some hf
      obtain ⟨_, i, f2, hv2, hf2, hname⟩ := namedFunction_spec (m := cgA.Module) rfl
        (by rw [hv]; rfl)
      rw [hv] at hv2
      cases hv2
      rw [hfj] at hf2
      cases hf2
      rw [if_neg (by simp [hname]), Result.bind_ok, hf] at h
      simp only at h
      have base : Quiet m cg cgA := (Quiet.still m cg).of_printed hprinted
      split_ifs at h <;> simp only [Result.ok.injEq] at h <;> rw [← h.2]
      · exact base.line _ h1
      · exact base.line _ h2
      · exact base.of_printed rfl

theorem getFunction_quiet {m : Printed} {fuel : Nat} {name : String}
    {cg cg1 : CodeGenerator} {v : Value}
    (h1 : Printed.line "Redefinition of function" ≠ m)
    (h2 : Printed.line "Redefinition of function with different number of args" ≠ m)
    (h : cg.getFunction fuel name = .ok v cg1) : Quiet m cg cg1 := by
  cases fuel with
  | zero => cases h
  | succ fuel =>
    simp only [CodeGenerator.getFunction] at h
    split_ifs at h
    · simp only [Result.ok.injEq] at h
      rw [← h.2]
      exact Quiet.still m cg
    · split at h
      · exact prototype_codegen_quiet h1 h2 h
      · simp only [Result.ok.injEq] at h
        rw [← h.2]
        exact Quiet.still m cg

theorem erase_printed {v : Value} {cg cg1 : CodeGenerator}
    (h : EraseFromParentAsFunction v cg = .ok () cg1) : cg1.printed = cg.printed := by
  unfold EraseFromParentAsFunction at h
  split at h
  · cases h
  · simp only [Result.ok.injEq] at h
    rw [← h.2]

theorem enter_quiet {m : Printed} {fuel : Nat} {proto : PrototypeAST}
    {cg cg1 : CodeGenerator} {v : Value}
    (h1 : Printed.line "Redefinition of function" ≠ m)
    (h2 : Printed.line "Redefinition of function with different number of args" ≠ m)
    (h : FunctionAST.enter fuel proto cg = .ok v cg1) : Quiet m cg cg1 := by
  simp only [FunctionAST.enter] at h
  obtain ⟨fv, cgA, hg, h⟩ := Result.bind_eq_ok h
  have q : Quiet m cg cgA := (getFunction_quiet h1 h2 hg).from_printed rfl
  split_ifs at h
  · obtain ⟨_, cgX, he, h⟩ := Result.bind_eq_ok h
    simp only [Result.ok.injEq] at h
    rw [← h.2]
    exact q.of_printed (erase_printed he)
  · obtain ⟨bb, cg2, hb, h⟩ := Result.bind_eq_ok h
    have hp2 : cg2.printed = cgA.printed := printed_of_obs (obs_addBasicBlock hb)
    split at h
    · simp only [Result.ok.injEq] at h
      rw [← h.2]
      exact q.of_printed hp2
    · cases h

mutual

/-- Lowering a tree whose Binary nodes all have table operators never prints
`invalid binary operator`. -/
theorem codegen_never_invalid_operator (fuel : Nat) :
    ∀ (e : ExprAST) (cg cg1 : CodeGenerator) (v : Value),
      e.opsOk = true → e.CodeGen fuel cg = .ok v cg1 → Quiet invalidOperator cg cg1
  | .NumberExprAST _, cg, cg1, v, _, h => by
    simp only [ExprAST.CodeGen, Result.ok.injEq] at h
    rw [← h.2]
    exact Quiet.still _ cg
  | .VariableExprAST name, cg, cg1, v, _, h => by
    simp only [ExprAST.CodeGen] at h
    split at h <;> simp only [Result.ok.injEq] at h <;> rw [← h.2]
    · exact Quiet.still _ cg
    · exact (Quiet.still _ cg).line _ (invalidOperator_ne_messages name 0 0).1
  | .BinaryExprAST op l r, cg, cg1, v, he, h => by
    simp only [ExprAST.opsOk, Bool.and_eq_true, decide_eq_true_eq] at he
    simp only [ExprAST.CodeGen] at h
    obtain ⟨lv, cgl, hl, h⟩ := Result.bind_eq_ok h
    obtain ⟨rv, cgr, hr, h⟩ := Result.bind_eq_ok h
    have q := (codegen_never_invalid_operator fuel l cg cgl lv he.1.2 hl).andThen
      (codegen_never_invalid_operator fuel r cgl cgr rv he.2 hr)
    split_ifs at h with _ h1 h2 h3 h4 h5 h6 <;> simp only [Result.ok.injEq] at h <;>
      rw [← h.2]
    · exact q
    · exact q.of_printed rfl
    · exact q.of_printed rfl
    · exact q.of_printed rfl
    · exact q.of_printed rfl
    · exact q.of_printed rfl
    · exact q.of_printed rfl
    · have := he.1.1
      simp [tableOperators, h1, h2, h3, h5, h6] at this
  | .CallExprAST callee args, cg, cg1, v, he, h => by
    simp only [ExprAST.opsOk] at he
    simp only [ExprAST.CodeGen] at h
    obtain ⟨fv, cgf, hgf, h⟩ := Result.bind_eq_ok h
    have q := getFunction_quiet invalidOperator_ne_redefinition.1
      invalidOperator_ne_redefinition.2 hgf
    split_ifs at h
    · simp only [Result.ok.injEq] at h
      rw [← h.2]
      exact q.line _ (invalidOperator_ne_messages callee 0 0).2.1
    · split at h
      · cases h
      · split_ifs at h
        · simp only [Result.ok.injEq] at h
          rw [← h.2]
          exact q.line _ (invalidOperator_ne_messages callee _ _).2.2
        · obtain ⟨vals, cgl, hloop, h⟩ := Result.bind_eq_ok h
          have ql := q.andThen (loop_never_invalid_operator fuel args [] cgf cgl vals he hloop)
          split at h <;> simp only [Result.ok.injEq] at h <;> rw [← h.2]
          · exact ql
          · exact ql.of_printed rfl
  | .PrototypeAST proto, cg, cg1, v, _, h => by
    simp only [ExprAST.CodeGen] at h
    exact prototype_codegen_quiet invalidOperator_ne_redefinition.1
      invalidOperator_ne_redefinition.2 h
  | .FunctionAST proto body, cg, cg1, v, he, h => by
    simp only [ExprAST.opsOk] at he
    simp only [ExprAST.CodeGen] at h
    obtain ⟨fv, cgE, hent, h⟩ := Result.bind_eq_ok h
    have q := enter_quiet invalidOperator_ne_redefinition.1
      invalidOperator_ne_redefinition.2 hent
    split_ifs at h
    · simp only [Result.ok.injEq] at h
      rw [← h.2]
      exact q
    · obtain ⟨rv, cgB, hb, h⟩ := Result.bind_eq_ok h
      have qb := q.andThen (codegen_never_invalid_operator fuel body cgE cgB rv he hb)
      split_ifs at h
      · simp only [Result.ok.injEq] at h
        rw [← h.2]
        exact qb.of_printed rfl
      · obtain ⟨_, cgX, hx, h⟩ := Result.bind_eq_ok h
        simp only [Result.ok.injEq] at h
        rw [← h.2]
        exact qb.of_printed (erase_printed hx)
  | .IfExprAST c t e, cg, cg1, v, he, h => by
    simp only [ExprAST.opsOk, Bool.and_eq_true] at he
    simp only [ExprAST.CodeGen] at h
    obtain ⟨cond, cgc, hc, h⟩ := Result.bind_eq_ok h
    have qc := codegen_never_invalid_operator fuel c cg cgc cond he.1.1 hc
    split_ifs at h
    · simp only [Result.ok.injEq] at h
      rw [← h.2]
      exact qc
    · obtain ⟨fv, cg2, hp, h⟩ := Result.bind_eq_ok h
      have h2 := insertBlockParent_state hp
      obtain ⟨tb, cg3, hb1, h⟩ := Result.bind_eq_ok h
      obtain ⟨eb, cg4, hb2, h⟩ := Result.bind_eq_ok h
      obtain ⟨mb, cg5, hb3, h⟩ := Result.bind_eq_ok h
      obtain ⟨tv, cg7, ht, h⟩ := Result.bind_eq_ok h
      have o5 : cg5.printed = cgc.printed := by
        rw [printed_of_obs (obs_addBasicBlock hb3), printed_of_obs (obs_addBasicBlock hb2),
          printed_of_obs (obs_addBasicBlock hb1), h2]
        rfl
      have q7 : Quiet invalidOperator cg cg7 := qc.andThen
        ((codegen_never_invalid_operator fuel t _ cg7 tv he.1.2 ht).from_printed o5)
      split_ifs at h
      · simp only [Result.ok.injEq] at h
        rw [← h.2]
        exact q7
      · obtain ⟨ev, cg9, hev, h⟩ := Result.bind_eq_ok h
        have q9 : Quiet invalidOperator cg cg9 := q7.andThen
          ((codegen_never_invalid_operator fuel e _ cg9 ev he.2 hev).from_printed rfl)
        split_ifs at h
        · simp only [Result.ok.injEq] at h
          rw [← h.2]
          exact q9
        · split at h
          · simp only [Result.ok.injEq] at h
            rw [← h.2]
            exact q9.of_printed rfl
          · cases h

/-- The same for the loop over the arguments of a call. -/
theorem loop_never_invalid_operator (fuel : Nat) :
    ∀ (args : List ExprAST) (vals : List Value) (cg cg1 : CodeGenerator)
      (r : Option (List Value)),
      ExprAST.allOpsOk args = true → CallExprAST.loop fuel args vals cg = .ok r cg1 →
        Quiet invalidOperator cg cg1
  | [], vals, cg, cg1, r, _, h => by
    simp only [CallExprAST.loop, Result.ok.injEq] at h
    rw [← h.2]
    exact Quiet.still _ cg
  | arg :: rest, vals, cg, cg1, r, he, h => by
    simp only [ExprAST.allOpsOk, Bool.and_eq_true] at he
    simp only [CallExprAST.loop] at h
    obtain ⟨av, cga, ha, h⟩ := Result.bind_eq_ok h
    have q1 := codegen_never_invalid_operator fuel arg cg cga av he.1 ha
    split_ifs at h
    · simp only [Result.ok.injEq] at h
      rw [← h.2]
      exact q1
    · obtain ⟨av2, cgb, hb, h⟩ := Result.bind_eq_ok h
      exact (q1.andThen (codegen_never_invalid_operator fuel arg cga cgb av2 he.1 hb)).andThen
        (loop_never_invalid_operator fuel rest (vals ++ [av2]) cgb cg1 r he.2 h)

end

theorem prototype_node_opsOk {fuel : Nat} {p p1 : Parser} {e : ExprAST}
    (h : ParsePrototype fuel p = .ok (some e) p1) : e.opsOk = true := by
  unfold ParsePrototype at h
  split_ifs at h with hty
  · simp at h
  · obtain ⟨_, pa, _, h⟩ := Result.bind_eq_ok h
    obtain ⟨b, pb, _, h⟩ := Result.bind_eq_ok h
    cases b with
    | false => simp at h
    | true =>
      simp only [Bool.not_true, Bool.false_eq_true, if_false] at h
      obtain ⟨args, pc, _, h⟩ := Result.bind_eq_ok h
      obtain ⟨b2, pd, _, h⟩ := Result.bind_eq_ok h
      cases b2 with
      | false => simp at h
      | true =>
        simp only [Bool.not_true, Bool.false_eq_true, if_false, Result.ok.injEq,
          Option.some.injEq] at h
        rw [← h.1]
        rfl

/-- C18. A node returned by a parser entry point (`ParseExpr`,
`ParseDefinition`, `ParseExtern`, `ParseTopLevelExpr`) has, in every Binary
node, an operator among `=`, `<`, `+`, `-`, `*`; lowering it never prints
`invalid binary operator`; and the lowering dispatch handles each of the five
operators: on two lowered operands it returns a value. -/
theorem parser_and_lowering_operators_agree (fuel : Nat) (p p1 : Parser) (e : ExprAST)
    (hparse : ParseExpr fuel p = .ok (some e) p1 ∨ ParseDefinition fuel p = .ok (some e) p1 ∨
      ParseExtern fuel p = .ok (some e) p1 ∨ ParseTopLevelExpr fuel p = .ok (some e) p1) :
    e.opsOk = true ∧
    (∀ (fuel2 : Nat) (cg cg1 : CodeGenerator) (v : Value), e.CodeGen fuel2 cg = .ok v cg1 →
      ∃ out, cg1.printed = cg.printed ++ out ∧ invalidOperator ∉ out) ∧
    (∀ op ∈ tableOperators, ∀ (a b : Int) (fuel2 : Nat) (cg : CodeGenerator),
      ∃ v cg1, ExprAST.CodeGen fuel2 (.BinaryExprAST op (.NumberExprAST a) (.NumberExprAST b))
        cg = .ok v cg1 ∧ v.IsNil = false) := by
  have hops : e.opsOk = true := by
    rcases hparse with h | h | h | h
    · exact (parsers_opsOk fuel).2.2.2.2.2.1 _ _ _ h
    · unfold ParseDefinition at h
      obtain ⟨_, pa, _, h⟩ := Result.bind_eq_ok h
      obtain ⟨proto, pb, _, h⟩ := Result.bind_eq_ok h
      cases proto with
      | none => simp at h
      | some proto =>
        obtain ⟨body, pc, hbody, h⟩ := Result.bind_eq_ok h
        cases body with
        | none => simp at h
        | some body =>
          obtain ⟨_, pd, _, h⟩ := Result.bind_eq_ok h
          split at h
          · simp only [Result.ok.injEq, Option.some.injEq] at h
            rw [← h.1]
            simp only [ExprAST.opsOk]
            exact (parsers_opsOk fuel).2.2.2.2.2.1 _ _ _ hbody
          · cases h
    · unfold ParseExtern at h
      obtain ⟨_, pa, _, h⟩ := Result.bind_eq_ok h
      obtain ⟨ast, pb, hast, h⟩ := Result.bind_eq_ok h
      cases ast with
      | none => simp at h
      | some ast =>
        obtain ⟨_, pc, _, h⟩ := Result.bind_eq_ok h
        simp only [Result.ok.injEq, Option.some.injEq] at h
        rw [← h.1]
        exact prototype_node_opsOk hast
    · unfold ParseTopLevelExpr at h
      obtain ⟨body, pa, hbody, h⟩ := Result.bind_eq_ok h
      cases body with
      | none => simp at h
      | some body =>
        simp only [Result.ok.injEq, Option.some.injEq] at h
        rw [← h.1]
        simp only [ExprAST.opsOk]
        exact (parsers_opsOk fuel).2.2.2.2.2.1 _ _ _ hbody
  refine ⟨hops, fun fuel2 cg cg1 v h => codegen_never_invalid_operator fuel2 e cg cg1 v hops h,
    ?_⟩
  intro op hop a b fuel2 cg
  simp only [tableOperators, List.mem_cons, List.mem_singleton, List.mem_nil_iff,
    or_false] at hop
  rcases hop with rfl | rfl | rfl | rfl | rfl <;>
    simp [ExprAST.CodeGen, Value.IsNil, CodeGenerator.create]

/-- C18 at `3 + 4 * 2`, parsed by `ParseExpr`. -/
theorem parser_and_lowering_operators_agree_witness :
    (ExprAST.BinaryExprAST "+" (.NumberExprAST 3)
      (.BinaryExprAST "*" (.NumberExprAST 4) (.NumberExprAST 2))).opsOk = true ∧
    (∀ (fuel2 : Nat) (cg cg1 : CodeGenerator) (v : Value),
      (ExprAST.BinaryExprAST "+" (.NumberExprAST 3)
        (.BinaryExprAST "*" (.NumberExprAST 4) (.NumberExprAST 2))).CodeGen fuel2 cg =
        .ok v cg1 →
      ∃ out, cg1.printed = cg.printed ++ out ∧ invalidOperator ∉ out) ∧
    (∀ op ∈ tableOperators, ∀ (a b : Int) (fuel2 : Nat) (cg : CodeGenerator),
      ∃ v cg1, ExprAST.CodeGen fuel2 (.BinaryExprAST op (.NumberExprAST a) (.NumberExprAST b))
        cg = .ok v cg1 ∧ v.IsNil = false) :=
  parser_and_lowering_operators_agree 5
    (Parser.ofSource decimalLiteral ["3", "+", "4", "*", "2"])
    ((Parser.ofSource decimalLiteral ["3", "+", "4", "*", "2"]).moved 5 ⟨"", .IDENTIFIER, 0⟩)
    _ (Or.inl rfl)

/-! ## Parser: any chain of operators keeps the source order (C19) -/

theorem atom_inorder (t : Token) : t.atom.inorder = [.operand t.atom] := by
  unfold Token.atom
  split_ifs <;> rfl

theorem items_append (l1 l2 : List (Token × Token)) :
    items (l1 ++ l2) = items l1 ++ items l2 := by
  induction l1 with
  | nil => rfl
  | cons oa l ih => simp [items, ih]

theorem flat_drop (rest : List (Token × Token)) (j : Nat) (x : List Token) :
    (flat rest ++ x).drop (2 * j) = flat (rest.drop j) ++ x ∨ rest.length < j := by
  induction rest generalizing j with
  | nil =>
    cases j with
    | zero => left; rfl
    | succ j => right; simp
  | cons oa rest ih =>
    cases j with
    | zero => left; rfl
    | succ j =>
      rcases ih j with h | h
      · left
        have : 2 * (j + 1) = 2 * j + 1 + 1 := by omega
        rw [this]
        simpa [flat] using h
      · right
        simp
        omega

theorem takeWhile_split {α : Type} (P1 P : α → Bool) (hP : ∀ x, P1 x = true → P x = true)
    (l : List α) :
    l.takeWhile P = l.takeWhile P1 ++ (l.drop (l.takeWhile P1).length).takeWhile P := by
  induction l with
  | nil => rfl
  | cons x l ih =>
    by_cases h1 : P1 x = true
    · simp [List.takeWhile_cons, h1, hP x h1, ih]
    · simp [List.takeWhile_cons, h1]

theorem takeWhile_length_le {α : Type} (P : α → Bool) (l : List α) :
    (l.takeWhile P).length ≤ l.length := by
  induction l with
  | nil => simp
  | cons x l ih =>
    simp only [List.takeWhile_cons]
    split
    · simp
      omega
    · simp

theorem getLast?_drop {α : Type} (l : List α) (j : Nat) (x : α)
    (h : (l.drop j).getLast? = some x) : l.getLast? = some x := by
  induction l generalizing j with
  | nil => simp at h
  | cons a l ih =>
    cases j with
    | zero => simpa using h
    | succ j =>
      simp only [List.drop_succ_cons] at h
      have := ih j h
      cases l with
      | nil => simp at this
      | cons b l => simpa [List.getLast?_cons_cons] using this

theorem tokens_at {p : Parser} {k : Nat} {l : List Token}
    (h : p.lexer.tokens.drop (p.lexer.index + k) = l) (j : Nat) :
    p.lexer.tokens[p.lexer.index + (k + j)]? = l[j]? := by
  rw [← h, List.getElem?_drop, Nat.add_assoc]

theorem headTok_flat (rest : List (Token × Token)) (e : Token) (tail : List Token) :
    (flat rest ++ e :: tail)[0]? = some (headTok rest e) := by
  cases rest <;> simp [flat, headTok]

theorem headTok_not_paren {rest : List (Token × Token)} {e : Token} {a : Token}
    (hrest : ∀ oa ∈ rest, oa.1.isOperator ∧ oa.2.atomic)
    (hlast : rest = [] → a.ty = .IDENTIFIER → e.name ≠ "(") :
    a.ty = .IDENTIFIER → (headTok rest e).name ≠ "(" := by
  intro ha
  cases rest with
  | nil => exact hlast rfl ha
  | cons oa rest => exact operator_name_ne_paren (hrest oa (List.mem_cons_self _ _)).1

theorem climbed_cons_stop {exprPrec : Int} {o a : Token} {rest : List (Token × Token)}
    (h : tokenPrecedence o < exprPrec) : climbed exprPrec ((o, a) :: rest) = [] := by
  simp [climbed, List.takeWhile_cons, h]

theorem climbed_cons_go {exprPrec : Int} {o a : Token} {rest : List (Token × Token)}
    (h : ¬ tokenPrecedence o < exprPrec) :
    climbed exprPrec ((o, a) :: rest) = (o, a) :: climbed exprPrec rest := by
  simp [climbed, List.takeWhile_cons, not_lt.mp h]

theorem climbed_split {q exprPrec : Int} (h : exprPrec ≤ q) (rest : List (Token × Token)) :
    climbed exprPrec rest = climbed q rest ++
      climbed exprPrec (rest.drop (climbed q rest).length) := by
  unfold climbed
  apply takeWhile_split
  intro x hx
  simp only [decide_eq_true_eq] at hx ⊢
  omega

theorem climbed_all {rest : List (Token × Token)}
    (hrest : ∀ oa ∈ rest, oa.1.isOperator ∧ oa.2.atomic) : climbed 0 rest = rest := by
  unfold climbed
  rw [List.takeWhile_eq_self_iff]
  intro oa hoa
  simpa using operator_prec_nonneg (hrest oa hoa).1

/-- The loop of `ParseBinOpRHS` on a chain of (operator, primary) pairs: it
consumes the longest run of pairs whose operator has at least the minimum
precedence and lists them in source order to the right of its left operand. -/
theorem climb (n : Nat) : ∀ (rest : List (Token × Token)) (fuel : Nat) (exprPrec : Int)
    (LHS : ExprAST) (p : Parser) (k : Nat) (e : Token) (tail : List Token),
    rest.length ≤ n → rest.length + 2 ≤ fuel → 0 ≤ exprPrec →
    p.lexer.tokens.drop (p.lexer.index + k) = flat rest ++ e :: tail →
    (∀ oa ∈ rest, oa.1.isOperator ∧ oa.2.atomic) →
    (∀ oa, rest.getLast? = some oa → oa.2.ty = .IDENTIFIER → e.name ≠ "(") →
    tokenPrecedence e = -1 →
    ∃ T, ParseBinOpRHS fuel exprPrec LHS (p.moved k (headTok rest e)) =
        .ok (some T) (p.moved (k + 2 * (climbed exprPrec rest).length)
          (headTok (rest.drop (climbed exprPrec rest).length) e)) ∧
      T.inorder = LHS.inorder ++ items (climbed exprPrec rest) := by
  induction n with
  | zero =>
    intro rest fuel exprPrec LHS p k e tail hn hfuel h0 hdrop hrest hcall he
    have hnil : rest = [] := List.length_eq_zero.mp (Nat.le_zero.mp hn)
    subst hnil
    obtain ⟨f, rfl⟩ : ∃ f, fuel = f + 1 := ⟨fuel - 1, by omega⟩
    refine ⟨LHS, ?_, by simp [climbed, items]⟩
    have hs : tokenPrecedence (p.moved k e).lexer.current < exprPrec := by
      show tokenPrecedence e < exprPrec
      omega
    simpa [climbed, headTok] using binop_stop f exprPrec LHS (p.moved k e) hs
  | succ n ih =>
    intro rest fuel exprPrec LHS p k e tail hn hfuel h0 hdrop hrest hcall he
    cases rest with
    | nil =>
      obtain ⟨f, rfl⟩ : ∃ f, fuel = f + 1 := ⟨fuel - 1, by omega⟩
      refine ⟨LHS, ?_, by simp [climbed, items]⟩
      have hs : tokenPrecedence (p.moved k e).lexer.current < exprPrec := by
        show tokenPrecedence e < exprPrec
        omega
      simpa [climbed, headTok] using binop_stop f exprPrec LHS (p.moved k e) hs
    | cons oa rest1 =>
      obtain ⟨o, a⟩ := oa
      simp only [List.length_cons] at hn hfuel
      by_cases hstop : tokenPrecedence o < exprPrec
      · obtain ⟨f, rfl⟩ : ∃ f, fuel = f + 1 := ⟨fuel - 1, by omega⟩
        refine ⟨LHS, ?_, by simp [climbed_cons_stop hstop, items]⟩
        rw [climbed_cons_stop hstop]
        exact binop_stop f exprPrec LHS (p.moved k o) hstop
      · obtain ⟨f, rfl⟩ : ∃ f, fuel = f + 3 := ⟨fuel - 3, by omega⟩
        have hrest1 : ∀ oa ∈ rest1, oa.1.isOperator ∧ oa.2.atomic :=
          fun oa h => hrest oa (List.mem_cons_of_mem _ h)
        have hoa := hrest (o, a) (List.mem_cons_self _ _)
        have ha : p.lexer.tokens[p.lexer.index + (k + 1)]? = some a := by
          have := tokens_at hdrop 1
          simpa [flat] using this
        have hu : p.lexer.tokens[p.lexer.index + (k + 1 + 1)]? = some (headTok rest1 e) := by
          have := tokens_at hdrop 2
          rw [Nat.add_assoc k 1 1, this, ← headTok_flat rest1 e tail]
          simp [flat]
        have hdrop1 : p.lexer.tokens.drop (p.lexer.index + (k + 1 + 1)) =
            flat rest1 ++ e :: tail := by
          have h2 : p.lexer.tokens.drop (p.lexer.index + (k + 1 + 1)) =
              (p.lexer.tokens.drop (p.lexer.index + k)).drop 2 := by
            rw [List.drop_drop]
            congr 1
          rw [h2, hdrop]
          simp [flat]
        have hlast : rest1 = [] → a.ty = .IDENTIFIER → e.name ≠ "(" := by
          intro hnil
          subst hnil
          exact hcall (o, a) rfl
        have hcall1 : ∀ oa, rest1.getLast? = some oa → oa.2.ty = .IDENTIFIER → e.name ≠ "(" := by
          intro oa h
          apply hcall oa
          cases rest1 with
          | nil => simp at h
          | cons b l => simpa [List.getLast?_cons_cons] using h
        have hnext : (p.moved k o).next = .ok a (p.moved (k + 1) a) := next_moved ha
        have hprim := primary_atomic f p (k + 1) a (headTok rest1 e) hu hoa.2
          (headTok_not_paren hrest1 hlast)
        have ho0 := operator_prec_nonneg hoa.1
        by_cases hp : tokenPrecedence o < tokenPrecedence (headTok rest1 e)
        · obtain ⟨T1, hT1, hin1⟩ := ih rest1 (f + 2) (tokenPrecedence o + 1) a.atom p
            (k + 1 + 1) e tail (by omega) (by omega) (by omega) hdrop1 hrest1 hcall1 he
          have hstep : ParseBinOpRHS (f + 3) exprPrec LHS (p.moved k (headTok ((o, a) :: rest1) e)) =
              ParseBinOpRHS (f + 2) exprPrec (.BinaryExprAST o.name LHS T1)
                (p.moved (k + 1 + 1 + 2 * (climbed (tokenPrecedence o + 1) rest1).length)
                  (headTok (rest1.drop (climbed (tokenPrecedence o + 1) rest1).length) e)) :=
            binop_nest (f + 2) exprPrec LHS a.atom T1 (p.moved k o) _ _ _ a
              hstop hnext hprim hp hT1
          have hsplit := climbed_split (not_lt.mp hstop |>.trans (by omega :
            tokenPrecedence o ≤ tokenPrecedence o + 1)) rest1
          have hle := takeWhile_length_le
            (fun oa : Token × Token => decide (tokenPrecedence o + 1 ≤ tokenPrecedence oa.1)) rest1
          have hle1 : (climbed (tokenPrecedence o + 1) rest1).length ≤ rest1.length := hle
          generalize climbed (tokenPrecedence o + 1) rest1 = t1 at hT1 hin1 hstep hsplit hle1
          have hdrop2 : p.lexer.tokens.drop (p.lexer.index + (k + 1 + 1 + 2 * t1.length)) =
              flat (rest1.drop t1.length) ++ e :: tail := by
            have h2 : p.lexer.tokens.drop (p.lexer.index + (k + 1 + 1 + 2 * t1.length)) =
                (p.lexer.tokens.drop (p.lexer.index + (k + 1 + 1))).drop (2 * t1.length) := by
              rw [List.drop_drop]
              congr 1
              omega
            rw [h2, hdrop1]
            rcases flat_drop rest1 t1.length (e :: tail) with h | h
            · exact h
            · omega
          obtain ⟨T, hT, hin⟩ := ih (rest1.drop t1.length) (f + 2) exprPrec
            (.BinaryExprAST o.name LHS T1) p (k + 1 + 1 + 2 * t1.length) e tail
            (by simp; omega) (by simp; omega) h0 hdrop2
            (fun oa h => hrest1 oa (List.mem_of_mem_drop h))
            (fun oa h => hcall1 oa (getLast?_drop _ _ _ h)) he
          refine ⟨T, ?_, ?_⟩
          · rw [hstep, hT, climbed_cons_go hstop, hsplit]
            simp only [List.length_cons, List.length_append, List.drop_succ_cons]
            have e1 : k + 1 + 1 + 2 * t1.length +
                2 * (climbed exprPrec (List.drop t1.length rest1)).length =
                k + 2 * (t1.length +
                  (climbed exprPrec (List.drop t1.length rest1)).length + 1) := by omega
            have e2 : List.drop (climbed exprPrec (List.drop t1.length rest1)).length
                (List.drop t1.length rest1) =
                List.drop (t1.length + (climbed exprPrec (List.drop t1.length rest1)).length)
                  rest1 := by
              rw [List.drop_drop]
            rw [e1, e2]
          · rw [hin, climbed_cons_go hstop, hsplit]
            simp [ExprAST.inorder, items, items_append, hin1, atom_inorder]
        · have hstep : ParseBinOpRHS (f + 3) exprPrec LHS (p.moved k (headTok ((o, a) :: rest1) e)) =
              ParseBinOpRHS (f + 2) exprPrec (.BinaryExprAST o.name LHS a.atom)
                (p.moved (k + 1 + 1) (headTok rest1 e)) :=
            binop_flat (f + 2) exprPrec LHS a.atom (p.moved k o) _ _ a hstop hnext hprim hp
          obtain ⟨T, hT, hin⟩ := ih rest1 (f + 2) exprPrec
            (.BinaryExprAST o.name LHS a.atom) p (k + 1 + 1) e tail
            (by omega) (by omega) h0 hdrop1 hrest1 hcall1 he
          refine ⟨T, ?_, ?_⟩
          · rw [hstep, hT, climbed_cons_go hstop]
            simp only [List.length_cons, List.drop_succ_cons]
            have e1 : k + 1 + 1 + 2 * (climbed exprPrec rest1).length =
                k + 2 * ((climbed exprPrec rest1).length + 1) := by omega
            rw [e1]
          · rw [hin, climbed_cons_go hstop]
            simp [ExprAST.inorder, items, atom_inorder]

/-- C19. On a token stream that starts, at the cursor, with atomic primaries
alternating with operators of the precedence table, `p0 o1 p1 ... on pn`,
followed by a token `e` without precedence (and, when `pn` is an identifier,
other than `(`), `ParseExpr` returns a tree, moves the cursor over exactly
these `2n+1` tokens to `e`, prints nothing, and the in-order traversal of the
tree is `p0, o1, p1, ..., on, pn` in source order. -/
theorem parse_expr_keeps_source_order (fuel : Nat) (p : Parser) (p0 : Token)
    (rest : List (Token × Token)) (e : Token) (tail : List Token)
    (hcur : p.lexer.current = p0)
    (htokens : p.lexer.tokens.drop p.lexer.index = p0 :: flat rest ++ e :: tail)
    (hp0 : p0.atomic)
    (hrest : ∀ oa ∈ rest, oa.1.isOperator ∧ oa.2.atomic)
    (hcall : (lastAtom p0 rest).ty = .IDENTIFIER → e.name ≠ "(")
    (he : tokenPrecedence e = -1) :
    ∃ T, ParseExpr (fuel + rest.length + 3) p =
        .ok (some T) (p.moved (2 * rest.length + 1) e) ∧
      T.inorder = .operand p0.atom :: items rest := by
  have hp : p = p.moved 0 p0 := by
    cases p with
    | mk lexer anonCount printed =>
      cases lexer
      simp only [Parser.moved, Nat.add_zero] at hcur ⊢
      simp [← hcur]
  have hdrop : p.lexer.tokens.drop (p.lexer.index + 1) = flat rest ++ e :: tail := by
    have h2 : p.lexer.tokens.drop (p.lexer.index + 1) =
        (p.lexer.tokens.drop p.lexer.index).drop 1 := by
      rw [List.drop_drop]
    rw [h2, htokens]
    simp
  have hu : p.lexer.tokens[p.lexer.index + (0 + 1)]? = some (headTok rest e) := by
    have := tokens_at hdrop 0
    rw [Nat.zero_add, ← Nat.add_zero 1, this, headTok_flat]
  have hlast : rest = [] → p0.ty = .IDENTIFIER → e.name ≠ "(" := by
    intro hnil
    subst hnil
    exact hcall
  have hcall1 : ∀ oa, rest.getLast? = some oa → oa.2.ty = .IDENTIFIER → e.name ≠ "(" := by
    intro oa h
    simpa [lastAtom, h] using hcall
  have hprim := primary_atomic (fuel + rest.length) p 0 p0 (headTok rest e) hu hp0
    (headTok_not_paren hrest hlast)
  rw [← hp] at hprim
  obtain ⟨T, hT, hin⟩ := climb rest.length rest (fuel + rest.length + 2) 0 p0.atom p (0 + 1)
    e tail (le_refl _) (by omega) (le_refl _) hdrop hrest hcall1 he
  rw [climbed_all hrest] at hT hin
  refine ⟨T, ?_, ?_⟩
  · rw [expr_of_primary _ _ _ _ hprim, hT]
    simp only [List.drop_length, headTok]
    have e1 : 0 + 1 + 2 * rest.length = 2 * rest.length + 1 := by omega
    rw [e1]
  · rw [hin, atom_inorder]
    rfl

/-- C19 at `a - 2 * b + 1 < c`: four operators, nine tokens, and the traversal
of the tree lists them in source order. -/
theorem parse_expr_keeps_source_order_witness :
    ∃ T, ParseExpr 7
        (Parser.ofSource decimalLiteral ["a", "-", "2", "*", "b", "+", "1", "<", "c"]) =
        .ok (some T)
          ((Parser.ofSource decimalLiteral
            ["a", "-", "2", "*", "b", "+", "1", "<", "c"]).moved 9 ⟨"", .IDENTIFIER, 0⟩) ∧
      T.inorder = [.operand (.VariableExprAST "a"), .operator "-",
        .operand (.NumberExprAST 2), .operator "*", .operand (.VariableExprAST "b"),
        .operator "+", .operand (.NumberExprAST 1), .operator "<",
        .operand (.VariableExprAST "c")] :=
  parse_expr_keeps_source_order 0
    (Parser.ofSource decimalLiteral ["a", "-", "2", "*", "b", "+", "1", "<", "c"])
    ⟨"a", .IDENTIFIER, 0⟩
    [(⟨"-", .SYMBOL, 0⟩, ⟨"2", .NUMBERLITERAL, 2⟩), (⟨"*", .SYMBOL, 0⟩, ⟨"b", .IDENTIFIER, 0⟩),
      (⟨"+", .SYMBOL, 0⟩, ⟨"1", .NUMBERLITERAL, 1⟩), (⟨"<", .IDENTIFIER, 0⟩, ⟨"c", .IDENTIFIER, 0⟩)]
    ⟨"", .IDENTIFIER, 0⟩ [⟨"EOF", .EOF, 0⟩]
    (by decide) (by decide) (by decide) (by decide) (by decide) (by decide)

/-! ## Lowering: an unbound variable fails the whole expression (C15) -/

theorem hasBlock_iff {cg : CodeGenerator} {b : Nat} :
    cg.hasBlock b = true ↔
      ∃ (i : Nat) (f : LLVMFunction), cg.Module.functions[i]? = some (some f) ∧ b ∈ f.blocks := by
  unfold CodeGenerator.hasBlock
  rw [List.any_eq_true]
  constructor
  · rintro ⟨o, ho, hb⟩
    cases o with
    | none => simp at hb
    | some f =>
      obtain ⟨i, hi⟩ := List.getElem?_of_mem ho
      exact ⟨i, f, hi, by simpa using hb⟩
  · rintro ⟨i, f, hi, hb⟩
    exact ⟨some f, List.getElem?_mem hi, by simpa using hb⟩

theorem Kept.rest (cg : CodeGenerator) : Kept cg cg :=
  ⟨fun _ h => h, rfl, rfl⟩

theorem Kept.chain {cg cg1 cg2 : CodeGenerator} (h1 : Kept cg cg1) (h2 : Kept cg1 cg2) :
    Kept cg cg2 :=
  ⟨fun b h => h2.1 b (h1.1 b h), h2.2.1.trans h1.2.1, h2.2.2.trans h1.2.2⟩

theorem Kept.of_same {cg cg1 : CodeGenerator} (hm : cg1.Module = cg.Module)
    (hp : cg1.Protos = cg.Protos) (hn : cg1.NamedValues = cg.NamedValues) : Kept cg cg1 :=
  ⟨fun b h => by simpa [CodeGenerator.hasBlock, hm] using h, hp, hn⟩

theorem ready_of_kept {cg cg1 : CodeGenerator} (hr : cg.ready) (hk : Kept cg cg1)
    (hb : cg1.Builder = cg.Builder) : cg1.ready := by
  obtain ⟨h1, h2⟩ := hr
  refine ⟨?_, by rw [hk.2.1]; exact h2⟩
  rw [hb]
  cases hB : cg.Builder with
  | none => rw [hB] at h1; simp at h1
  | some b =>
    rw [hB] at h1
    simp only [Option.any_some] at h1 ⊢
    exact hk.1 b h1

theorem ready_at {cg cg1 : CodeGenerator} {b : Nat} (hr : cg.ready) (hk : Kept cg cg1)
    (hb : cg1.Builder = some b) (hblock : cg1.hasBlock b = true) : cg1.ready := by
  refine ⟨?_, by rw [hk.2.1]; exact hr.2⟩
  rw [hb]
  simpa using hblock

theorem ready_builder {cg : CodeGenerator} (hr : cg.ready) :
    ∃ b, cg.Builder = some b ∧ cg.hasBlock b = true := by
  obtain ⟨h1, _⟩ := hr
  cases hB : cg.Builder with
  | none => rw [hB] at h1; simp at h1
  | some b =>
    rw [hB] at h1
    exact ⟨b, rfl, by simpa using h1⟩

theorem GoMap.get_mem {α : Type} {m : GoMap α} {k : String} {v : α}
    (h : GoMap.get m k = some v) : (k, v) ∈ m := by
  induction m with
  | nil => cases h
  | cons e m ih =>
    obtain ⟨k1, v1⟩ := e
    simp only [GoMap.get] at h
    split_ifs at h with hk
    · simp only [Option.some.injEq] at h
      subst hk
      subst h
      exact List.mem_cons_self _ _
    · exact List.mem_cons_of_mem _ (ih h)

theorem set_getElem?_self {α : Type} {l : List α} {i : Nat} (x : α) (h : i < l.length) :
    (l.set i x)[i]? = some x := by
  simp [List.getElem?_set, h]

theorem set_getElem?_ne {α : Type} {l : List α} {i j : Nat} (x : α) (h : i ≠ j) :
    (l.set i x)[j]? = l[j]? := by
  simp [List.getElem?_set, h]

/-- A new block is a block of the module afterwards and no block is lost. -/
theorem addBasicBlock_kept {cg : CodeGenerator} {i : Nat} {f : LLVMFunction}
    (hf : cg.func? (.function i) = some (i, f)) :
    ∃ cg1, AddBasicBlock (.function i) cg = .ok cg.fresh cg1 ∧ Kept cg cg1 ∧
      cg1.hasBlock cg.fresh = true ∧ cg1.Builder = cg.Builder ∧
      ∃ g, cg1.func? (.function i) = some (i, g) := by
  have hfi := (func?_eq_some hf).2
  have hlt : i < cg.Module.functions.length := by
    rcases Nat.lt_or_ge i cg.Module.functions.length with h | h
    · exact h
    · rw [List.getElem?_eq_none h] at hfi
      cases hfi
  have hset : ({ (cg.setFunc i { f with blocks := f.blocks ++ [cg.fresh] }) with
      fresh := cg.fresh + 1 } : CodeGenerator).Module.functions[i]? =
      some (some { f with blocks := f.blocks ++ [cg.fresh] }) :=
    set_getElem?_self _ hlt
  refine ⟨{ (cg.setFunc i { f with blocks := f.blocks ++ [cg.fresh] }) with
      fresh := cg.fresh + 1 }, by simp only [AddBasicBlock, hf], ⟨?_, rfl, rfl⟩, ?_, rfl,
    ⟨{ f with blocks := f.blocks ++ [cg.fresh] }, func?_of_getElem hset⟩⟩
  · intro b hb
    rw [hasBlock_iff] at hb ⊢
    obtain ⟨j, g, hg, hbg⟩ := hb
    by_cases hji : i = j
    · subst hji
      rw [hfi] at hg
      cases hg
      exact ⟨i, _, hset, by simp [hbg]⟩
    · exact ⟨j, g, (set_getElem?_ne _ hji).trans hg, hbg⟩
  · rw [hasBlock_iff]
    exact ⟨i, _, hset, by simp⟩

/-- In a ready session the builder's block has a parent function. -/
theorem insertBlockParent_ready {cg : CodeGenerator} (hr : cg.ready) :
    ∃ i f, cg.insertBlockParent = .ok (.function i) cg ∧
      cg.func? (.function i) = some (i, f) := by
  obtain ⟨b, hB, hb⟩ := ready_builder hr
  unfold CodeGenerator.insertBlockParent
  rw [hB]
  simp only
  cases hidx : cg.Module.functions.findIdx? (fun o => o.any fun f => decide (b ∈ f.blocks)) with
  | none =>
    rw [List.findIdx?_eq_none_iff] at hidx
    unfold CodeGenerator.hasBlock at hb
    rw [List.any_eq_true] at hb
    obtain ⟨o, ho, hob⟩ := hb
    rw [hidx o ho] at hob
    cases hob
  | some i =>
    have := List.findIdx?_of_eq_some hidx
    cases hf : cg.Module.functions[i]? with
    | none => rw [hf] at this; cases this
    | some o =>
      rw [hf] at this
      cases o with
      | none => simp at this
      | some f => exact ⟨i, f, rfl, func?_of_getElem hf⟩

theorem setName_blocks (f : LLVMFunction) (i : Nat) (name : String) :
    (SetName f i name).blocks = f.blocks := by
  unfold SetName
  dsimp only
  split_ifs <;> rfl

theorem setNames_blocks (args : List String) (l : List Nat) (f : LLVMFunction) :
    (l.foldl (fun f k => SetName f k (args.getD k "")) f).blocks = f.blocks := by
  induction l generalizing f with
  | nil => rfl
  | cons k l ih => rw [List.foldl_cons, ih, setName_blocks]

theorem kept_setFunc {cg : CodeGenerator} {i : Nat} {f g : LLVMFunction}
    (hf : cg.Module.functions[i]? = some (some f)) (hb : g.blocks = f.blocks) :
    Kept cg (cg.setFunc i g) ∧ (cg.setFunc i g).func? (.function i) = some (i, g) := by
  have hlt : i < cg.Module.functions.length := by
    rcases Nat.lt_or_ge i cg.Module.functions.length with h | h
    · exact h
    · rw [List.getElem?_eq_none h] at hf
      cases hf
  have hset : (cg.setFunc i g).Module.functions[i]? = some (some g) :=
    set_getElem?_self _ hlt
  refine ⟨⟨?_, rfl, rfl⟩, func?_of_getElem hset⟩
  intro b hbk
  rw [hasBlock_iff] at hbk ⊢
  obtain ⟨j, h, hh, hbh⟩ := hbk
  by_cases hji : i = j
  · subst hji
    rw [hf] at hh
    cases hh
    exact ⟨i, g, hset, by rw [hb]; exact hbh⟩
  · exact ⟨j, h, (set_getElem?_ne _ hji).trans hh, hbh⟩

theorem kept_addFunction (cg : CodeGenerator) (name : String) (k : Nat) :
    Kept cg (AddFunction cg name k) := by
  refine ⟨?_, rfl, rfl⟩
  intro b hb
  rw [hasBlock_iff] at hb ⊢
  obtain ⟨j, h, hh, hbh⟩ := hb
  refine ⟨j, h, ?_, hbh⟩
  have hlt : j < cg.Module.functions.length := by
    rcases Nat.lt_or_ge j cg.Module.functions.length with h1 | h1
    · exact h1
    · rw [List.getElem?_eq_none h1] at hh
      cases hh
  simp only [AddFunction]
  rw [List.getElem?_append_left hlt]
  exact hh

/-- After `AddFunction` a function of the name asked for is found. -/
theorem namedFunction_addFunction (cg : CodeGenerator) {name : String} (hne : name ≠ "")
    (k : Nat) : ((AddFunction cg name k).Module.NamedFunction name).IsNil = false := by
  cases hv : (AddFunction cg name k).Module.NamedFunction name with
  | nil =>
    exfalso
    rw [namedFunction_nil_iff hne] at hv
    by_cases hmem : name ∈ cg.Module.names
    · obtain ⟨_, i, f, hi, hf⟩ := mem_names.mp hmem
      have hlt : i < cg.Module.functions.length := by
        rcases Nat.lt_or_ge i cg.Module.functions.length with h1 | h1
        · exact h1
        · rw [List.getElem?_eq_none h1] at hi
          cases hi
      refine hv i f ?_ hf
      simp only [AddFunction]
      rw [List.getElem?_append_left hlt]
      exact hi
    · have hnew : (AddFunction cg name k).Module.functions[cg.Module.functions.length]? =
          some (some (LLVMFunction.mk name (List.replicate k "") 0 [])) := by
        simp [AddFunction, hmem]
      exact hv _ _ hnew rfl
  | ConstFloat _ => rfl
  | function _ => rfl
  | param _ _ => rfl
  | instr _ => rfl

/-- `PrototypeAST.CodeGen` of a named prototype returns: no block is lost, the
builder stays where it is, and a value other than nil is a function of the
module. -/
theorem prototype_codegen_returns (fuel : Nat) (ast : PrototypeAST) (cg : CodeGenerator)
    (hne : ast.Name ≠ "") :
    ∃ v cg1, PrototypeAST.CodeGen (fuel + 1) ast cg = .ok v cg1 ∧ Kept cg cg1 ∧
      cg1.Builder = cg.Builder ∧ (v.IsNil = false → ∃ i f, cg1.func? v = some (i, f)) := by
  simp only [PrototypeAST.CodeGen]
  have hk := kept_addFunction cg ast.Name ast.Args.length
  have hb : (AddFunction cg ast.Name ast.Args.length).Builder = cg.Builder := rfl
  have hnf := namedFunction_addFunction cg hne ast.Args.length
  generalize AddFunction cg ast.Name ast.Args.length = cgA at hk hb hnf
  obtain ⟨_, i, f, hv, hfi, hname⟩ := namedFunction_spec (m := cgA.Module) rfl hnf
  have hf := func?_of_getElem hfi
  rw [hv, hf]
  simp only
  rw [if_neg (by simp [hname]), Result.bind_ok, hf]
  simp only
  split_ifs
  · exact ⟨_, _, rfl, hk.chain (Kept.of_same rfl rfl rfl), hb, fun h => by cases h⟩
  · exact ⟨_, _, rfl, hk.chain (Kept.of_same rfl rfl rfl), hb, fun h => by cases h⟩
  · have hset : Kept cgA (cgA.setFunc i ((List.range f.params.length).foldl
          (fun f k => SetName f k (ast.Args.getD k "")) f)) ∧
        (cgA.setFunc i ((List.range f.params.length).foldl
          (fun f k => SetName f k (ast.Args.getD k "")) f)).func? (.function i) = some (i, _) :=
      kept_setFunc hfi (setNames_blocks _ _ _)
    obtain ⟨hks, hfs⟩ := hset
    exact ⟨_, _, rfl, hk.chain hks, hb, fun _ => ⟨_, _, hfs⟩⟩

/-- `getFunction` returns when every stored prototype has a name. -/
theorem getFunction_returns (fuel : Nat) (name : String) (cg : CodeGenerator)
    (hp : ∀ e ∈ cg.Protos, e.2.Name ≠ "") :
    ∃ v cg1, cg.getFunction (fuel + 2) name = .ok v cg1 ∧ Kept cg cg1 ∧
      cg1.Builder = cg.Builder ∧ (v.IsNil = false → ∃ i f, cg1.func? v = some (i, f)) := by
  simp only [CodeGenerator.getFunction]
  by_cases hnil : (cg.Module.NamedFunction name).IsNil = true
  · rw [hnil]
    simp only [Bool.not_true, Bool.false_eq_true, if_false]
    cases hget : cg.Protos.get name with
    | none => exact ⟨_, _, rfl, Kept.rest cg, rfl, fun h => by cases h⟩
    | some ast => exact prototype_codegen_returns fuel ast cg (hp _ (GoMap.get_mem hget))
  · have hnil2 : (cg.Module.NamedFunction name).IsNil = false := by simpa using hnil
    rw [hnil2]
    simp only [Bool.not_false, if_true]
    obtain ⟨_, i, f, hv, hfi, _⟩ := namedFunction_spec (m := cg.Module) rfl hnil2
    refine ⟨_, _, rfl, Kept.rest cg, rfl, fun _ => ⟨i, f, ?_⟩⟩
    rw [hv]
    exact func?_of_getElem hfi

mutual

/-- In a ready session the lowering of an expression returns, in a ready
session with the same scope, and the value is nil when the expression
mentions a variable the scope does not bind. -/
theorem codegen_returns (fuel : Nat) :
    ∀ (e : ExprAST) (cg : CodeGenerator), e.isExpr = true → cg.ready →
      ∃ v cg1, e.CodeGen (fuel + 2) cg = .ok v cg1 ∧ cg1.ready ∧ Kept cg cg1 ∧
        ((∃ x ∈ e.vars, cg.NamedValues.get x = none) → v = .nil)
  | .NumberExprAST n, cg, _, hr =>
    ⟨.ConstFloat n, cg, by simp only [ExprAST.CodeGen], hr, Kept.rest cg,
      by simp [ExprAST.vars]⟩
  | .VariableExprAST name, cg, _, hr => by
    simp only [ExprAST.CodeGen, ExprAST.vars]
    cases hget : cg.NamedValues.get name with
    | some val => exact ⟨val, cg, rfl, hr, Kept.rest cg, by simp [hget]⟩
    | none =>
      exact ⟨.nil, _, rfl, ready_of_kept hr (Kept.of_same rfl rfl rfl) rfl,
        Kept.of_same rfl rfl rfl, fun _ => rfl⟩
  | .BinaryExprAST op l r, cg, he, hr => by
    simp only [ExprAST.isExpr, Bool.and_eq_true] at he
    obtain ⟨lv, cg1, hl, hr1, k1, hu1⟩ := codegen_returns fuel l cg he.1 hr
    obtain ⟨rv, cg2, hrr, hr2, k2, hu2⟩ := codegen_returns fuel r cg1 he.2 hr1
    simp only [ExprAST.CodeGen, hl, Result.bind_ok, hrr]
    by_cases hn : (lv.IsNil || rv.IsNil) = true
    · rw [if_pos hn]
      exact ⟨.nil, cg2, rfl, hr2, k1.chain k2, fun _ => rfl⟩
    · rw [if_neg hn]
      have hcontra : ¬ ∃ x ∈ (ExprAST.BinaryExprAST op l r).vars,
          cg.NamedValues.get x = none := by
        rintro ⟨x, hx, hget⟩
        simp only [ExprAST.vars, List.mem_append] at hx
        apply hn
        rcases hx with hx | hx
        · rw [hu1 ⟨x, hx, hget⟩]
          rfl
        · rw [hu2 ⟨x, hx, by rw [k1.2.2]; exact hget⟩]
          simp [Value.IsNil]
      split_ifs
      all_goals exact ⟨_, _, rfl, ready_of_kept hr2 (Kept.of_same rfl rfl rfl) rfl,
        (k1.chain k2).chain (Kept.of_same rfl rfl rfl), fun h => absurd h hcontra⟩
  | .CallExprAST callee args, cg, he, hr => by
    simp only [ExprAST.isExpr] at he
    obtain ⟨fv, cg1, hg, kg, hb, hf⟩ := getFunction_returns fuel callee cg hr.2
    have hr1 : cg1.ready := ready_of_kept hr kg hb
    simp only [ExprAST.CodeGen, hg, Result.bind_ok]
    by_cases hnil : fv.IsNil = true
    · rw [if_pos hnil]
      exact ⟨.nil, _, rfl, ready_of_kept hr1 (Kept.of_same rfl rfl rfl) rfl,
        kg.chain (Kept.of_same rfl rfl rfl), fun _ => rfl⟩
    · rw [if_neg hnil]
      obtain ⟨i, f, hfi⟩ := hf (by simpa using hnil)
      rw [hfi]
      simp only
      by_cases hlen : f.params.length ≠ args.length
      · rw [if_pos hlen]
        exact ⟨.nil, _, rfl, ready_of_kept hr1 (Kept.of_same rfl rfl rfl) rfl,
          kg.chain (Kept.of_same rfl rfl rfl), fun _ => rfl⟩
      · rw [if_neg hlen]
        obtain ⟨r, cg2, hloop, hr2, k2, hu⟩ := loop_returns fuel args [] cg1 he hr1
        rw [hloop]
        simp only [Result.bind_ok]
        cases r with
        | none => exact ⟨.nil, cg2, rfl, hr2, kg.chain k2, fun _ => rfl⟩
        | some vals =>
          refine ⟨_, _, rfl, ready_of_kept hr2 (Kept.of_same rfl rfl rfl) rfl,
            (kg.chain k2).chain (Kept.of_same rfl rfl rfl), fun h => ?_⟩
          obtain ⟨x, hx, hget⟩ := h
          simp only [ExprAST.vars] at hx
          have := hu ⟨x, hx, by rw [kg.2.2]; exact hget⟩
          cases this
  | .PrototypeAST _, _, he, _ => by simp [ExprAST.isExpr] at he
  | .FunctionAST _ _, _, he, _ => by simp [ExprAST.isExpr] at he
  | .IfExprAST c t e, cg, he, hr => by
    simp only [ExprAST.isExpr, Bool.and_eq_true] at he
    obtain ⟨cond, cg1, hc, hr1, k1, huc⟩ := codegen_returns fuel c cg he.1.1 hr
    simp only [ExprAST.CodeGen, hc, Result.bind_ok]
    by_cases hnc : cond.IsNil = true
    · rw [if_pos hnc]
      exact ⟨.nil, cg1, rfl, hr1, k1, fun _ => rfl⟩
    · rw [if_neg hnc]
      have hrX : (cg1.create (.FCmp .FloatONE) [cond, .ConstFloat 0] []).2.ready :=
        ready_of_kept hr1 (Kept.of_same rfl rfl rfl) rfl
      have kX : Kept cg (cg1.create (.FCmp .FloatONE) [cond, .ConstFloat 0] []).2 :=
        k1.chain (Kept.of_same rfl rfl rfl)
      obtain ⟨i, f, hins, hf2⟩ := insertBlockParent_ready hrX
      rw [hins]
      simp only [Result.bind_ok]
      obtain ⟨cg3, h3, k3, hb3, hB3, g3, hf3⟩ := addBasicBlock_kept hf2
      rw [h3]
      simp only [Result.bind_ok]
      obtain ⟨cg4, h4, k4, hb4, hB4, g4, hf4⟩ := addBasicBlock_kept hf3
      rw [h4]
      simp only [Result.bind_ok]
      obtain ⟨cg5, h5, k5, hb5, hB5, g5, hf5⟩ := addBasicBlock_kept hf4
      rw [h5]
      simp only [Result.bind_ok]
      have k5all : Kept cg cg5 := kX.chain (k3.chain (k4.chain k5))
      generalize (cg1.create (.FCmp .FloatONE) [cond, .ConstFloat 0] []).2.fresh = thenBlock
        at h3 hb3 ⊢
      generalize (cg1.create (.FCmp .FloatONE) [cond, .ConstFloat 0] []).1 = cmp
      generalize cg3.fresh = elseBlock at h4 hb4 ⊢
      generalize cg4.fresh = mergeBlock at h5 hb5 ⊢
      have kt : Kept cg { (cg5.create .CondBr [cmp] [thenBlock, elseBlock]).2 with
          Builder := some thenBlock } := k5all.chain (Kept.of_same rfl rfl rfl)
      have hrt : CodeGenerator.ready { (cg5.create .CondBr [cmp] [thenBlock, elseBlock]).2 with
          Builder := some thenBlock } :=
        ready_at hr kt rfl (k5.1 _ (k4.1 _ hb3))
      obtain ⟨tv, cg7, ht, hr7, k7, hut⟩ := codegen_returns fuel t _ he.1.2 hrt
      rw [ht]
      simp only [Result.bind_ok]
      by_cases hnt : tv.IsNil = true
      · rw [if_pos hnt]
        exact ⟨.nil, cg7, rfl, hr7, kt.chain k7, fun _ => rfl⟩
      · rw [if_neg hnt]
        obtain ⟨tb, hB7, _⟩ := ready_builder hr7
        have ke : Kept cg { (cg7.create .Br [] [mergeBlock]).2 with
            Builder := some elseBlock } := (kt.chain k7).chain (Kept.of_same rfl rfl rfl)
        have hre : CodeGenerator.ready { (cg7.create .Br [] [mergeBlock]).2 with
            Builder := some elseBlock } :=
          ready_at hr ke rfl (k7.1 _ (k5.1 _ hb4))
        obtain ⟨ev, cg9, hev, hr9, k9, hue⟩ := codegen_returns fuel e _ he.2 hre
        rw [hev]
        simp only [Result.bind_ok]
        by_cases hne : ev.IsNil = true
        · rw [if_pos hne]
          exact ⟨.nil, cg9, rfl, hr9, ke.chain k9, fun _ => rfl⟩
        · rw [if_neg hne]
          obtain ⟨eb, hB9, _⟩ := ready_builder hr9
          have hB8 : (cg7.create .Br [] [mergeBlock]).2.Builder = some tb := hB7
          have hB10 : (cg9.create .Br [] [mergeBlock]).2.Builder = some eb := hB9
          rw [hB8, hB10]
          simp only
          refine ⟨_, _, rfl,
            ready_at hr ((ke.chain k9).chain (Kept.of_same rfl rfl rfl)) rfl
              (k9.1 _ (k7.1 _ hb5)),
            (ke.chain k9).chain (Kept.of_same rfl rfl rfl), fun h => ?_⟩
          exfalso
          obtain ⟨x, hx, hget⟩ := h
          simp only [ExprAST.vars, List.mem_append] at hx
          rcases hx with (hx | hx) | hx
          · exact hnc (by rw [huc ⟨x, hx, hget⟩]; rfl)
          · exact hnt (by rw [hut ⟨x, hx, by rw [kt.2.2]; exact hget⟩]; rfl)
          · exact hne (by rw [hue ⟨x, hx, by rw [ke.2.2]; exact hget⟩]; rfl)

/-- The same for the loop over the arguments of a call: it returns, and it
returns nil when an argument mentions a variable the scope does not bind. -/
theorem loop_returns (fuel : Nat) :
    ∀ (args : List ExprAST) (vals : List Value) (cg : CodeGenerator),
      ExprAST.allExpr args = true → cg.ready →
      ∃ r cg1, CallExprAST.loop (fuel + 2) args vals cg = .ok r cg1 ∧ cg1.ready ∧
        Kept cg cg1 ∧
        ((∃ x ∈ ExprAST.allVars args, cg.NamedValues.get x = none) → r = none)
  | [], vals, cg, _, hr =>
    ⟨some vals, cg, by simp only [CallExprAST.loop], hr, Kept.rest cg,
      by simp [ExprAST.allVars]⟩
  | arg :: rest, vals, cg, he, hr => by
    simp only [ExprAST.allExpr, Bool.and_eq_true] at he
    obtain ⟨v1, cg1, h1, hr1, k1, hu1⟩ := codegen_returns fuel arg cg he.1 hr
    simp only [CallExprAST.loop, h1, Result.bind_ok]
    by_cases hn : v1.IsNil = true
    · rw [if_pos hn]
      exact ⟨none, cg1, rfl, hr1, k1, fun _ => rfl⟩
    · rw [if_neg hn]
      obtain ⟨v2, cg2, h2, hr2, k2, _⟩ := codegen_returns fuel arg cg1 he.1 hr1
      rw [h2]
      simp only [Result.bind_ok]
      obtain ⟨r, cg3, h3, hr3, k3, hu3⟩ := loop_returns fuel rest (vals ++ [v2]) cg2 he.2 hr2
      refine ⟨r, cg3, h3, hr3, (k1.chain k2).chain k3, fun h => ?_⟩
      obtain ⟨x, hx, hget⟩ := h
      simp only [ExprAST.allVars, List.mem_append] at hx
      rcases hx with hx | hx
      · exact absurd (by rw [hu1 ⟨x, hx, hget⟩]; rfl) hn
      · exact hu3 ⟨x, hx, by rw [k2.2.2, k1.2.2]; exact hget⟩

end

/-- C15. In a session in which a function body is being lowered (the builder
is positioned at a block of a function of the module and every stored
prototype has a name) and for every scope `NamedValues`: the lowering of an
expression built from Number, Variable, Binary, Call and If returns, leaves
the scope as it was, and returns nil when the expression contains anywhere a
Variable whose name the scope does not bind. `Variable{name}` alone returns
the bound value and leaves the session alone when the scope binds `name`, and
returns nil after printing `Unknown variable name` when it does not. -/
theorem unbound_variable_fails_the_expression (fuel : Nat) (e : ExprAST) (cg : CodeGenerator)
    (he : e.isExpr = true) (hready : cg.ready) :
    (∃ v cg1, e.CodeGen (fuel + 2) cg = .ok v cg1 ∧ cg1.NamedValues = cg.NamedValues ∧
      ((∃ x ∈ e.vars, cg.NamedValues.get x = none) → v = .nil)) ∧
    ∀ (fuel2 : Nat) (name : String) (s : CodeGenerator),
      (∀ v, s.NamedValues.get name = some v →
        ExprAST.CodeGen fuel2 (.VariableExprAST name) s = .ok v s) ∧
      (s.NamedValues.get name = none →
        ExprAST.CodeGen fuel2 (.VariableExprAST name) s =
          .ok .nil (s.error ("Unknown variable name " ++ name))) := by
  obtain ⟨v, cg1, h, _, hk, hu⟩ := codegen_returns fuel e cg he hready
  refine ⟨⟨v, cg1, h, hk.2.2, hu⟩, fun fuel2 name s => ⟨fun v hv => ?_, fun hv => ?_⟩⟩
  · simp only [ExprAST.CodeGen, hv]
  · simp only [ExprAST.CodeGen, hv]

/-- C15 in the session left by `def f : x { x }`, whose scope binds `x`
only: `x + (if x < 1 , y else f(x))` lowers to nil. -/
theorem unbound_variable_fails_the_expression_witness :
    ∃ cg1, ExprAST.CodeGen 2
        (.BinaryExprAST "+" (.VariableExprAST "x")
          (.IfExprAST (.BinaryExprAST "<" (.VariableExprAST "x") (.NumberExprAST 1))
            (.VariableExprAST "y") (.CallExprAST "f" [.VariableExprAST "x"])))
        (lowerAll 2 [.FunctionAST ⟨"f", ["x"]⟩ (.VariableExprAST "x")] NewCodeGen) =
      .ok .nil cg1 := by
  obtain ⟨⟨v, cg1, h, _, hu⟩, _⟩ := unbound_variable_fails_the_expression 0
    (.BinaryExprAST "+" (.VariableExprAST "x")
      (.IfExprAST (.BinaryExprAST "<" (.VariableExprAST "x") (.NumberExprAST 1))
        (.VariableExprAST "y") (.CallExprAST "f" [.VariableExprAST "x"])))
    (lowerAll 2 [.FunctionAST ⟨"f", ["x"]⟩ (.VariableExprAST "x")] NewCodeGen)
    (by decide) (by decide!)
  have hv : v = .nil := hu ⟨"y", by decide, by decide!⟩
  rw [hv] at h
  exact ⟨cg1, h⟩

end TestLang
